import Mathlib

/-! Verification of the per-attribute B-tree core of zedstore
(`src/backend/access/zedstore/zedstore_btree.c`).

The definitions below are a shallow embedding of that file.  Pages are
records over lists of items, block numbers are natural numbers, buffers
and latches disappear (the code under scrutiny is single-threaded once
latching is erased), and the handful of external collaborators that the
file calls into (page service constants, the TID increment macro, the
compression codec, the metapage service) are modelled from the spec,
each marked as such in its doc comment.  Fatal `elog(ERROR, ...)` exits
and out-of-fuel loops are modelled by `Option`/fuel where a function can
diverge or die. -/

namespace ZedStore

/-- A tuple identifier, `ItemPointerData`: a `(block number, offset number)`
pair ordered lexicographically.  Block numbers are 32-bit and offsets
16-bit in the source; the claims never exercise overflow of either, so
both components are plain naturals here. -/
structure ItemPointerData where
  ip_blkid : Nat
  ip_posid : Nat
deriving DecidableEq, Repr

instance : Inhabited ItemPointerData := ⟨⟨0, 0⟩⟩

/-- Comparison of two TIDs exactly as PostgreSQL's `ItemPointerCompare`:
block number first, then offset, yielding `-1`, `0` or `1`. -/
def ItemPointerCompare (a b : ItemPointerData) : Int :=
  if a.ip_blkid < b.ip_blkid then -1
  else if b.ip_blkid < a.ip_blkid then 1
  else if a.ip_posid < b.ip_posid then -1
  else if b.ip_posid < a.ip_posid then 1
  else 0

/-- Strict order on TIDs, `ItemPointerCompare a b < 0`. -/
def tidLt (a b : ItemPointerData) : Prop := ItemPointerCompare a b < 0

/-- Non-strict order on TIDs, `ItemPointerCompare a b ≤ 0`. -/
def tidLe (a b : ItemPointerData) : Prop := ItemPointerCompare a b ≤ 0

instance (a b : ItemPointerData) : Decidable (tidLt a b) :=
  inferInstanceAs (Decidable (_ < _))

instance (a b : ItemPointerData) : Decidable (tidLe a b) :=
  inferInstanceAs (Decidable (_ ≤ _))

/-- Modelled from the spec: TID increment is lexicographic, the offset
component rolling over into the block number.  (The increment macro lives
in a header outside the repository slice; the spec fixes its behaviour:
offsets start at 1 and `0xFFFF` is the last offset of a block.) -/
def ItemPointerIncrement (t : ItemPointerData) : ItemPointerData :=
  if t.ip_posid < 0xFFFF then ⟨t.ip_blkid, t.ip_posid + 1⟩ else ⟨t.ip_blkid + 1, 1⟩

/-- The largest legal block number, PostgreSQL's `MaxBlockNumber`. -/
def MaxBlockNumber : Nat := 0xFFFFFFFE

/-- The absolute high-key sentinel `(MaxBlockNumber, 0xFFFF)`. -/
def MaxTidSentinel : ItemPointerData := ⟨MaxBlockNumber, 0xFFFF⟩

/-- The probe key used to descend to the rightmost leaf,
`ItemPointerSet(&rightmostkey, MaxBlockNumber, 0xfffe)`. -/
def rightmostkey : ItemPointerData := ⟨MaxBlockNumber, 0xFFFE⟩

/-- One downlink of an internal page: `ZSBtreeInternalPageItem`, a
`(tid, child block)` pair. -/
structure ZSBtreeInternalPageItem where
  tid : ItemPointerData
  childblk : Nat
deriving DecidableEq, Repr

instance : Inhabited ZSBtreeInternalPageItem := ⟨⟨⟨0, 0⟩, 0⟩⟩

/-- The loop of `zsbt_binsrch_internal`: classic lower-bound search.
`low`/`high` bracket the unexamined region; `cmp >= 0` moves `low` past
`mid`, otherwise `high` comes down to `mid`; the function returns the
final `low` (the caller subtracts one). -/
def zsbt_binsrch_loop (key : ItemPointerData) (arr : List ZSBtreeInternalPageItem)
    (low high : Nat) : Nat :=
  if _h : low < high then
    let mid := low + (high - low) / 2
    if 0 ≤ ItemPointerCompare key (arr.getD mid default).tid then
      zsbt_binsrch_loop key arr (mid + 1) high
    else
      zsbt_binsrch_loop key arr low mid
  else
    low
termination_by high - low
decreasing_by
  · omega
  · omega

/-- Binary search over the downlink array, `zsbt_binsrch_internal`:
returns `low - 1` as a (possibly negative) integer. -/
def zsbt_binsrch_internal (key : ItemPointerData)
    (arr : List ZSBtreeInternalPageItem) : Int :=
  (zsbt_binsrch_loop key arr 0 arr.length : Int) - 1

/-- Strict ascending order of the downlink keys of an internal page:
what the descent machinery maintains and `zsbt_binsrch_internal` relies on. -/
def internalSorted (arr : List ZSBtreeInternalPageItem) : Prop :=
  arr.Pairwise (fun a b => tidLt a.tid b.tid)

instance (arr : List ZSBtreeInternalPageItem) : Decidable (internalSorted arr) :=
  inferInstanceAs (Decidable (List.Pairwise _ _))

/-- The payload of a leaf item.  The on-disk discriminant is the
`ZSBT_COMPRESSED` bit of `t_flags`; here the flag is carried by the
constructor.  An uncompressed payload is one column datum (datums are
abstracted to naturals; their byte size is accounted separately through
`t_size`).  Modelled from the spec: a compressed payload is an opaque
blob that the external codec decodes back into the `(tid, datum)` pairs
it was built from. -/
inductive ZSItemBody where
  | uncompressed (datum : Nat)
  | compressed (blob : List (ItemPointerData × Nat))
deriving DecidableEq, Repr

/-- A leaf item, `ZSBtreeItem`: `t_tid` (the first TID of a compressed
run), `t_lasttid` (compressed runs only; equal to `t_tid` otherwise),
the byte size `t_size` of the whole item, and the payload.  The magic
`t_flags` word is represented by the payload constructor. -/
structure ZSBtreeItem where
  t_tid : ItemPointerData
  t_lasttid : ItemPointerData
  t_size : Nat
  body : ZSItemBody
deriving DecidableEq, Repr

instance : Inhabited ZSBtreeItem := ⟨⟨⟨0, 0⟩, ⟨0, 0⟩, 0, ZSItemBody.uncompressed 0⟩⟩

/-- The `ZSBT_COMPRESSED` test `(item->t_flags & ZSBT_COMPRESSED) != 0`. -/
def ZSBtreeItem.compressedFlag (it : ZSBtreeItem) : Bool :=
  match it.body with
  | ZSItemBody.compressed _ => true
  | ZSItemBody.uncompressed _ => false

/-- The datum of an uncompressed item (unused for compressed runs). -/
def ZSBtreeItem.datumOf (it : ZSBtreeItem) : Nat :=
  match it.body with
  | ZSItemBody.uncompressed d => d
  | ZSItemBody.compressed _ => 0

/-- The content area of a page: leaf items or internal downlinks,
discriminated by `zs_level` in the source. -/
inductive ZSPageContent where
  | leafItems (items : List ZSBtreeItem)
  | internalItems (items : List ZSBtreeInternalPageItem)
deriving DecidableEq, Repr

/-- A B-tree page: the `ZSBtreePageOpaque` trailer fields plus the item
area.  `zs_next = none` stands for `InvalidBlockNumber`; the constant
`zs_page_id` magic is omitted (it is `ZS_BTREE_PAGE_ID` on every page
this development manipulates). -/
structure ZSPage where
  zs_next : Option Nat
  zs_lokey : ItemPointerData
  zs_hikey : ItemPointerData
  zs_level : Nat
  zs_flags : Nat
  content : ZSPageContent
deriving DecidableEq, Repr

/-- The `ZS_FOLLOW_RIGHT` flag bit.  Its numeric value lives in a header
outside the repository slice; the spec describes it as one flag bit, so
bit 0 is used. -/
def ZS_FOLLOW_RIGHT : Nat := 1

/-- Leaf items of a page (empty for an internal page). -/
def ZSPage.leafItems (p : ZSPage) : List ZSBtreeItem :=
  match p.content with
  | ZSPageContent.leafItems its => its
  | ZSPageContent.internalItems _ => []

/-- Internal downlinks of a page (empty for a leaf page). -/
def ZSPage.internalItems (p : ZSPage) : List ZSBtreeInternalPageItem :=
  match p.content with
  | ZSPageContent.leafItems _ => []
  | ZSPageContent.internalItems its => its

/-- The disk block size, `BLCKSZ`. -/
def BLCKSZ : Nat := 8192

/-- Machine-word alignment of a byte size, `MAXALIGN` with 8-byte words. -/
def MAXALIGN (n : Nat) : Nat := ((n + 7) / 8) * 8

/-- Modelled from the spec: page-service constants.  A page holds a
24-byte header, the item area, and the MAXALIGNed `ZSBtreePageOpaque`
trailer; the usable item area is what remains. -/
def SizeOfPageHeaderData : Nat := 24

/-- Modelled from the spec: byte size of the aligned opaque trailer. -/
def ZSBtreePageOpaqueSize : Nat := 24

/-- Byte size of one line pointer, `sizeof(ItemIdData)`. -/
def sizeofItemIdData : Nat := 4

/-- Usable byte count of the item area of a page. -/
def pageUsableSpace : Nat := BLCKSZ - SizeOfPageHeaderData - ZSBtreePageOpaqueSize

/-- Bytes consumed in the item area by a list of leaf items: each costs
its MAXALIGNed size plus one line pointer. -/
def leafItemsUsedSpace (items : List ZSBtreeItem) : Nat :=
  items.foldr (fun it acc => MAXALIGN it.t_size + sizeofItemIdData + acc) 0

/-- Free space of a leaf page as `PageGetFreeSpace` reports it: the
remaining item area minus room for one more line pointer (never
negative). -/
def PageGetFreeSpace (items : List ZSBtreeItem) : Nat :=
  pageUsableSpace - leafItemsUsedSpace items - sizeofItemIdData

/-- Byte size of one internal downlink, `sizeof(ZSBtreeInternalPageItem)`:
a six-byte TID plus a four-byte block id. -/
def sizeofZSBtreeInternalPageItem : Nat := 10

/-- Modelled from the spec: `ZSBtreeInternalPageIsFull` — an internal
page is full when one more fixed-size downlink does not fit in the item
area (the macro lives in a header outside the repository slice). -/
def ZSBtreeInternalPageIsFull (items : List ZSBtreeInternalPageItem) : Bool :=
  pageUsableSpace < (items.length + 1) * sizeofZSBtreeInternalPageItem

/-- The `offsetof(ZSBtreeItem, t_payload)` header bytes of a leaf item:
two six-byte TIDs and two two-byte words. -/
def ZSBtreeItemHeaderSize : Nat := 16

/-- Byte size of the row header stored before the datum for attribute 1,
`SizeofHeapTupleHeader`. -/
def SizeofHeapTupleHeader : Nat := 23

/-- Modelled from the spec: the compression codec is an external
collaborator; only its `begin/add/finish` contract is visible here.
Whether an item is accepted may depend on the free space captured at
`zs_compress_begin` and on everything accumulated so far; the byte size
of a finished run is likewise the codec's choice. -/
structure ZSCodec where
  accept : Nat → List ZSBtreeItem → ZSBtreeItem → Bool
  runSize : List ZSBtreeItem → Nat

/-- Modelled from the spec: `zs_compress_finish` packages the
accumulated uncompressed items into one compressed run bracketed by
their first and last TIDs, with a codec-chosen byte size. -/
def zs_compress_finish (codec : ZSCodec) (acc : List ZSBtreeItem) : ZSBtreeItem :=
  { t_tid := (acc.headD default).t_tid
  , t_lasttid := (acc.getLastD default).t_tid
  , t_size := codec.runSize acc
  , body := ZSItemBody.compressed (acc.map (fun it => (it.t_tid, it.datumOf))) }

/-- The item-copying loop of `zsbt_compress_leaf`, operating on the
scratch page (`scratch` is the list of items already emitted there,
`acc` the run being accumulated in the compressor, `bfree` the free
space captured at the last `zs_compress_begin`).  A `none` result is the
`success = false` exit: some emission did not fit in the scratch page's
free space.  The source's `i--` rewind — flush the run, then retry the
rejected item in a fresh run — is unrolled into the flush followed by a
fresh `begin`/`add` on the same item. -/
def zsbt_compress_loop (codec : ZSCodec) :
    List ZSBtreeItem → List ZSBtreeItem → List ZSBtreeItem → Nat →
    Option (List ZSBtreeItem)
  | [], scratch, acc, _ =>
      if acc.isEmpty then some scratch
      else
        let run := zs_compress_finish codec acc
        if PageGetFreeSpace scratch < MAXALIGN run.t_size then none
        else some (scratch ++ [run])
  | it :: rest, scratch, acc, bfree =>
      if it.compressedFlag then
        -- flush any in-progress run, then emit the already-compressed item as is
        match (if acc.isEmpty then some scratch
               else
                 let run := zs_compress_finish codec acc
                 if PageGetFreeSpace scratch < MAXALIGN run.t_size then none
                 else some (scratch ++ [run])) with
        | none => none
        | some scratch1 =>
          if PageGetFreeSpace scratch1 < MAXALIGN it.t_size then none
          else zsbt_compress_loop codec rest (scratch1 ++ [it]) [] 0
      else
        if acc.isEmpty then
          let f := PageGetFreeSpace scratch
          if codec.accept f [] it then
            zsbt_compress_loop codec rest scratch [it] f
          else
            -- could not compress even on its own: store it uncompressed
            if PageGetFreeSpace scratch < MAXALIGN it.t_size then none
            else zsbt_compress_loop codec rest (scratch ++ [it]) [] 0
        else
          if codec.accept bfree acc it then
            zsbt_compress_loop codec rest scratch (acc ++ [it]) bfree
          else
            let run := zs_compress_finish codec acc
            if PageGetFreeSpace scratch < MAXALIGN run.t_size then none
            else
              let scratch1 := scratch ++ [run]
              let f := PageGetFreeSpace scratch1
              if codec.accept f [] it then
                zsbt_compress_loop codec rest scratch1 [it] f
              else
                if PageGetFreeSpace scratch1 < MAXALIGN it.t_size then none
                else zsbt_compress_loop codec rest (scratch1 ++ [it]) [] 0

/-- The whole of `zsbt_compress_leaf`: run the loop against an initially
empty scratch copy of the page; only on success are the scratch contents
swapped into the live page (`PageRestoreTempPage`), otherwise the live
page is returned as it was. -/
def zsbt_compress_leaf (codec : ZSCodec) (page : ZSPage) : Bool × ZSPage :=
  match zsbt_compress_loop codec page.leafItems [] [] 0 with
  | none => (false, page)
  | some newItems => (true, { page with content := ZSPageContent.leafItems newItems })

/-- The TID chosen at the top of `zsbt_insert_to_leaf`: look at the last
item of the page for its `t_tid` and increment it, or take the page's
`zs_lokey` if the page is empty. -/
def zsbt_insert_assigned_tid (page : ZSPage) : ItemPointerData :=
  match page.leafItems.getLast? with
  | some hitup => ItemPointerIncrement hitup.t_tid
  | none => page.zs_lokey

/-- The identical last-item inspection inside `zsbt_get_last_tid`, after
it has descended to the rightmost leaf. -/
def zsbt_last_tid_of_leaf (page : ZSPage) : ItemPointerData :=
  match page.leafItems.getLast? with
  | some hitup => ItemPointerIncrement hitup.t_tid
  | none => page.zs_lokey

/-- The item-copying loop of `zsbt_split_leaf` over 1-based offsets:
when the loop reaches `newitemoff` the new item goes to the left or
right page as directed, then the original item at that offset goes left
iff its offset is `≤ lastleftoff`.  The `[]` case is the trailing
`if (i == newitemoff)` after the loop; in the source that add is at
`FirstOffsetNumber` of the right page and (through `PAI_OVERWRITE`)
succeeds only when the right page is still empty, where it coincides
with the append written here. -/
def zsbt_split_distribute (newitem : ZSBtreeItem) (lastleftoff newitemoff : Nat) :
    Bool → Nat → List ZSBtreeItem → List ZSBtreeItem × List ZSBtreeItem
  | _, i, [] => if i = newitemoff then ([], [newitem]) else ([], [])
  | onleft, i, it :: rest =>
      let pr := zsbt_split_distribute newitem lastleftoff newitemoff onleft (i + 1) rest
      let pr1 := if i ≤ lastleftoff then (it :: pr.1, pr.2) else (pr.1, it :: pr.2)
      if i = newitemoff then
        if onleft then (newitem :: pr1.1, pr1.2) else (pr1.1, newitem :: pr1.2)
      else pr1

/-- Result of `zsbt_insert_to_leaf`: either the item fit (the updated
page and the TID), or the leaf was split (the resulting left and right
pages, the split TID that becomes the right page's lokey and the
downlink key, and the TID of the new item).  Downlink propagation is the
caller's next step and is modelled separately. -/
inductive ZSInsertToLeafResult where
  | fit (page : ZSPage) (tid : ItemPointerData)
  | split (leftpage rightpage : ZSPage) (splittid tid : ItemPointerData)
deriving DecidableEq, Repr

/-- The page-splitting part of `zsbt_split_leaf`: compute the split TID
`(lokey.block + 1, 1)`, set up the right page (inheriting `zs_next` and
`zs_hikey`), rewrite the left page's `zs_next`, `zs_hikey` and
`ZS_FOLLOW_RIGHT` flag, and distribute the items. -/
def zsbt_split_leaf (page : ZSPage) (lastleftoff : Nat) (newitem : ZSBtreeItem)
    (newitemonleft : Bool) (newitemoff : Nat) (rightblkno : Nat)
    (tid : ItemPointerData) : ZSInsertToLeafResult :=
  let splittid : ItemPointerData := ⟨page.zs_lokey.ip_blkid + 1, 1⟩
  let pr := zsbt_split_distribute newitem lastleftoff newitemoff newitemonleft 1
    page.leafItems
  let rightpage : ZSPage :=
    { zs_next := page.zs_next
    , zs_lokey := splittid
    , zs_hikey := page.zs_hikey
    , zs_level := 0
    , zs_flags := 0
    , content := ZSPageContent.leafItems pr.2 }
  let leftpage : ZSPage :=
    { page with
      zs_next := some rightblkno
    , zs_hikey := splittid
    , zs_flags := page.zs_flags ||| ZS_FOLLOW_RIGHT
    , content := ZSPageContent.leafItems pr.1 }
  ZSInsertToLeafResult.split leftpage rightpage splittid tid

/-- The byte size of the item formed by `zsbt_insert_to_leaf`: the item
header plus the datum bytes, plus the row header for attribute 1.
Attribute metadata is an external collaborator: a fixed-length attribute
of `attlen` bytes is modelled, so the datum's size is its declared
length. -/
def zsbt_insert_itemsz (attlen attno : Nat) : Nat :=
  ZSBtreeItemHeaderSize + attlen + (if attno = 1 then SizeofHeapTupleHeader else 0)

/-- The `ZSBtreeItem` formed by `zsbt_insert_to_leaf` (`palloc` + field
assignments + payload copy). -/
def zsbt_insert_item (attlen attno datum : Nat) (tid : ItemPointerData) : ZSBtreeItem :=
  { t_tid := tid, t_lasttid := tid, t_size := zsbt_insert_itemsz attlen attno
  , body := ZSItemBody.uncompressed datum }

/-- The page `zsbt_insert_to_leaf` continues with after its free-space
check: if the new item does not fit, the leaf is first run through
`zsbt_compress_leaf` (whose failure leaves the page unchanged). -/
def zsbt_insert_pick_page (codec : ZSCodec) (itemsz : Nat) (page : ZSPage) : ZSPage :=
  if PageGetFreeSpace page.leafItems < MAXALIGN itemsz then
    (zsbt_compress_leaf codec page).2
  else page

/-- The whole of `zsbt_insert_to_leaf`: compute the new TID from the
page's last item, build the item, compress the leaf if the item does not
fit, then either append at `maxoff + 1` or split with the new item as
the sole rightmost element. -/
def zsbt_insert_to_leaf (codec : ZSCodec) (attlen attno datum : Nat)
    (page : ZSPage) (rightblkno : Nat) : ZSInsertToLeafResult :=
  let tid := zsbt_insert_assigned_tid page
  let itemsz := zsbt_insert_itemsz attlen attno
  let item := zsbt_insert_item attlen attno datum tid
  let page1 := zsbt_insert_pick_page codec itemsz page
  if MAXALIGN itemsz ≤ PageGetFreeSpace page1.leafItems then
    ZSInsertToLeafResult.fit
      { page1 with content := ZSPageContent.leafItems (page1.leafItems ++ [item]) }
      tid
  else
    zsbt_split_leaf page1 page1.leafItems.length item false
      (page1.leafItems.length + 1) rightblkno tid

/-- A codec that accepts every item but reports a run size far larger
than a page, forcing the final emission of `zsbt_compress_leaf` to
overflow the scratch page. -/
def alwaysHugeCodec : ZSCodec :=
  { accept := fun _ _ _ => true, runSize := fun _ => 100000 }

/-- A one-item leaf page used to exercise the compression-failure path. -/
def hugeCodecPage : ZSPage :=
  { zs_next := none
  , zs_lokey := ⟨0, 1⟩
  , zs_hikey := MaxTidSentinel
  , zs_level := 0
  , zs_flags := 0
  , content := ZSPageContent.leafItems
      [⟨⟨0, 1⟩, ⟨0, 1⟩, 20, ZSItemBody.uncompressed 7⟩] }

/-- Every TID stored on a leaf page, compressed runs included: an
uncompressed item contributes its `t_tid`, a compressed run contributes
the TIDs of the items inside its blob. -/
def leafTidsPresent (items : List ZSBtreeItem) : List ItemPointerData :=
  items.flatMap (fun it =>
    match it.body with
    | ZSItemBody.uncompressed _ => [it.t_tid]
    | ZSItemBody.compressed blob => blob.map Prod.fst)

/-- A leaf whose single (and hence last) item is a compressed run
covering TIDs `(0,1) … (0,5)`. -/
def trailingRunPage : ZSPage :=
  { zs_next := none
  , zs_lokey := ⟨0, 1⟩
  , zs_hikey := MaxTidSentinel
  , zs_level := 0
  , zs_flags := 0
  , content := ZSPageContent.leafItems
      [⟨⟨0, 1⟩, ⟨0, 5⟩, 60, ZSItemBody.compressed
        [(⟨0, 1⟩, 1), (⟨0, 2⟩, 2), (⟨0, 3⟩, 3), (⟨0, 4⟩, 4), (⟨0, 5⟩, 5)]⟩] }

/-- A two-item all-uncompressed leaf used to witness the amended C2. -/
def twoPlainPage : ZSPage :=
  { zs_next := none
  , zs_lokey := ⟨0, 1⟩
  , zs_hikey := MaxTidSentinel
  , zs_level := 0
  , zs_flags := 0
  , content := ZSPageContent.leafItems
      [⟨⟨0, 1⟩, ⟨0, 1⟩, 20, ZSItemBody.uncompressed 1⟩,
       ⟨⟨0, 2⟩, ⟨0, 2⟩, 20, ZSItemBody.uncompressed 2⟩] }

/-- A codec that refuses every item: compression then re-emits every
item uncompressed, leaving the page contents as they were. -/
def refuseCodec : ZSCodec :=
  { accept := fun _ _ _ => false, runSize := fun _ => 0 }

/-- The k-th item of the split demonstration page: an uncompressed
1020-byte item with TID `(0,k)`. -/
def splitDemoItem (k : Nat) : ZSBtreeItem :=
  ⟨⟨0, k⟩, ⟨0, k⟩, 1020, ZSItemBody.uncompressed k⟩

/-- A rightmost root-leaf filled with seven 1020-byte items carrying
TIDs `(0,1) … (0,7)`: one more such item does not fit (free space 944
bytes against an aligned need of 1024), so the next insert splits. -/
def splitDemoPage : ZSPage :=
  { zs_next := none
  , zs_lokey := ⟨0, 1⟩
  , zs_hikey := MaxTidSentinel
  , zs_level := 0
  , zs_flags := 0
  , content := ZSPageContent.leafItems
      [splitDemoItem 1, splitDemoItem 2, splitDemoItem 3, splitDemoItem 4,
       splitDemoItem 5, splitDemoItem 6, splitDemoItem 7] }

/-- The item the demonstration insert adds: datum 99, TID `(0,8)`. -/
def splitDemoNewItem : ZSBtreeItem :=
  ⟨⟨0, 8⟩, ⟨0, 8⟩, 1020, ZSItemBody.uncompressed 99⟩

/-- The left page produced by the demonstration split. -/
def splitDemoLeft : ZSPage :=
  { zs_next := some 5
  , zs_lokey := ⟨0, 1⟩
  , zs_hikey := ⟨1, 1⟩
  , zs_level := 0
  , zs_flags := 1
  , content := ZSPageContent.leafItems
      [splitDemoItem 1, splitDemoItem 2, splitDemoItem 3, splitDemoItem 4,
       splitDemoItem 5, splitDemoItem 6, splitDemoItem 7] }

/-- The right page produced by the demonstration split. -/
def splitDemoRight : ZSPage :=
  { zs_next := none
  , zs_lokey := ⟨1, 1⟩
  , zs_hikey := MaxTidSentinel
  , zs_level := 0
  , zs_flags := 0
  , content := ZSPageContent.leafItems [splitDemoNewItem] }

/-- The whole of `zsbt_newroot`: allocate and initialize the new root
page with exactly the two downlinks `(key1 → blk1)` and `(key2 → blk2)`
at the given level, rewrite the left child's flag word with
`zs_flags &= ZS_FOLLOW_RIGHT` (the comment above that line says "clear
the follow-right flag on left child"), and update the metapage's
root-for-attribute pointer to the new block.  The result is the new
root page, the updated left child, and the new metapage root pointer. -/
def zsbt_newroot (level : Nat) (key1 : ItemPointerData) (blk1 : Nat)
    (key2 : ItemPointerData) (blk2 : Nat) (leftchild : ZSPage)
    (newrootblk : Nat) : ZSPage × ZSPage × Option Nat :=
  let rootpage : ZSPage :=
    { zs_next := none
    , zs_lokey := ⟨0, 1⟩
    , zs_hikey := MaxTidSentinel
    , zs_level := level
    , zs_flags := 0
    , content := ZSPageContent.internalItems [⟨key1, blk1⟩, ⟨key2, blk2⟩] }
  let leftchild1 :=
    { leftchild with zs_flags := leftchild.zs_flags &&& ZS_FOLLOW_RIGHT }
  (rootpage, leftchild1, some newrootblk)

/-- A left child as `zsbt_newroot` always receives it: its splitter has
just set `ZS_FOLLOW_RIGHT`. -/
def newrootDemoChild : ZSPage :=
  { zs_next := some 5
  , zs_lokey := ⟨0, 1⟩
  , zs_hikey := ⟨1, 1⟩
  , zs_level := 0
  , zs_flags := ZS_FOLLOW_RIGHT
  , content := ZSPageContent.leafItems [] }

/-- Outcome of the inner offset loop of `zsbt_scan_for_tuple_delete` on
one page. -/
inductive ZSDeleteStep where
  | found
  | restartPage
  | walkRight
deriving DecidableEq, Repr

/-- The inner offset loop of `zsbt_scan_for_tuple_delete` over one
page's items: a compressed item whose `t_lasttid` is `≥ tid` unlocks the
page and jumps back to the `loop` label (its decompression is commented
out under a TODO), an uncompressed item with `t_tid ≥ tid` has
`zs_tuple_delete` called on its row header and the scan returns true,
and falling off the page walks right. -/
def zsbt_delete_page_scan (tid : ItemPointerData) :
    List ZSBtreeItem → ZSDeleteStep
  | [] => ZSDeleteStep.walkRight
  | it :: rest =>
    if it.compressedFlag then
      if tidLe tid it.t_lasttid then ZSDeleteStep.restartPage
      else zsbt_delete_page_scan tid rest
    else
      if tidLe tid it.t_tid then ZSDeleteStep.found
      else zsbt_delete_page_scan tid rest

/-- The page-walking loop of `zsbt_scan_for_tuple_delete`, fuelled.
`blocks` is the leaf chain (`zs_next` holds an index into it), `cur` the
current page.  A `restartPage` outcome re-enters the same page — the
`goto loop` of the source; a self-referential right-link is the fatal
corruption `elog`.  `none` means the fuel ran out without the call
returning. -/
def zsbt_scan_for_tuple_delete_loop (blocks : List ZSPage)
    (tid : ItemPointerData) : Nat → Nat → Option Bool
  | 0, _ => none
  | Nat.succ fuel, cur =>
    match blocks.get? cur with
    | none => none
    | some pg =>
      match zsbt_delete_page_scan tid pg.leafItems with
      | ZSDeleteStep.found => some true
      | ZSDeleteStep.restartPage =>
        zsbt_scan_for_tuple_delete_loop blocks tid fuel cur
      | ZSDeleteStep.walkRight =>
        match pg.zs_next with
        | none => some false
        | some nxt =>
          if nxt = cur then none
          else zsbt_scan_for_tuple_delete_loop blocks tid fuel nxt

/-- A leaf holding a compressed run covering `(0,1) … (0,3)` followed by
an uncompressed item at `(0,4)`. -/
def deleteDemoPage : ZSPage :=
  { zs_next := none
  , zs_lokey := ⟨0, 1⟩
  , zs_hikey := MaxTidSentinel
  , zs_level := 0
  , zs_flags := 0
  , content := ZSPageContent.leafItems
      [⟨⟨0, 1⟩, ⟨0, 3⟩, 40, ZSItemBody.compressed
          [(⟨0, 1⟩, 1), (⟨0, 2⟩, 2), (⟨0, 3⟩, 3)]⟩,
       ⟨⟨0, 4⟩, ⟨0, 4⟩, 20, ZSItemBody.uncompressed 4⟩] }

/-- The downlink-copying loop of `zsbt_split_internal` over 0-based
indices `i`: when `i` reaches `newoff` the new downlink goes to the left
or right page as `newitemonleft` directs, then the original downlink at
`i` goes left iff `i < splitpoint`.  The `[]` case is the trailing
`if (i <= newoff)` that appends the new downlink to the right page when
it belongs at the very end. -/
def zsbt_split_internal_loop (splitpoint newoff : Nat) (onleft : Bool)
    (newitem : ZSBtreeInternalPageItem) :
    Nat → List ZSBtreeInternalPageItem →
    List ZSBtreeInternalPageItem × List ZSBtreeInternalPageItem
  | i, [] => if i ≤ newoff then ([], [newitem]) else ([], [])
  | i, x :: rest =>
    let pr := zsbt_split_internal_loop splitpoint newoff onleft newitem (i + 1) rest
    let pr1 := if i < splitpoint then (x :: pr.1, pr.2) else (pr.1, x :: pr.2)
    if i = newoff then
      if onleft then (newitem :: pr1.1, pr1.2) else (pr1.1, newitem :: pr1.2)
    else pr1

/-- The whole of `zsbt_split_internal`: split point `orignitems * 0.9`
(the C `double` product truncated to `int` equals `9·n / 10` for every
page-feasible downlink count), split TID taken from the downlink at the
split point, `newitemonleft` decided by comparing the new key against
the split TID, the same right-page/left-page header protocol as the leaf
split, and `ZS_FOLLOW_RIGHT` cleared on the child that triggered the
split.  Returns (left page, right page, updated child, split TID); the
recursive downlink insertion into the parent is the caller's next step. -/
def zsbt_split_internal (origpage childpage : ZSPage) (newoff : Nat)
    (newkey : ItemPointerData) (childblk : Nat) (rightblkno : Nat) :
    ZSPage × ZSPage × ZSPage × ItemPointerData :=
  let origitems := origpage.internalItems
  let splitpoint := origitems.length * 9 / 10
  let splittid := (origitems.getD splitpoint default).tid
  let newitemonleft := decide (tidLt newkey splittid)
  let newitem : ZSBtreeInternalPageItem := ⟨newkey, childblk⟩
  let pr := zsbt_split_internal_loop splitpoint newoff newitemonleft newitem 0 origitems
  let rightpage : ZSPage :=
    { zs_next := origpage.zs_next
    , zs_lokey := splittid
    , zs_hikey := origpage.zs_hikey
    , zs_level := origpage.zs_level
    , zs_flags := 0
    , content := ZSPageContent.internalItems pr.2 }
  let leftpage : ZSPage :=
    { origpage with
      zs_next := some rightblkno
    , zs_hikey := splittid
    , zs_flags := origpage.zs_flags ||| ZS_FOLLOW_RIGHT
    , content := ZSPageContent.internalItems pr.1 }
  let childpage1 :=
    { childpage with zs_flags := childpage.zs_flags &&& 0xFFFE }
  (leftpage, rightpage, childpage1, splittid)

/-- A 10-downlink internal page about to split. -/
def internalDemoPage : ZSPage :=
  { zs_next := none
  , zs_lokey := ⟨0, 1⟩
  , zs_hikey := MaxTidSentinel
  , zs_level := 1
  , zs_flags := 0
  , content := ZSPageContent.internalItems
      [⟨⟨0, 1⟩, 10⟩, ⟨⟨1, 1⟩, 11⟩, ⟨⟨2, 1⟩, 12⟩, ⟨⟨3, 1⟩, 13⟩, ⟨⟨4, 1⟩, 14⟩,
       ⟨⟨5, 1⟩, 15⟩, ⟨⟨6, 1⟩, 16⟩, ⟨⟨7, 1⟩, 17⟩, ⟨⟨8, 1⟩, 18⟩, ⟨⟨9, 1⟩, 19⟩] }

/-- The child page passed down through the internal split (its splitter
left `ZS_FOLLOW_RIGHT` set). -/
def internalDemoChild : ZSPage :=
  { zs_next := some 30
  , zs_lokey := ⟨9, 1⟩
  , zs_hikey := ⟨10, 1⟩
  , zs_level := 0
  , zs_flags := ZS_FOLLOW_RIGHT
  , content := ZSPageContent.leafItems [] }

/-- The state visible to one attribute's B-tree: the metapage's
root-for-attribute pointer and the buffer pool, a block being its index
in the list. -/
structure ZSTreeState where
  meta : Option Nat
  blocks : List ZSPage
deriving DecidableEq, Repr

/-- The initial root of a lazily created tree: an empty leaf covering
`[(0,1), MaxTidSentinel)`. -/
def emptyRootLeaf : ZSPage :=
  { zs_next := none
  , zs_lokey := ⟨0, 1⟩
  , zs_hikey := MaxTidSentinel
  , zs_level := 0
  , zs_flags := 0
  , content := ZSPageContent.leafItems [] }

/-- Modelled from the spec: `zsmeta_get_root_for_attribute` (the
metapage service lives in another file of the repository).  It returns
the root block for the attribute, or `InvalidBlockNumber` when there is
none; with `create` set it first creates the tree lazily — a fresh block
holding the empty root leaf — and records it in the metapage. -/
def zsmeta_get_root_for_attribute (create : Bool) (st : ZSTreeState) :
    Option Nat × ZSTreeState :=
  match st.meta with
  | some r => (some r, st)
  | none =>
    if create then
      (some st.blocks.length,
       { meta := some st.blocks.length, blocks := st.blocks ++ [emptyRootLeaf] })
    else (none, st)

/-- The loop of `zsbt_descend`, fuelled: track the expected level
(`none` until the first page fixes it), die (`none`) on a level
mismatch, on falling off the end of the tree, on a negative binary
search in an interior page, or when the fuel runs out; stop on a level-0
page; walk right when `key ≥ hikey` without touching the expected level;
otherwise follow the downlink and decrement it. -/
def zsbt_descend_loop (blocks : List ZSPage) (key : ItemPointerData) :
    Nat → Nat → Option Nat → Option Nat
  | 0, _, _ => none
  | Nat.succ fuel, cur, nextlevel =>
    match blocks.get? cur with
    | none => none
    | some pg =>
      let nl := nextlevel.getD pg.zs_level
      if pg.zs_level ≠ nl then none
      else if pg.zs_level = 0 then some cur
      else if tidLe pg.zs_hikey key then
        match pg.zs_next with
        | none => none
        | some nxt => zsbt_descend_loop blocks key fuel nxt (some nl)
      else
        match pg.content with
        | ZSPageContent.internalItems items =>
          let itemno := zsbt_binsrch_internal key items
          if itemno < 0 then none
          else zsbt_descend_loop blocks key fuel
            ((items.getD itemno.toNat default).childblk) (some (nl - 1))
        | ZSPageContent.leafItems _ => none

/-- The whole of `zsbt_get_last_tid`: resolve the root — creating the
tree if missing, the `true` argument at line 1136 — descend with the
rightmost probe key, and read the last item of the leaf. -/
def zsbt_get_last_tid (fuel : Nat) (st : ZSTreeState) :
    Option (ItemPointerData × ZSTreeState) :=
  match zsmeta_get_root_for_attribute true st with
  | (none, _) => none
  | (some rootblk, st1) =>
    match zsbt_descend_loop st1.blocks rightmostkey fuel rootblk none with
    | none => none
    | some leafblk =>
      match st1.blocks.get? leafblk with
      | none => none
      | some pg => some (zsbt_last_tid_of_leaf pg, st1)

/-- The scan cursor, `ZSBtreeScan`.  `attno = 0` stands for
`InvalidAttrNumber` and `nexttid = (0,0)` for the invalid TID of an
exhausted-at-birth scan. -/
structure ZSBtreeScan where
  active : Bool
  attno : Nat
  nexttid : ItemPointerData
  lastbuf : Option Nat
  decompressor : List (ItemPointerData × Nat)
  has_decompressed : Bool
deriving DecidableEq, Repr

/-- The whole of `zsbt_begin_scan`: resolve the root without creating
it; an absent root yields the inactive scan; otherwise descend to the
start TID, keep only the pin, and arm the cursor. -/
def zsbt_begin_scan (fuel : Nat) (st : ZSTreeState) (attno : Nat)
    (starttid : ItemPointerData) : Option (ZSBtreeScan × ZSTreeState) :=
  match zsmeta_get_root_for_attribute false st with
  | (none, st1) =>
    some ({ active := false, attno := 0, nexttid := ⟨0, 0⟩, lastbuf := none
          , decompressor := [], has_decompressed := false }, st1)
  | (some rootblk, st1) =>
    match zsbt_descend_loop st1.blocks starttid fuel rootblk none with
    | none => none
    | some leafblk =>
      some ({ active := true, attno := attno, nexttid := starttid
            , lastbuf := some leafblk, decompressor := []
            , has_decompressed := false }, st1)

/-- The `while (scan->has_decompressed)` pull: read items off the
decompression stream until one with `tid ≥ nexttid` appears, returning
it together with the rest of the stream; `none` is end-of-stream. -/
def zs_decompress_read_first (nexttid : ItemPointerData) :
    List (ItemPointerData × Nat) →
    Option ((ItemPointerData × Nat) × List (ItemPointerData × Nat))
  | [] => none
  | (t, d) :: rest =>
    if tidLe nexttid t then some ((t, d), rest)
    else zs_decompress_read_first nexttid rest

/-- Outcome of walking one page's items inside `zsbt_scan_next`. -/
inductive ZSScanPageHit where
  | plainItem (tid : ItemPointerData) (datum : Nat)
  | runItem (blob : List (ItemPointerData × Nat))
  | nomore
deriving DecidableEq, Repr

/-- The inner offset loop of `zsbt_scan_next`: the first compressed item
whose `t_lasttid` is `≥ nexttid` is fed to the decompressor; the first
uncompressed item with `t_tid ≥ nexttid` is returned; otherwise the page
is exhausted. -/
def zsbt_scan_page_find (nexttid : ItemPointerData) :
    List ZSBtreeItem → ZSScanPageHit
  | [] => ZSScanPageHit.nomore
  | it :: rest =>
    match it.body with
    | ZSItemBody.compressed blob =>
      if tidLe nexttid it.t_lasttid then ZSScanPageHit.runItem blob
      else zsbt_scan_page_find nexttid rest
    | ZSItemBody.uncompressed d =>
      if tidLe nexttid it.t_tid then ZSScanPageHit.plainItem it.t_tid d
      else zsbt_scan_page_find nexttid rest

/-- The whole of `zsbt_scan_next`, fuelled (the fuel pays for the `goto
loop` re-entries and the right-walks; `none` means it ran out).  An
inactive scan returns no tuple.  With a buffered decompression stream,
pull from it first — a drained stream clears `has_decompressed` and
falls back to the page walk.  On the page: a qualifying compressed run
is decompressed and the loop re-entered; a qualifying uncompressed item
is returned with its visibility (the external MVCC oracle for attribute
1, `true` otherwise) and `nexttid` advanced past it; an exhausted page
follows the right-link (a self-link is the fatal corruption `elog`),
and a missing right-link closes the scan. -/
def zsbt_scan_next (oracle : ItemPointerData → Bool) (blocks : List ZSPage) :
    Nat → ZSBtreeScan →
    Option (ZSBtreeScan × Option (ItemPointerData × Nat × Bool))
  | 0, _ => none
  | Nat.succ fuel, scan =>
    if scan.active = false then some (scan, none)
    else if scan.has_decompressed then
      match zs_decompress_read_first scan.nexttid scan.decompressor with
      | some ((t, d), rest) =>
        some ({ scan with decompressor := rest, nexttid := ItemPointerIncrement t },
              some (t, d, if scan.attno = 1 then oracle t else true))
      | none =>
        zsbt_scan_next oracle blocks fuel
          { scan with has_decompressed := false, decompressor := [] }
    else
      match scan.lastbuf with
      | none => none
      | some blk =>
        match blocks.get? blk with
        | none => none
        | some pg =>
          match zsbt_scan_page_find scan.nexttid pg.leafItems with
          | ZSScanPageHit.plainItem t d =>
            some ({ scan with nexttid := ItemPointerIncrement t },
                  some (t, d, if scan.attno = 1 then oracle t else true))
          | ZSScanPageHit.runItem blob =>
            zsbt_scan_next oracle blocks fuel
              { scan with decompressor := blob, has_decompressed := true }
          | ZSScanPageHit.nomore =>
            match pg.zs_next with
            | none => some ({ scan with active := false, lastbuf := none }, none)
            | some nxt =>
              if nxt = blk then none
              else zsbt_scan_next oracle blocks fuel { scan with lastbuf := some nxt }

/-- The whole of `zsbt_scan_for_tuple_delete`: resolve the root without
creating it — an absent root returns false — then descend to the target
tid and run the page-walking loop. -/
def zsbt_scan_for_tuple_delete (fuel : Nat) (st : ZSTreeState)
    (tid : ItemPointerData) : Option (Bool × ZSTreeState) :=
  match zsmeta_get_root_for_attribute false st with
  | (none, st1) => some (false, st1)
  | (some rootblk, st1) =>
    match zsbt_descend_loop st1.blocks tid fuel rootblk none with
    | none => none
    | some leafblk =>
      match zsbt_scan_for_tuple_delete_loop st1.blocks tid fuel leafblk with
      | none => none
      | some b => some (b, st1)

instance : Inhabited ZSPage := ⟨emptyRootLeaf⟩

/-- The logical `(tid, datum)` records one leaf item stands for: an
uncompressed item is itself, a compressed run is its decoded blob. -/
def decodeItem (it : ZSBtreeItem) : List (ItemPointerData × Nat) :=
  match it.body with
  | ZSItemBody.uncompressed d => [(it.t_tid, d)]
  | ZSItemBody.compressed blob => blob

/-- The decoded records of a whole item list, in page order. -/
def decodeItems (items : List ZSBtreeItem) : List (ItemPointerData × Nat) :=
  items.flatMap decodeItem

/-- The page stored at block `b` (blocks are indices into the pool). -/
def pageAt (blocks : List ZSPage) (b : Nat) : ZSPage :=
  blocks.getD b default

/-- The decoded records of a whole leaf chain, left to right. -/
def decodeChain (blocks : List ZSPage) (chain : List Nat) : List (ItemPointerData × Nat) :=
  chain.flatMap (fun b => decodeItems (pageAt blocks b).leafItems)

/-- The TID sequence the inserter assigns: consecutive increments
starting from a given TID, one per datum. -/
def tidSeq : ItemPointerData → List Nat → List (ItemPointerData × Nat)
  | _, [] => []
  | t, d :: ds => (t, d) :: tidSeq (ItemPointerIncrement t) ds

/-- A TID whose offset component is in the legal range. -/
def validTid (t : ItemPointerData) : Prop :=
  1 ≤ t.ip_posid ∧ t.ip_posid ≤ 0xFFFF

/-- Structural well-formedness of one leaf item: an uncompressed item
has `t_lasttid = t_tid`; a compressed run brackets its non-empty blob
with `t_tid`/`t_lasttid`. -/
def leafItemOK (it : ZSBtreeItem) : Prop :=
  match it.body with
  | ZSItemBody.uncompressed _ => it.t_lasttid = it.t_tid
  | ZSItemBody.compressed blob =>
      blob ≠ [] ∧ (blob.headD default).1 = it.t_tid ∧
      (blob.getLastD default).1 = it.t_lasttid

/-- Result of `zsbt_find_downlink`: either the child is the root, or
the parent block together with the downlink's position. -/
inductive ZSFindDownlinkResult where
  | noParent
  | found (parentblk itemno : Nat)
deriving DecidableEq, Repr

/-- The loop of `zsbt_find_downlink`, fuelled: the same walk as descent
but stopping at `level + 1`, where the downlink must match the child
block (a mismatch is the fatal re-find `elog`). -/
def zsbt_find_downlink_loop (blocks : List ZSPage) (key : ItemPointerData)
    (childblk level : Nat) : Nat → Nat → Option Nat → Option (Nat × Nat)
  | 0, _, _ => none
  | Nat.succ fuel, cur, nextlevel =>
    match blocks.get? cur with
    | none => none
    | some pg =>
      let nl := nextlevel.getD pg.zs_level
      if pg.zs_level ≠ nl then none
      else if pg.zs_level ≤ level then none
      else if tidLe pg.zs_hikey key then
        match pg.zs_next with
        | none => none
        | some nxt =>
          zsbt_find_downlink_loop blocks key childblk level fuel nxt (some nl)
      else
        match pg.content with
        | ZSPageContent.internalItems items =>
          let itemno := zsbt_binsrch_internal key items
          if itemno < 0 then none
          else if pg.zs_level = level + 1 then
            if (items.getD itemno.toNat default).childblk ≠ childblk then none
            else some (cur, itemno.toNat)
          else
            zsbt_find_downlink_loop blocks key childblk level fuel
              ((items.getD itemno.toNat default).childblk) (some (nl - 1))
        | ZSPageContent.leafItems _ => none

/-- The whole of `zsbt_find_downlink`: start from the root (the
`create = true` root resolution cannot fail here — the tree exists by
the time a split completes); the root itself as child means "no
parent". -/
def zsbt_find_downlink (fuel : Nat) (st : ZSTreeState) (key : ItemPointerData)
    (childblk level : Nat) : Option ZSFindDownlinkResult :=
  match st.meta with
  | none => none
  | some rootblk =>
    if rootblk = childblk then some ZSFindDownlinkResult.noParent
    else
      match zsbt_find_downlink_loop st.blocks key childblk level fuel rootblk none with
      | none => none
      | some pi => some (ZSFindDownlinkResult.found pi.1 pi.2)

/-- The whole of `zsbt_insert_downlink`, fuelled over the recursion into
parents: re-find the parent; no parent means a new root; otherwise
binary-search the slot, perform the sanity check against the left
child's downlink (its failure is the fatal `elog`), and either insert
the downlink in place — clearing `ZS_FOLLOW_RIGHT` on the left child —
or split the parent and recurse.  New blocks are allocated at the end of
the pool. -/
def zsbt_insert_downlink : Nat → ZSTreeState → Nat → ItemPointerData → Nat →
    Option ZSTreeState
  | 0, _, _, _, _ => none
  | Nat.succ fuel, st, leftblk, rightlokey, rightblkno =>
    match st.blocks.get? leftblk with
    | none => none
    | some leftpg =>
      match zsbt_find_downlink fuel st leftpg.zs_lokey leftblk leftpg.zs_level with
      | none => none
      | some ZSFindDownlinkResult.noParent =>
        let newrootblk := st.blocks.length
        let r := zsbt_newroot (leftpg.zs_level + 1) leftpg.zs_lokey leftblk
          rightlokey rightblkno leftpg newrootblk
        some { meta := r.2.2, blocks := (st.blocks.set leftblk r.2.1) ++ [r.1] }
      | some (ZSFindDownlinkResult.found parentblk _) =>
        match st.blocks.get? parentblk with
        | none => none
        | some parentpg =>
          let items := parentpg.internalItems
          let itemno := zsbt_binsrch_internal rightlokey items
          if itemno < 1 then none
          else if ¬ ((items.getD itemno.toNat default).tid = leftpg.zs_lokey ∧
              (items.getD itemno.toNat default).childblk = leftblk) then none
          else
            let k := itemno.toNat + 1
            if ZSBtreeInternalPageIsFull items then
              let rightblk2 := st.blocks.length
              let r := zsbt_split_internal parentpg leftpg k rightlokey rightblkno
                rightblk2
              zsbt_insert_downlink fuel
                { st with blocks :=
                    ((st.blocks.set parentblk r.1).set leftblk r.2.2.1) ++ [r.2.1] }
                parentblk r.2.2.2 rightblk2
            else
              let newitems := items.take k ++ ⟨rightlokey, rightblkno⟩ :: items.drop k
              let parentpg1 := { parentpg with
                content := ZSPageContent.internalItems newitems }
              let leftpg1 := { leftpg with zs_flags := leftpg.zs_flags &&& 0xFFFE }
              some { st with blocks :=
                (st.blocks.set parentblk parentpg1).set leftblk leftpg1 }

/-- The whole of `zsbt_insert` at tree level: resolve (or lazily create)
the root, descend to the rightmost leaf, and run the leaf insertion; a
split places the left page back, appends the right page as a fresh
block, and propagates the downlink. -/
def zsbt_insert (codec : ZSCodec) (attlen attno fuel : Nat) (st : ZSTreeState)
    (datum : Nat) : Option (ItemPointerData × ZSTreeState) :=
  match zsmeta_get_root_for_attribute true st with
  | (none, _) => none
  | (some rootblk, st1) =>
    match zsbt_descend_loop st1.blocks rightmostkey fuel rootblk none with
    | none => none
    | some leafblk =>
      match st1.blocks.get? leafblk with
      | none => none
      | some pg =>
        let rightblkno := st1.blocks.length
        match zsbt_insert_to_leaf codec attlen attno datum pg rightblkno with
        | ZSInsertToLeafResult.fit pg1 tid =>
          some (tid, { st1 with blocks := st1.blocks.set leafblk pg1 })
        | ZSInsertToLeafResult.split lpg rpg stid tid =>
          match zsbt_insert_downlink fuel
              { st1 with blocks := (st1.blocks.set leafblk lpg) ++ [rpg] }
              leafblk stid rightblkno with
          | none => none
          | some st2 => some (tid, st2)

/-- Insert a whole sequence of datums, each call fuelled amply for the
tree it meets (one more unit when the call will first create the
root). -/
def zsbt_insert_all (codec : ZSCodec) (attlen attno : Nat) :
    List Nat → ZSTreeState → Option (List ItemPointerData × ZSTreeState)
  | [], st => some ([], st)
  | d :: ds, st =>
    match zsbt_insert codec attlen attno
        (match st.meta with
         | none => st.blocks.length + 3
         | some _ => st.blocks.length + 2) st d with
    | none => none
    | some (tid, st1) =>
      match zsbt_insert_all codec attlen attno ds st1 with
      | none => none
      | some (tids, st2) => some (tid :: tids, st2)

/-- Drive `zsbt_scan_next` to exhaustion, collecting the returned
triples; `count` bounds the number of calls, `fuelStep` fuels each
call. -/
def zsbt_scan_all (oracle : ItemPointerData → Bool) (blocks : List ZSPage)
    (fuelStep : Nat) : Nat → ZSBtreeScan →
    Option (List (ItemPointerData × Nat × Bool))
  | 0, _ => none
  | Nat.succ count, scan =>
    match zsbt_scan_next oracle blocks fuelStep scan with
    | none => none
    | some (_, none) => some []
    | some (scan1, some out) =>
      match zsbt_scan_all oracle blocks fuelStep count scan1 with
      | none => none
      | some outs => some (out :: outs)

/-- The pages of the rightmost spine strictly above a child at level
`j`, listed bottom-up: each page sits one level higher, is the rightmost
of its level (max-sentinel hikey, no right-link), holds sorted downlinks
whose keys are all block-aligned (`posid = 1`) and below the rightmost
probe key, starts its keys at its own lokey, and ends with the downlink
of the page below it; the empty list means the child is the root (whose
lokey is `(0,1)`). -/
inductive UpperOK (blocks : List ZSPage) : Nat → Nat → ItemPointerData →
    List Nat → Prop
  | nil (j childblk : Nat) :
      UpperOK blocks j childblk ⟨0, 1⟩ []
  | cons (j childblk : Nat) (childlokey lo : ItemPointerData) (b : Nat)
      (rest : List Nat) (pg : ZSPage) (items : List ZSBtreeInternalPageItem) :
      blocks.get? b = some pg →
      pg.zs_level = j + 1 →
      pg.zs_hikey = MaxTidSentinel →
      pg.zs_next = none →
      pg.content = ZSPageContent.internalItems items →
      internalSorted items →
      (∀ it ∈ items, it.tid.ip_posid = 1 ∧ tidLt it.tid rightmostkey) →
      2 ≤ items.length →
      (items.headD default).tid = lo →
      pg.zs_lokey = lo →
      items.getLast? = some ⟨childlokey, childblk⟩ →
      UpperOK blocks (j + 1) b lo rest →
      UpperOK blocks j childblk childlokey (b :: rest)

/-- The left spine, listed top-down starting at the root: each page has
lokey `(0,1)`, a hikey strictly above `(0,1)`, and its first downlink is
`((0,1) → next page down)`. -/
inductive LSpineOK (blocks : List ZSPage) : Nat → List Nat → Prop
  | leaf (b : Nat) (pg : ZSPage) :
      blocks.get? b = some pg →
      pg.zs_level = 0 →
      pg.zs_lokey = ⟨0, 1⟩ →
      LSpineOK blocks 0 [b]
  | node (b child : Nat) (rest : List Nat) (l : Nat) (pg : ZSPage)
      (items : List ZSBtreeInternalPageItem) :
      blocks.get? b = some pg →
      pg.zs_level = l + 1 →
      pg.zs_lokey = ⟨0, 1⟩ →
      tidLt ⟨0, 1⟩ pg.zs_hikey →
      pg.content = ZSPageContent.internalItems items →
      internalSorted items →
      items.headD default = ⟨⟨0, 1⟩, child⟩ →
      items ≠ [] →
      LSpineOK blocks l (child :: rest) →
      LSpineOK blocks (l + 1) (b :: child :: rest)

/-- The leaf chain from leaf number `i` on: leaf number `i` has lokey
`(i, 1)`, the right-links connect consecutive leaves (never to
themselves), and the rightmost leaf has none. -/
inductive ChainOK (blocks : List ZSPage) : Nat → List Nat → Prop
  | last (i b : Nat) (pg : ZSPage) :
      blocks.get? b = some pg →
      pg.zs_level = 0 →
      pg.zs_lokey = ⟨i, 1⟩ →
      pg.zs_next = none →
      ChainOK blocks i [b]
  | cons (i b b2 : Nat) (rest : List Nat) (pg : ZSPage) :
      blocks.get? b = some pg →
      pg.zs_level = 0 →
      pg.zs_lokey = ⟨i, 1⟩ →
      pg.zs_next = some b2 →
      b ≠ b2 →
      ChainOK blocks (i + 1) (b2 :: rest) →
      ChainOK blocks i (b :: b2 :: rest)

/-- The shape data of a reachable tree: the rightmost spine above the
rightmost leaf (bottom-up), the left spine (top-down), and the leaf
chain (left to right). -/
structure TreeDesc where
  upper : List Nat
  lspine : List Nat
  chain : List Nat
deriving Repr

/-- Well-formedness of a reachable tree with decoded content `decoded`:
the chain of leaves carries exactly `decoded`; the rightmost leaf sits
under an `UpperOK` spine whose top is the metapage root; the left spine
runs from the same root down to the first leaf; every leaf item is
structurally sound; the rightmost leaf ends in the item whose `t_tid` is
the last decoded TID (and is empty when nothing was inserted). -/
structure TreeOK (st : ZSTreeState) (td : TreeDesc)
    (decoded : List (ItemPointerData × Nat)) : Prop where
  chain_ne : td.chain ≠ []
  chain_ok : ChainOK st.blocks 0 td.chain
  chain_le : ∀ b ∈ td.chain, b < st.blocks.length
  upper_ok : UpperOK st.blocks 0 (td.chain.getLastD 0)
    ⟨td.chain.length - 1, 1⟩ td.upper
  rightleaf_hikey : (pageAt st.blocks (td.chain.getLastD 0)).zs_hikey =
    MaxTidSentinel
  meta_ok : st.meta = some ((td.upper.getLastD (td.chain.getLastD 0)))
  lspine_ok : LSpineOK st.blocks td.upper.length td.lspine
  lspine_head : td.lspine.headD 0 = td.upper.getLastD (td.chain.getLastD 0)
  lspine_last : td.lspine.getLastD 0 = td.chain.headD 0
  content_ok : decodeChain st.blocks td.chain = decoded
  items_ok : ∀ b ∈ td.chain, ∀ it ∈ (pageAt st.blocks b).leafItems, leafItemOK it
  last_item : decoded ≠ [] →
    ((pageAt st.blocks (td.chain.getLastD 0)).leafItems.getLast?).map
      ZSBtreeItem.t_tid = (decoded.getLast?).map Prod.fst
  rightleaf_empty : decoded = [] →
    (pageAt st.blocks (td.chain.getLastD 0)).leafItems = []
  chain_bound : td.chain.length ≤ decoded.length + 1
  size_ok : td.upper.length + td.chain.length ≤ st.blocks.length + 1

/-- The global invariant tying a state to the datums inserted so far. -/
def ZSInv (st : ZSTreeState) (datums : List Nat) : Prop :=
  ∃ td, TreeOK st td (tidSeq ⟨0, 1⟩ datums)

/-- The TID the next insert will use after `ds` datums starting at `t`. -/
def tidSeqNext (t : ItemPointerData) (ds : List Nat) : ItemPointerData :=
  match (tidSeq t ds).getLast? with
  | none => t
  | some pr => ItemPointerIncrement pr.1

/-- Agreement of two pages on everything but the flags word. -/
def PageShapeEq (a b : ZSPage) : Prop :=
  a.zs_level = b.zs_level ∧ a.zs_lokey = b.zs_lokey ∧ a.zs_hikey = b.zs_hikey ∧
  a.zs_next = b.zs_next ∧ a.content = b.content

/-- Pages of level at most `j` survive from `blocks` to `blocks'` with
at most their flags changed. -/
def LeafFrame (j : Nat) (blocks blocks' : List ZSPage) : Prop :=
  ∀ b pg, blocks.get? b = some pg → pg.zs_level ≤ j →
    ∃ pg', blocks'.get? b = some pg' ∧ PageShapeEq pg' pg

/-- One step of evolution a page may undergo while it sits on the left
spine: a flags-only change, a leaf-content rewrite, an appended
downlink, or a left-half internal split. -/
def LPageStep (old new : ZSPage) : Prop :=
  PageShapeEq new old
  ∨ (new.zs_level = old.zs_level ∧ new.zs_lokey = old.zs_lokey ∧
      old.zs_level = 0)
  ∨ (∃ items newit, old.content = ZSPageContent.internalItems items ∧
      items ≠ [] ∧ internalSorted (items ++ [newit]) ∧
      new.zs_level = old.zs_level ∧ new.zs_lokey = old.zs_lokey ∧
      new.zs_hikey = old.zs_hikey ∧
      new.content = ZSPageContent.internalItems (items ++ [newit]))
  ∨ (∃ items sp, old.content = ZSPageContent.internalItems items ∧
      1 ≤ sp ∧ sp < items.length ∧ internalSorted items ∧
      new.zs_level = old.zs_level ∧ new.zs_lokey = old.zs_lokey ∧
      new.zs_hikey = (items.getD sp default).tid ∧
      new.content = ZSPageContent.internalItems (items.take sp))

/-- All records of a list lie strictly below a TID. -/
def recsBelow (t : ItemPointerData) (recs : List (ItemPointerData × Nat)) : Prop :=
  ∀ r ∈ recs, tidLt r.1 t

/-- The scan-loop invariant: the cursor sits on leaf number `k` of the
chain, the records strictly before the cursor's `nexttid` on that page
are exactly a decoded prefix `consumed` aligned on an item boundary
(`doneIts`), the rest of the page decodes to the TID-consecutive run
`ds₁` starting at `nexttid`, the pages to the right decode to its
continuation `ds₂`, and an armed decompressor holds a TID-consecutive
stream aligned at `nexttid` inside the pending item. -/
def ScanOK (blocks : List ZSPage) (chain : List Nat) (attno k : Nat)
    (scan : ZSBtreeScan) (t : ItemPointerData) (r : List Nat) : Prop :=
  scan.active = true ∧ scan.attno = attno ∧ scan.nexttid = t ∧
  k < chain.length ∧ scan.lastbuf = some (chain.getD k 0) ∧
  ∃ consumed ds₁ ds₂ doneIts todoIts,
    r = ds₁ ++ ds₂ ∧
    (pageAt blocks (chain.getD k 0)).leafItems = doneIts ++ todoIts ∧
    decodeItems (pageAt blocks (chain.getD k 0)).leafItems =
      consumed ++ tidSeq t ds₁ ∧
    recsBelow t consumed ∧
    decodeChain blocks (chain.drop (k + 1)) = tidSeq (tidSeqNext t ds₁) ds₂ ∧
    ((scan.has_decompressed = false ∧ decodeItems doneIts = consumed) ∨
     (scan.has_decompressed = true ∧ ∃ dsS dsT, ds₁ = dsS ++ dsT ∧
       scan.decompressor = tidSeq t dsS ∧
       decodeItems doneIts = consumed ++ tidSeq t dsS))

theorem tidLt_iff (a b : ItemPointerData) :
    tidLt a b ↔ a.ip_blkid < b.ip_blkid ∨
      (a.ip_blkid = b.ip_blkid ∧ a.ip_posid < b.ip_posid) := by
  unfold tidLt ItemPointerCompare
  split_ifs <;> omega

theorem tidLe_iff (a b : ItemPointerData) :
    tidLe a b ↔ a.ip_blkid < b.ip_blkid ∨
      (a.ip_blkid = b.ip_blkid ∧ a.ip_posid ≤ b.ip_posid) := by
  unfold tidLe ItemPointerCompare
  split_ifs <;> omega

theorem tidLe_of_lt {a b : ItemPointerData} (h : tidLt a b) : tidLe a b := by
  rw [tidLt_iff] at h; rw [tidLe_iff]; omega

theorem tidLt_trans {a b c : ItemPointerData} (h1 : tidLt a b) (h2 : tidLt b c) :
    tidLt a c := by
  rw [tidLt_iff] at h1 h2 ⊢; omega

theorem tidLe_trans {a b c : ItemPointerData} (h1 : tidLe a b) (h2 : tidLe b c) :
    tidLe a c := by
  rw [tidLe_iff] at h1 h2 ⊢; omega

theorem tidLe_trans_lt {a b c : ItemPointerData} (h1 : tidLe a b) (h2 : tidLt b c) :
    tidLt a c := by
  rw [tidLe_iff] at h1; rw [tidLt_iff] at h2 ⊢; omega

theorem tidLt_trans_le {a b c : ItemPointerData} (h1 : tidLt a b) (h2 : tidLe b c) :
    tidLt a c := by
  rw [tidLt_iff] at h1; rw [tidLe_iff] at h2; rw [tidLt_iff]; omega

theorem tidLe_total_of_not_lt {a b : ItemPointerData} (h : ¬ tidLt a b) :
    tidLe b a := by
  rw [tidLt_iff] at h; rw [tidLe_iff]; omega

theorem not_tidLe_of_lt {a b : ItemPointerData} (h : tidLt a b) : ¬ tidLe b a := by
  rw [tidLt_iff] at h; rw [tidLe_iff]; omega

theorem tidLe_refl (a : ItemPointerData) : tidLe a a := by
  rw [tidLe_iff]; omega

theorem tidLt_of_not_le {a b : ItemPointerData} (h : ¬ tidLe a b) : tidLt b a := by
  rw [tidLe_iff] at h; rw [tidLt_iff]; omega

theorem internalSorted_getD_lt {arr : List ZSBtreeInternalPageItem}
    (hs : internalSorted arr) {i j : Nat} (hij : i < j) (hj : j < arr.length) :
    tidLt ((arr.getD i default).tid) ((arr.getD j default).tid) := by
  have hi : i < arr.length := lt_trans hij hj
  rw [List.getD_eq_getElem arr default hi, List.getD_eq_getElem arr default hj]
  exact (List.pairwise_iff_getElem.mp hs) i j hi hj hij

theorem zsbt_binsrch_loop_spec (key : ItemPointerData)
    (arr : List ZSBtreeInternalPageItem) (hs : internalSorted arr) :
    ∀ d low high, high - low ≤ d → low ≤ high → high ≤ arr.length →
    (low = 0 ∨ (0 < low ∧ tidLe ((arr.getD (low - 1) default).tid) key)) →
    (high = arr.length ∨ (high < arr.length ∧ tidLt key ((arr.getD high default).tid))) →
    (low ≤ zsbt_binsrch_loop key arr low high ∧
     zsbt_binsrch_loop key arr low high ≤ high ∧
     (∀ j, j < zsbt_binsrch_loop key arr low high →
        tidLe ((arr.getD j default).tid) key) ∧
     (∀ j, zsbt_binsrch_loop key arr low high ≤ j → j < arr.length →
        tidLt key ((arr.getD j default).tid))) := by
  intro d
  induction d with
  | zero =>
    intro low high hd hlh hha hlow hhigh
    rw [zsbt_binsrch_loop, dif_neg (show ¬ low < high by omega)]
    refine ⟨le_refl low, by omega, ?_, ?_⟩
    · intro j hj
      rcases hlow with h0 | ⟨hpos, hle⟩
      · omega
      · by_cases hcase : j = low - 1
        · rw [hcase]; exact hle
        · exact tidLe_trans (tidLe_of_lt
            (internalSorted_getD_lt hs (show j < low - 1 by omega) (by omega))) hle
    · intro j hj hjl
      rcases hhigh with h0 | ⟨hlt, hklt⟩
      · omega
      · by_cases hcase : j = high
        · rw [hcase]; exact hklt
        · exact tidLt_trans hklt (internalSorted_getD_lt hs (by omega) hjl)
  | succ n ih =>
    intro low high hd hlh hha hlow hhigh
    by_cases h : low < high
    · have heq : zsbt_binsrch_loop key arr low high =
          if 0 ≤ ItemPointerCompare key ((arr.getD (low + (high - low) / 2) default).tid) then
            zsbt_binsrch_loop key arr (low + (high - low) / 2 + 1) high
          else
            zsbt_binsrch_loop key arr low (low + (high - low) / 2) := by
        rw [zsbt_binsrch_loop]
        simp only [dif_pos h]
      rw [heq]
      have hmidlt : low + (high - low) / 2 < high := by omega
      by_cases hcmp : 0 ≤ ItemPointerCompare key ((arr.getD (low + (high - low) / 2) default).tid)
      · rw [if_pos hcmp]
        have hle : tidLe ((arr.getD (low + (high - low) / 2) default).tid) key :=
          tidLe_total_of_not_lt (by unfold tidLt; omega)
        obtain ⟨h1, h2, h3, h4⟩ := ih (low + (high - low) / 2 + 1) high (by omega)
          (by omega) hha (Or.inr ⟨by omega, by simpa using hle⟩) hhigh
        exact ⟨by omega, h2, h3, h4⟩
      · rw [if_neg hcmp]
        have hlt : tidLt key ((arr.getD (low + (high - low) / 2) default).tid) := by
          unfold tidLt; omega
        obtain ⟨h1, h2, h3, h4⟩ := ih low (low + (high - low) / 2) (by omega)
          (by omega) (by omega) hlow (Or.inr ⟨by omega, hlt⟩)
        exact ⟨h1, by omega, h3, h4⟩
    · rw [zsbt_binsrch_loop, dif_neg h]
      refine ⟨le_refl low, by omega, ?_, ?_⟩
      · intro j hj
        rcases hlow with h0 | ⟨hpos, hle⟩
        · omega
        · by_cases hcase : j = low - 1
          · rw [hcase]; exact hle
          · exact tidLe_trans (tidLe_of_lt
              (internalSorted_getD_lt hs (show j < low - 1 by omega) (by omega))) hle
      · intro j hj hjl
        rcases hhigh with h0 | ⟨hlt, hklt⟩
        · omega
        · by_cases hcase : j = high
          · rw [hcase]; exact hklt
          · exact tidLt_trans hklt (internalSorted_getD_lt hs (by omega) hjl)

theorem countP_eq_of_cut {α : Type} [Inhabited α] (p : α → Bool) :
    ∀ (l : List α) (L : Nat), L ≤ l.length →
    (∀ j, j < l.length → (p (l.getD j default) = true ↔ j < L)) →
    l.countP p = L := by
  intro l
  induction l with
  | nil =>
    intro L hL _
    rw [List.countP_nil]
    simp only [List.length_nil] at hL
    omega
  | cons x xs ih =>
    intro L hL hcut
    rw [List.countP_cons]
    cases L with
    | zero =>
      have hx : ¬ p x = true := by
        have h0 := hcut 0 (by rw [List.length_cons]; omega)
        rw [List.getD_cons_zero] at h0
        intro hp
        exact absurd (h0.mp hp) (by omega)
      have hxs : xs.countP p = 0 := by
        apply ih 0 (by omega)
        intro j hj
        have h2 := hcut (j + 1) (by rw [List.length_cons]; omega)
        rw [List.getD_cons_succ] at h2
        constructor
        · intro hp; exact absurd (h2.mp hp) (by omega)
        · intro hj0; exact absurd hj0 (by omega)
      simp [hxs, hx]
    | succ k =>
      have hx : p x = true := by
        have h0 := hcut 0 (by rw [List.length_cons]; omega)
        rw [List.getD_cons_zero] at h0
        exact h0.mpr (by omega)
      have hxs : xs.countP p = k := by
        apply ih k (by rw [List.length_cons] at hL; omega)
        intro j hj
        have h2 := hcut (j + 1) (by rw [List.length_cons]; omega)
        rw [List.getD_cons_succ] at h2
        constructor
        · intro hp; have := h2.mp hp; omega
        · intro hjk; exact h2.mpr (by omega)
      simp [hxs, hx]

theorem zsbt_binsrch_internal_eq_countP (key : ItemPointerData)
    (arr : List ZSBtreeInternalPageItem) (hs : internalSorted arr) :
    zsbt_binsrch_internal key arr =
      (arr.countP (fun it => decide (tidLe it.tid key)) : Int) - 1 := by
  obtain ⟨hL1, hL2, hL3, hL4⟩ := zsbt_binsrch_loop_spec key arr hs arr.length 0
    arr.length (by omega) (by omega) (le_refl _) (Or.inl rfl) (Or.inl rfl)
  have hcount : arr.countP (fun it => decide (tidLe it.tid key)) =
      zsbt_binsrch_loop key arr 0 arr.length := by
    apply countP_eq_of_cut _ arr _ hL2
    intro j hj
    constructor
    · intro hp
      by_contra hnot
      exact absurd (of_decide_eq_true hp)
        (not_tidLe_of_lt (hL4 j (by omega) hj))
    · intro hjL
      exact decide_eq_true (hL3 j hjL)
  unfold zsbt_binsrch_internal
  rw [hcount]

/-- C9: on a sorted downlink array, `zsbt_binsrch_internal` returns the
index of the rightmost element whose TID is `≤ key` — equivalently the
number of elements with TID `≤ key`, minus one: every index holding a TID
`≤ key` is `≤` the result and every index `≤` the result holds a TID
`≤ key`.  It returns `-1` exactly when the array is empty or `key` is
smaller than the first element's TID.  Finally, a key equal to some
element routes to the same index as a strictly greater key: any `key2`
with `key ≤ key2` that stays below every element that `key` is below
yields the same result. -/
theorem zsbt_binsrch_internal_spec (key : ItemPointerData)
    (arr : List ZSBtreeInternalPageItem) (hs : internalSorted arr) :
    zsbt_binsrch_internal key arr =
      (arr.countP (fun it => decide (tidLe it.tid key)) : Int) - 1 ∧
    (∀ j, j < arr.length → tidLe ((arr.getD j default).tid) key →
      (j : Int) ≤ zsbt_binsrch_internal key arr) ∧
    (∀ j, j < arr.length → (j : Int) ≤ zsbt_binsrch_internal key arr →
      tidLe ((arr.getD j default).tid) key) ∧
    (zsbt_binsrch_internal key arr = -1 ↔
      arr = [] ∨ tidLt key ((arr.getD 0 default).tid)) ∧
    (∀ key2, tidLe key key2 →
      (∀ j, j < arr.length → tidLt key ((arr.getD j default).tid) →
        tidLt key2 ((arr.getD j default).tid)) →
      zsbt_binsrch_internal key2 arr = zsbt_binsrch_internal key arr) := by
  obtain ⟨hL1, hL2, hL3, hL4⟩ := zsbt_binsrch_loop_spec key arr hs arr.length 0
    arr.length (by omega) (by omega) (le_refl _) (Or.inl rfl) (Or.inl rfl)
  have hmain := zsbt_binsrch_internal_eq_countP key arr hs
  have hloop : zsbt_binsrch_internal key arr =
      (zsbt_binsrch_loop key arr 0 arr.length : Int) - 1 := rfl
  refine ⟨hmain, ?_, ?_, ?_, ?_⟩
  · intro j hj hle
    rw [hloop]
    by_contra hnot
    exact absurd hle (not_tidLe_of_lt (hL4 j (by omega) hj))
  · intro j hj hjle
    rw [hloop] at hjle
    exact hL3 j (by omega)
  · rw [hloop]
    constructor
    · intro h0
      cases arr with
      | nil => exact Or.inl rfl
      | cons x xs =>
        refine Or.inr ?_
        have := hL4 0 (by omega) (by rw [List.length_cons]; omega)
        exact this
    · intro hcase
      rcases hcase with hnil | hlt
      · have : arr.length = 0 := by rw [hnil]; rfl
        omega
      · by_contra hne
        have hpos : 0 < zsbt_binsrch_loop key arr 0 arr.length := by omega
        have h0le := hL3 0 hpos
        exact absurd h0le (not_tidLe_of_lt hlt)
  · intro key2 hkk2 hbelow
    have hmain2 := zsbt_binsrch_internal_eq_countP key2 arr hs
    rw [hmain, hmain2]
    have hcong : arr.countP (fun it => decide (tidLe it.tid key2)) =
        arr.countP (fun it => decide (tidLe it.tid key)) := by
      apply List.countP_congr
      intro a ha
      obtain ⟨n, hn, hna⟩ := List.mem_iff_getElem.mp ha
      have hgd : arr.getD n default = a := by
        rw [List.getD_eq_getElem arr default hn, hna]
      constructor
      · intro hp2
        by_contra hp1
        have hlt1 : tidLt key a.tid :=
          tidLt_of_not_le (fun hle => hp1 (decide_eq_true hle))
        have hlt2 : tidLt key2 a.tid := by
          have := hbelow n hn
          rw [hgd] at this
          exact this hlt1
        exact absurd (of_decide_eq_true hp2) (not_tidLe_of_lt hlt2)
      · intro hp1
        exact decide_eq_true (tidLe_trans (of_decide_eq_true hp1) hkk2)
    rw [hcong]

/-- Witness for C9: a concrete sorted two-downlink array and a key falling
inside the first downlink's range routes to index 0. -/
theorem zsbt_binsrch_internal_spec_witness :
    zsbt_binsrch_internal ⟨0, 5⟩ [⟨⟨0, 1⟩, 1⟩, ⟨⟨1, 1⟩, 2⟩] = 0 := by
  have h := zsbt_binsrch_internal_spec ⟨0, 5⟩ [⟨⟨0, 1⟩, 1⟩, ⟨⟨1, 1⟩, 2⟩] (by decide)
  rw [h.1]
  decide

/-- C7: whenever leaf compression fails — the loop aborts because some
item's emission would not fit in the scratch page's free space — the
live page is left completely unchanged; only on success are the scratch
contents swapped into the live page. -/
theorem zsbt_compress_leaf_failure_leaves_page_unchanged
    (codec : ZSCodec) (page : ZSPage)
    (h : (zsbt_compress_leaf codec page).1 = false) :
    (zsbt_compress_leaf codec page).2 = page := by
  unfold zsbt_compress_leaf at h ⊢
  cases hloop : zsbt_compress_loop codec page.leafItems [] [] 0 with
  | none => rfl
  | some s => rw [hloop] at h; simp at h

/-- Witness for C7: with the oversized-run codec, compression of the
one-item page fails and the page comes back unchanged. -/
theorem zsbt_compress_leaf_failure_witness :
    (zsbt_compress_leaf alwaysHugeCodec hugeCodecPage).1 = false ∧
    (zsbt_compress_leaf alwaysHugeCodec hugeCodecPage).2 = hugeCodecPage :=
  ⟨by decide,
   zsbt_compress_leaf_failure_leaves_page_unchanged alwaysHugeCodec hugeCodecPage
     (by decide)⟩

theorem tidLt_increment (a : ItemPointerData) : tidLt a (ItemPointerIncrement a) := by
  unfold ItemPointerIncrement
  by_cases h : a.ip_posid < 0xFFFF
  · rw [if_pos h, tidLt_iff]
    exact Or.inr ⟨rfl, show a.ip_posid < a.ip_posid + 1 by omega⟩
  · rw [if_neg h, tidLt_iff]
    exact Or.inl (show a.ip_blkid < a.ip_blkid + 1 by omega)

/-- C2 counterexample: on a non-empty leaf whose last item is a
compressed run with `first_tid = (0,1)` and `last_tid = (0,5)`, the
insert path and the last-tid probe both read the run's `t_tid` (its
first TID) and yield `(0,2)`, not the claimed maximum-plus-one `(0,6)`;
`(0,2)` is even a TID already present inside the run. -/
theorem zsbt_insert_assigned_tid_counterexample :
    zsbt_insert_assigned_tid trailingRunPage = ⟨0, 2⟩ ∧
    zsbt_last_tid_of_leaf trailingRunPage = ⟨0, 2⟩ ∧
    ItemPointerIncrement
      ((trailingRunPage.leafItems.getLastD default).t_lasttid) = ⟨0, 6⟩ ∧
    (⟨0, 2⟩ : ItemPointerData) ∈ leafTidsPresent trailingRunPage.leafItems ∧
    (⟨0, 2⟩ : ItemPointerData) ≠ ⟨0, 6⟩ := by
  decide

/-- C2 (amended): the TID that insert assigns is the increment of the
last item's `t_tid` (the page's `zs_lokey` on an empty leaf), and the
last-tid probe computes exactly the same value on the same leaf.  When
the last item is uncompressed and the page's TIDs are all bounded by it,
that value is the maximum TID present on the page plus one; when the
last item is a compressed run the value is `first_tid + 1`, not
`last_tid + 1`. -/
theorem zsbt_insert_assigned_tid_spec (page : ZSPage) :
    zsbt_insert_assigned_tid page = zsbt_last_tid_of_leaf page ∧
    (page.leafItems = [] → zsbt_insert_assigned_tid page = page.zs_lokey) ∧
    (∀ last, page.leafItems.getLast? = some last →
      zsbt_insert_assigned_tid page = ItemPointerIncrement last.t_tid ∧
      (last.compressedFlag = false →
        (∀ t, t ∈ leafTidsPresent page.leafItems → tidLe t last.t_tid) →
        last.t_tid ∈ leafTidsPresent page.leafItems ∧
        (∀ t, t ∈ leafTidsPresent page.leafItems →
          tidLt t (zsbt_insert_assigned_tid page)))) := by
  refine ⟨rfl, ?_, ?_⟩
  · intro hnil
    unfold zsbt_insert_assigned_tid
    rw [hnil]
    rfl
  · intro last hlast
    have hassigned : zsbt_insert_assigned_tid page = ItemPointerIncrement last.t_tid := by
      unfold zsbt_insert_assigned_tid
      rw [hlast]
    refine ⟨hassigned, ?_⟩
    intro hflag hbound
    have hmem : last ∈ page.leafItems := List.mem_of_mem_getLast? hlast
    have htid : last.t_tid ∈ leafTidsPresent page.leafItems := by
      unfold leafTidsPresent
      rw [List.mem_flatMap]
      refine ⟨last, hmem, ?_⟩
      unfold ZSBtreeItem.compressedFlag at hflag
      cases hb : last.body with
      | uncompressed d => exact List.mem_singleton.mpr rfl
      | compressed blob =>
        exfalso
        rw [hb] at hflag
        simp at hflag
    refine ⟨htid, ?_⟩
    intro t ht
    rw [hassigned]
    exact tidLe_trans_lt (hbound t ht) (tidLt_increment last.t_tid)

/-- Witness for the amended C2: on the concrete two-item leaf the
assigned TID is `(0,3)`, agrees with the last-tid probe, and strictly
dominates every TID present. -/
theorem zsbt_insert_assigned_tid_spec_witness :
    zsbt_insert_assigned_tid twoPlainPage = zsbt_last_tid_of_leaf twoPlainPage ∧
    zsbt_insert_assigned_tid twoPlainPage = ⟨0, 3⟩ ∧
    (∀ t, t ∈ leafTidsPresent twoPlainPage.leafItems →
      tidLt t (zsbt_insert_assigned_tid twoPlainPage)) := by
  have h := zsbt_insert_assigned_tid_spec twoPlainPage
  obtain ⟨h1, _h2, h3⟩ := h
  have h4 := h3 ⟨⟨0, 2⟩, ⟨0, 2⟩, 20, ZSItemBody.uncompressed 2⟩ (by decide)
  refine ⟨h1, ?_, (h4.2 (by decide) (by decide)).2⟩
  rw [h4.1]
  decide

theorem zsbt_split_distribute_rightmost (newitem : ZSBtreeItem) :
    ∀ (items : List ZSBtreeItem) (i lastleftoff : Nat),
      i + items.length ≤ lastleftoff + 1 →
      zsbt_split_distribute newitem lastleftoff (i + items.length) false i items
        = (items, [newitem]) := by
  intro items
  induction items with
  | nil =>
    intro i llo h
    simp [zsbt_split_distribute]
  | cons x rest ih =>
    intro i llo h
    rw [List.length_cons] at h
    have hN : i + (x :: rest).length = i + 1 + rest.length := by
      rw [List.length_cons]; omega
    rw [hN]
    have hrec := ih (i + 1) llo (by omega)
    simp only [zsbt_split_distribute]
    rw [hrec]
    rw [if_pos (show i ≤ llo by omega)]
    rw [if_neg (show ¬ i = i + 1 + rest.length by omega)]

theorem zsbt_split_distribute_insert_call (newitem : ZSBtreeItem)
    (items : List ZSBtreeItem) :
    zsbt_split_distribute newitem items.length (items.length + 1) false 1 items
      = (items, [newitem]) := by
  have h := zsbt_split_distribute_rightmost newitem items 1 items.length (by omega)
  rw [show 1 + items.length = items.length + 1 from by omega] at h
  exact h

/-- C10: whenever insert overflows a leaf and splits it, it calls the
leaf splitter with the new item as the sole rightmost element
(`newitemonleft = false`, `newitemoff = maxoff + 1`,
`lastleftoff = maxoff`), so every item on the page as the splitter sees
it (after the compression attempt) stays on the left page in its
original order, and the right page ends up containing exactly one item:
the newly inserted one. -/
theorem zsbt_insert_split_right_page_is_new_item
    (codec : ZSCodec) (attlen attno datum : Nat) (page : ZSPage)
    (rightblkno : Nat) (L R : ZSPage) (stid tid : ItemPointerData)
    (h : zsbt_insert_to_leaf codec attlen attno datum page rightblkno =
      ZSInsertToLeafResult.split L R stid tid) :
    ∃ page1 item,
      (page1 = page ∨ page1 = (zsbt_compress_leaf codec page).2) ∧
      item.t_tid = zsbt_insert_assigned_tid page ∧
      item.body = ZSItemBody.uncompressed datum ∧
      tid = zsbt_insert_assigned_tid page ∧
      L.leafItems = page1.leafItems ∧
      R.leafItems = [item] ∧
      zsbt_split_leaf page1 page1.leafItems.length item false
        (page1.leafItems.length + 1) rightblkno tid =
        ZSInsertToLeafResult.split L R stid tid := by
  simp only [zsbt_insert_to_leaf] at h
  split at h
  · exact ZSInsertToLeafResult.noConfusion h
  · have h2 := h
    simp only [zsbt_split_leaf, ZSInsertToLeafResult.split.injEq] at h2
    obtain ⟨hL, hR, hstid, htid⟩ := h2
    rw [htid] at h hL hR
    refine ⟨_, _, ?_, ?_, ?_, htid.symm, ?_, ?_, h⟩
    · unfold zsbt_insert_pick_page
      split
      · exact Or.inr rfl
      · exact Or.inl rfl
    · exact htid.symm
    · rfl
    · rw [← hL]
      show (zsbt_split_distribute _ _ _ false 1 _).1 = _
      rw [zsbt_split_distribute_insert_call]
    · rw [← hR]
      show (zsbt_split_distribute _ _ _ false 1 _).2 = _
      rw [zsbt_split_distribute_insert_call]

/-- C1 (code bug): on a legal rightmost leaf — TIDs strictly inside
`[lokey, hikey)` — that is one item short of full, the insert-triggered
split chooses split TID `(lokey.block + 1, 1) = (1,1)` and places the
newly inserted item, whose TID is `(0,8)`, alone on the right page whose
`lokey` is `(1,1)`: the new item's TID lies strictly below the lokey of
the page holding it, violating the claimed `lokey ≤ t < hikey`
invariant. -/
theorem zsbt_split_leaf_places_new_item_below_right_lokey :
    (∀ it ∈ splitDemoPage.leafItems,
      tidLe splitDemoPage.zs_lokey it.t_tid ∧
      tidLt it.t_tid splitDemoPage.zs_hikey) ∧
    zsbt_insert_to_leaf refuseCodec 1004 2 99 splitDemoPage 5 =
      ZSInsertToLeafResult.split splitDemoLeft splitDemoRight ⟨1, 1⟩ ⟨0, 8⟩ ∧
    splitDemoRight.zs_lokey = ⟨1, 1⟩ ∧
    splitDemoRight.leafItems.map ZSBtreeItem.t_tid = [⟨0, 8⟩] ∧
    tidLt (⟨0, 8⟩ : ItemPointerData) splitDemoRight.zs_lokey := by
  decide

/-- Witness for C10: the demonstration insert splits, all seven prior
items stay on the left page in order and the right page holds exactly
the new item. -/
theorem zsbt_insert_split_right_page_is_new_item_witness :
    ∃ page1 item,
      (page1 = splitDemoPage ∨
        page1 = (zsbt_compress_leaf refuseCodec splitDemoPage).2) ∧
      item.t_tid = zsbt_insert_assigned_tid splitDemoPage ∧
      item.body = ZSItemBody.uncompressed 99 ∧
      (⟨0, 8⟩ : ItemPointerData) = zsbt_insert_assigned_tid splitDemoPage ∧
      splitDemoLeft.leafItems = page1.leafItems ∧
      splitDemoRight.leafItems = [item] ∧
      zsbt_split_leaf page1 page1.leafItems.length item false
        (page1.leafItems.length + 1) 5 ⟨0, 8⟩ =
        ZSInsertToLeafResult.split splitDemoLeft splitDemoRight ⟨1, 1⟩ ⟨0, 8⟩ :=
  zsbt_insert_split_right_page_is_new_item refuseCodec 1004 2 99 splitDemoPage 5
    splitDemoLeft splitDemoRight ⟨1, 1⟩ ⟨0, 8⟩ (by decide)

/-- C4 (code bug): after `zsbt_newroot`, called as `zsbt_insert_downlink`
calls it (level = left.level + 1, keys = the two children's lokeys), the
new root does hold exactly the two downlinks at level `left.level + 1`
and the metapage root pointer is updated to the new block — but the
`ZS_FOLLOW_RIGHT` flag on the left child is NOT cleared: the code
executes `zs_flags &= ZS_FOLLOW_RIGHT` (instead of `&= ~ZS_FOLLOW_RIGHT`),
which keeps the bit set whenever it was set, contradicting the comment
right above it and the claimed behaviour. -/
theorem zsbt_newroot_keeps_follow_right_on_left_child
    (leftchild : ZSPage) (leftblk rightblk newrootblk : Nat)
    (rightlokey : ItemPointerData)
    (hfr : leftchild.zs_flags &&& ZS_FOLLOW_RIGHT = ZS_FOLLOW_RIGHT) :
    (zsbt_newroot (leftchild.zs_level + 1) leftchild.zs_lokey leftblk rightlokey
        rightblk leftchild newrootblk).1.internalItems =
      [⟨leftchild.zs_lokey, leftblk⟩, ⟨rightlokey, rightblk⟩] ∧
    (zsbt_newroot (leftchild.zs_level + 1) leftchild.zs_lokey leftblk rightlokey
        rightblk leftchild newrootblk).1.zs_level = leftchild.zs_level + 1 ∧
    (zsbt_newroot (leftchild.zs_level + 1) leftchild.zs_lokey leftblk rightlokey
        rightblk leftchild newrootblk).2.2 = some newrootblk ∧
    (zsbt_newroot (leftchild.zs_level + 1) leftchild.zs_lokey leftblk rightlokey
        rightblk leftchild newrootblk).2.1.zs_flags &&& ZS_FOLLOW_RIGHT =
      ZS_FOLLOW_RIGHT ∧
    (zsbt_newroot (leftchild.zs_level + 1) leftchild.zs_lokey leftblk rightlokey
        rightblk leftchild newrootblk).2.1.zs_flags ≠ 0 := by
  refine ⟨rfl, rfl, rfl, ?_, ?_⟩
  · show leftchild.zs_flags &&& ZS_FOLLOW_RIGHT &&& ZS_FOLLOW_RIGHT = ZS_FOLLOW_RIGHT
    rw [Nat.and_assoc,
      show ZS_FOLLOW_RIGHT &&& ZS_FOLLOW_RIGHT = ZS_FOLLOW_RIGHT from rfl]
    exact hfr
  · show leftchild.zs_flags &&& ZS_FOLLOW_RIGHT ≠ 0
    rw [hfr]
    decide

/-- Witness for C4 at a concrete left child with `ZS_FOLLOW_RIGHT` set. -/
theorem zsbt_newroot_keeps_follow_right_witness :
    (zsbt_newroot (newrootDemoChild.zs_level + 1) newrootDemoChild.zs_lokey 4
        ⟨1, 1⟩ 5 newrootDemoChild 6).1.internalItems =
      [⟨newrootDemoChild.zs_lokey, 4⟩, ⟨⟨1, 1⟩, 5⟩] ∧
    (zsbt_newroot (newrootDemoChild.zs_level + 1) newrootDemoChild.zs_lokey 4
        ⟨1, 1⟩ 5 newrootDemoChild 6).1.zs_level = newrootDemoChild.zs_level + 1 ∧
    (zsbt_newroot (newrootDemoChild.zs_level + 1) newrootDemoChild.zs_lokey 4
        ⟨1, 1⟩ 5 newrootDemoChild 6).2.2 = some 6 ∧
    (zsbt_newroot (newrootDemoChild.zs_level + 1) newrootDemoChild.zs_lokey 4
        ⟨1, 1⟩ 5 newrootDemoChild 6).2.1.zs_flags &&& ZS_FOLLOW_RIGHT =
      ZS_FOLLOW_RIGHT ∧
    (zsbt_newroot (newrootDemoChild.zs_level + 1) newrootDemoChild.zs_lokey 4
        ⟨1, 1⟩ 5 newrootDemoChild 6).2.1.zs_flags ≠ 0 :=
  zsbt_newroot_keeps_follow_right_on_left_child newrootDemoChild 4 5 6 ⟨1, 1⟩
    (by decide)

/-- C6 (code bug): `zsbt_scan_for_tuple_delete` does NOT terminate for
every target tid.  On a page whose first qualifying item is a compressed
run (`t_lasttid ≥ tid`), the inner loop unlocks and jumps back to `loop`,
which re-scans the very same page from its first offset and hits the
same run again: the walk never gets past the run — even though an
uncompressed item with `t_tid ≥ tid` sits right behind it — and the
call never returns, for any amount of fuel. -/
theorem zsbt_scan_for_tuple_delete_loops_on_compressed_run :
    zsbt_delete_page_scan ⟨0, 2⟩ deleteDemoPage.leafItems =
      ZSDeleteStep.restartPage ∧
    (∃ it, it ∈ deleteDemoPage.leafItems ∧ it.compressedFlag = false ∧
      tidLe ⟨0, 2⟩ it.t_tid) ∧
    (∀ fuel, zsbt_scan_for_tuple_delete_loop [deleteDemoPage] ⟨0, 2⟩ fuel 0 =
      none) := by
  refine ⟨by decide, ?_, ?_⟩
  · refine ⟨⟨⟨0, 4⟩, ⟨0, 4⟩, 20, ZSItemBody.uncompressed 4⟩, ?_, by decide, by decide⟩
    decide
  · intro fuel
    induction fuel with
    | zero => rfl
    | succ n ih =>
      have hstep : zsbt_scan_for_tuple_delete_loop [deleteDemoPage] ⟨0, 2⟩
          (n + 1) 0 = zsbt_scan_for_tuple_delete_loop [deleteDemoPage] ⟨0, 2⟩ n 0 := rfl
      rw [hstep]
      exact ih

theorem not_tidLt_of_le {a b : ItemPointerData} (h : tidLe a b) : ¬ tidLt b a := by
  rw [tidLe_iff] at h; rw [tidLt_iff]; omega

theorem zsbt_split_internal_loop_after (splitpoint newoff : Nat) (onleft : Bool)
    (newitem : ZSBtreeInternalPageItem) :
    ∀ (rem : List ZSBtreeInternalPageItem) (i : Nat), newoff < i →
      zsbt_split_internal_loop splitpoint newoff onleft newitem i rem =
        (rem.take (splitpoint - i), rem.drop (splitpoint - i)) := by
  intro rem
  induction rem with
  | nil =>
    intro i hi
    simp [zsbt_split_internal_loop, show ¬ i ≤ newoff by omega]
  | cons x rest ih =>
    intro i hi
    simp only [zsbt_split_internal_loop]
    rw [ih (i + 1) (by omega)]
    rw [if_neg (show ¬ i = newoff by omega)]
    by_cases hsp : i < splitpoint
    · rw [if_pos hsp]
      have h1 : splitpoint - i = (splitpoint - (i + 1)) + 1 := by omega
      rw [h1, List.take_succ_cons, List.drop_succ_cons]
    · rw [if_neg hsp]
      have h1 : splitpoint - i = 0 := by omega
      have h2 : splitpoint - (i + 1) = 0 := by omega
      rw [h1, h2]
      simp

theorem zsbt_split_internal_loop_right_phase (splitpoint newoff : Nat)
    (newitem : ZSBtreeInternalPageItem) :
    ∀ (rem : List ZSBtreeInternalPageItem) (i : Nat),
      splitpoint ≤ i → i ≤ newoff →
      zsbt_split_internal_loop splitpoint newoff false newitem i rem =
        ([], rem.take (newoff - i) ++ newitem :: rem.drop (newoff - i)) := by
  intro rem
  induction rem with
  | nil =>
    intro i hsp hno
    simp [zsbt_split_internal_loop, hno]
  | cons x rest ih =>
    intro i hsp hno
    simp only [zsbt_split_internal_loop]
    by_cases hin : i = newoff
    · rw [zsbt_split_internal_loop_after splitpoint newoff false newitem rest (i + 1)
        (by omega)]
      rw [if_neg (show ¬ i < splitpoint by omega), if_pos hin]
      have h1 : splitpoint - (i + 1) = 0 := by omega
      have h2 : newoff - i = 0 := by omega
      rw [h1, h2]
      simp
    · rw [ih (i + 1) (by omega) (by omega)]
      rw [if_neg (show ¬ i < splitpoint by omega), if_neg hin]
      have h1 : newoff - i = (newoff - (i + 1)) + 1 := by omega
      rw [h1, List.take_succ_cons, List.drop_succ_cons]
      simp

theorem zsbt_split_internal_loop_newoff_right (splitpoint newoff : Nat)
    (newitem : ZSBtreeInternalPageItem) :
    ∀ (rem : List ZSBtreeInternalPageItem) (i : Nat),
      i ≤ splitpoint → splitpoint ≤ newoff →
      zsbt_split_internal_loop splitpoint newoff false newitem i rem =
        (rem.take (splitpoint - i),
         (rem.drop (splitpoint - i)).take (newoff - splitpoint) ++
           newitem :: rem.drop (newoff - i)) := by
  intro rem
  induction rem with
  | nil =>
    intro i hisp hspn
    simp [zsbt_split_internal_loop, show i ≤ newoff by omega]
  | cons x rest ih =>
    intro i hisp hspn
    by_cases hieq : i = splitpoint
    · rw [zsbt_split_internal_loop_right_phase splitpoint newoff newitem (x :: rest) i
        (by omega) (by omega)]
      have h1 : splitpoint - i = 0 := by omega
      have h2 : newoff - i = newoff - splitpoint := by omega
      rw [h1, h2]
      simp
    · simp only [zsbt_split_internal_loop]
      rw [ih (i + 1) (by omega) hspn]
      rw [if_pos (show i < splitpoint by omega),
        if_neg (show ¬ i = newoff by omega)]
      have h1 : splitpoint - i = (splitpoint - (i + 1)) + 1 := by omega
      have h2 : newoff - i = (newoff - (i + 1)) + 1 := by omega
      rw [h1, h2, List.take_succ_cons, List.drop_succ_cons, List.drop_succ_cons]

theorem zsbt_split_internal_loop_newoff_left (splitpoint newoff : Nat)
    (newitem : ZSBtreeInternalPageItem) :
    ∀ (rem : List ZSBtreeInternalPageItem) (i : Nat),
      i ≤ newoff → newoff ≤ splitpoint → splitpoint < i + rem.length →
      zsbt_split_internal_loop splitpoint newoff true newitem i rem =
        (rem.take (newoff - i) ++
           newitem :: (rem.drop (newoff - i)).take (splitpoint - newoff),
         rem.drop (splitpoint - i)) := by
  intro rem
  induction rem with
  | nil =>
    intro i hin hns hsp
    exact absurd hsp (by simp; omega)
  | cons x rest ih =>
    intro i hin hns hsp
    simp only [zsbt_split_internal_loop]
    by_cases hieq : i = newoff
    · subst hieq
      rw [zsbt_split_internal_loop_after splitpoint i true newitem rest (i + 1)
        (by omega)]
      by_cases hisp : i < splitpoint
      · have h1 : splitpoint - i = (splitpoint - (i + 1)) + 1 := by omega
        simp [hisp, h1, List.take_succ_cons, List.drop_succ_cons]
      · have h1 : splitpoint - i = 0 := by omega
        have h3 : splitpoint - (i + 1) = 0 := by omega
        simp [hisp, h1, h3]
    · rw [ih (i + 1) (by omega) hns (by rw [List.length_cons] at hsp; omega)]
      have h1 : splitpoint - i = (splitpoint - (i + 1)) + 1 := by omega
      have h2 : newoff - i = (newoff - (i + 1)) + 1 := by omega
      simp [hieq, show i < splitpoint by omega, h1, h2, List.take_succ_cons,
        List.drop_succ_cons]

theorem internalSorted_insert (x : ZSBtreeInternalPageItem) :
    ∀ (l : List ZSBtreeInternalPageItem) (k : Nat), k ≤ l.length →
    internalSorted l →
    (∀ j, j < k → tidLt ((l.getD j default).tid) x.tid) →
    (∀ j, k ≤ j → j < l.length → tidLt x.tid ((l.getD j default).tid)) →
    internalSorted (l.take k ++ x :: l.drop k) := by
  intro l
  induction l with
  | nil =>
    intro k hk _ _ _
    simp only [List.length_nil] at hk
    simp only [show k = 0 from by omega, List.take_nil, List.drop_nil,
      List.nil_append]
    exact List.pairwise_singleton _ _
  | cons y ys ih =>
    intro k hk hs hlt hgt
    cases k with
    | zero =>
      simp only [List.take_zero, List.drop_zero, List.nil_append]
      unfold internalSorted at hs ⊢
      rw [List.pairwise_cons]
      refine ⟨?_, hs⟩
      intro b hb
      obtain ⟨n, hn, hnb⟩ := List.mem_iff_getElem.mp hb
      have hg := hgt n (by omega) hn
      rw [List.getD_eq_getElem _ default hn, hnb] at hg
      exact hg
    | succ k0 =>
      simp only [List.take_succ_cons, List.drop_succ_cons, List.cons_append]
      unfold internalSorted at hs ⊢
      rw [List.pairwise_cons] at hs ⊢
      obtain ⟨hy, hys⟩ := hs
      rw [List.length_cons] at hk
      refine ⟨?_, ih k0 (by omega) hys ?_ ?_⟩
      · intro b hb
        rcases List.mem_append.mp hb with hbt | hbc
        · exact hy b (List.take_subset _ _ hbt)
        · rcases List.mem_cons.mp hbc with hbx | hbd
          · have h0 := hlt 0 (by omega)
            rw [List.getD_cons_zero] at h0
            rw [hbx]
            exact h0
          · exact hy b (List.drop_subset _ _ hbd)
      · intro j hj
        have h1 := hlt (j + 1) (by omega)
        rw [List.getD_cons_succ] at h1
        exact h1
      · intro j hj1 hj2
        have h1 := hgt (j + 1) (by omega) (by rw [List.length_cons]; omega)
        rw [List.getD_cons_succ] at h1
        exact h1

theorem internalSorted_getD_le {arr : List ZSBtreeInternalPageItem}
    (hs : internalSorted arr) {i j : Nat} (hij : i ≤ j) (hj : j < arr.length) :
    tidLe ((arr.getD i default).tid) ((arr.getD j default).tid) := by
  by_cases h : i = j
  · rw [h]; exact tidLe_refl _
  · exact tidLe_of_lt (internalSorted_getD_lt hs (by omega) hj)

theorem zsbt_split_internal_distribute_spec
    (items : List ZSBtreeInternalPageItem) (sp newoff : Nat)
    (newkey : ItemPointerData) (childblk : Nat)
    (hs : internalSorted items)
    (hspn : sp < items.length)
    (hoff1 : 1 ≤ newoff) (hoffn : newoff ≤ items.length)
    (hlo : tidLt ((items.getD (newoff - 1) default).tid) newkey)
    (hhi : newoff < items.length →
      tidLt newkey ((items.getD newoff default).tid)) :
    (zsbt_split_internal_loop sp newoff
        (decide (tidLt newkey ((items.getD sp default).tid)))
        ⟨newkey, childblk⟩ 0 items).1 ++
      (zsbt_split_internal_loop sp newoff
        (decide (tidLt newkey ((items.getD sp default).tid)))
        ⟨newkey, childblk⟩ 0 items).2 =
      items.take newoff ++ ⟨newkey, childblk⟩ :: items.drop newoff ∧
    (zsbt_split_internal_loop sp newoff
        (decide (tidLt newkey ((items.getD sp default).tid)))
        ⟨newkey, childblk⟩ 0 items).1.length =
      sp + (if newoff ≤ sp then 1 else 0) ∧
    (zsbt_split_internal_loop sp newoff
        (decide (tidLt newkey ((items.getD sp default).tid)))
        ⟨newkey, childblk⟩ 0 items).2.length =
      (items.length - sp) + (if newoff ≤ sp then 0 else 1) ∧
    internalSorted
      (items.take newoff ++ ⟨newkey, childblk⟩ :: items.drop newoff) := by
  have hsorted : internalSorted
      (items.take newoff ++ ⟨newkey, childblk⟩ :: items.drop newoff) := by
    refine internalSorted_insert ⟨newkey, childblk⟩ items newoff hoffn hs ?_ ?_
    · intro j hj
      by_cases hje : j = newoff - 1
      · rw [hje]; exact hlo
      · exact tidLt_trans
          (internalSorted_getD_lt hs (show j < newoff - 1 by omega) (by omega))
          hlo
    · intro j hj1 hj2
      have hlt1 := hhi (by omega)
      by_cases hje : j = newoff
      · rw [hje]; exact hlt1
      · exact tidLt_trans hlt1 (internalSorted_getD_lt hs (by omega) hj2)
  by_cases hcase : newoff ≤ sp
  · have honleft : tidLt newkey ((items.getD sp default).tid) := by
      have hlt1 := hhi (by omega)
      by_cases he : newoff = sp
      · rw [← he]; exact hlt1
      · exact tidLt_trans hlt1 (internalSorted_getD_lt hs (by omega) hspn)
    rw [decide_eq_true honleft]
    have hloop := zsbt_split_internal_loop_newoff_left sp newoff ⟨newkey, childblk⟩
      items 0 (by omega) hcase (by omega)
    simp only [Nat.sub_zero] at hloop
    rw [hloop]
    refine ⟨?_, ?_, ?_, hsorted⟩
    · have hdd : items.drop sp = (items.drop newoff).drop (sp - newoff) := by
        rw [List.drop_drop]
        congr 1
        omega
      simp only [List.cons_append, List.append_assoc]
      rw [hdd, List.take_append_drop]
    · simp only [if_pos hcase, List.length_append, List.length_cons,
        List.length_take, List.length_drop]
      omega
    · simp only [if_pos hcase, List.length_drop]
      omega
  · have hle : tidLe ((items.getD sp default).tid) newkey := by
      by_cases he : sp = newoff - 1
      · rw [he]; exact tidLe_of_lt hlo
      · exact tidLe_of_lt (tidLt_trans
          (internalSorted_getD_lt hs (show sp < newoff - 1 by omega) (by omega))
          hlo)
    rw [decide_eq_false (not_tidLt_of_le hle)]
    have hloop := zsbt_split_internal_loop_newoff_right sp newoff ⟨newkey, childblk⟩
      items 0 (by omega) (by omega)
    simp only [Nat.sub_zero] at hloop
    rw [hloop]
    refine ⟨?_, ?_, ?_, hsorted⟩
    · have htt : items.take newoff =
          items.take sp ++ (items.drop sp).take (newoff - sp) := by
        rw [← List.take_add]
        congr 1
        omega
      rw [htt, List.append_assoc]
    · simp only [if_neg hcase, List.length_take]
      omega
    · simp only [if_neg hcase, List.length_append, List.length_cons,
        List.length_take, List.length_drop]
      omega

/-- C8: when an internal page with `n` downlinks splits, the split point
sits at index `⌊0.9 · n⌋`: the left page retains the first 90% of the
prior downlinks (plus the new downlink when its key falls below the
split TID, which is exactly the case `newoff ≤ splitpoint`), the right
page receives the remaining 10% (plus the new downlink otherwise), the
two pages together hold exactly `n + 1` downlinks with the new downlink
at its correct sorted position, and the right page's lokey and left
page's hikey are the split TID. -/
theorem zsbt_split_internal_ninety_ten_spec (origpage childpage : ZSPage)
    (newoff : Nat) (newkey : ItemPointerData) (childblk rightblkno : Nat)
    (hs : internalSorted origpage.internalItems)
    (hn : 1 ≤ origpage.internalItems.length)
    (hoff1 : 1 ≤ newoff) (hoffn : newoff ≤ origpage.internalItems.length)
    (hlo : tidLt ((origpage.internalItems.getD (newoff - 1) default).tid) newkey)
    (hhi : newoff < origpage.internalItems.length →
      tidLt newkey ((origpage.internalItems.getD newoff default).tid)) :
    ((zsbt_split_internal origpage childpage newoff newkey childblk
        rightblkno).1.internalItems ++
      (zsbt_split_internal origpage childpage newoff newkey childblk
        rightblkno).2.1.internalItems =
      origpage.internalItems.take newoff ++ ⟨newkey, childblk⟩ ::
        origpage.internalItems.drop newoff) ∧
    (zsbt_split_internal origpage childpage newoff newkey childblk
        rightblkno).1.internalItems.length =
      origpage.internalItems.length * 9 / 10 +
        (if newoff ≤ origpage.internalItems.length * 9 / 10 then 1 else 0) ∧
    (zsbt_split_internal origpage childpage newoff newkey childblk
        rightblkno).2.1.internalItems.length =
      (origpage.internalItems.length - origpage.internalItems.length * 9 / 10) +
        (if newoff ≤ origpage.internalItems.length * 9 / 10 then 0 else 1) ∧
    (zsbt_split_internal origpage childpage newoff newkey childblk
        rightblkno).2.1.zs_lokey =
      (origpage.internalItems.getD (origpage.internalItems.length * 9 / 10)
        default).tid ∧
    (zsbt_split_internal origpage childpage newoff newkey childblk
        rightblkno).1.zs_hikey =
      (origpage.internalItems.getD (origpage.internalItems.length * 9 / 10)
        default).tid ∧
    internalSorted
      ((zsbt_split_internal origpage childpage newoff newkey childblk
          rightblkno).1.internalItems ++
        (zsbt_split_internal origpage childpage newoff newkey childblk
          rightblkno).2.1.internalItems) := by
  have hspn : origpage.internalItems.length * 9 / 10 <
      origpage.internalItems.length := by omega
  obtain ⟨hc, hl1, hl2, hsorted⟩ := zsbt_split_internal_distribute_spec
    origpage.internalItems (origpage.internalItems.length * 9 / 10) newoff newkey
    childblk hs hspn hoff1 hoffn hlo hhi
  refine ⟨hc, hl1, hl2, rfl, rfl, ?_⟩
  rw [← hc] at hsorted
  exact hsorted

/-- Witness for C8: splitting the ten-downlink page while appending the
downlink `((10,1) → 20)` at offset 10 puts nine downlinks left and two
right. -/
theorem zsbt_split_internal_ninety_ten_witness :
    ((zsbt_split_internal internalDemoPage internalDemoChild 10 ⟨10, 1⟩ 20
        21).1.internalItems ++
      (zsbt_split_internal internalDemoPage internalDemoChild 10 ⟨10, 1⟩ 20
        21).2.1.internalItems =
      internalDemoPage.internalItems.take 10 ++ ⟨⟨10, 1⟩, 20⟩ ::
        internalDemoPage.internalItems.drop 10) ∧
    (zsbt_split_internal internalDemoPage internalDemoChild 10 ⟨10, 1⟩ 20
        21).1.internalItems.length =
      internalDemoPage.internalItems.length * 9 / 10 +
        (if 10 ≤ internalDemoPage.internalItems.length * 9 / 10 then 1 else 0) ∧
    (zsbt_split_internal internalDemoPage internalDemoChild 10 ⟨10, 1⟩ 20
        21).2.1.internalItems.length =
      (internalDemoPage.internalItems.length -
          internalDemoPage.internalItems.length * 9 / 10) +
        (if 10 ≤ internalDemoPage.internalItems.length * 9 / 10 then 0 else 1) ∧
    (zsbt_split_internal internalDemoPage internalDemoChild 10 ⟨10, 1⟩ 20
        21).2.1.zs_lokey =
      (internalDemoPage.internalItems.getD
        (internalDemoPage.internalItems.length * 9 / 10) default).tid ∧
    (zsbt_split_internal internalDemoPage internalDemoChild 10 ⟨10, 1⟩ 20
        21).1.zs_hikey =
      (internalDemoPage.internalItems.getD
        (internalDemoPage.internalItems.length * 9 / 10) default).tid ∧
    internalSorted
      ((zsbt_split_internal internalDemoPage internalDemoChild 10 ⟨10, 1⟩ 20
          21).1.internalItems ++
        (zsbt_split_internal internalDemoPage internalDemoChild 10 ⟨10, 1⟩ 20
          21).2.1.internalItems) :=
  zsbt_split_internal_ninety_ten_spec internalDemoPage internalDemoChild 10
    ⟨10, 1⟩ 20 21 (by decide) (by decide) (by decide) (by decide) (by decide)
    (fun hlt => absurd hlt (by decide))

/-- C5 counterexample: on a completely empty tree (no root recorded in
the metapage, empty buffer pool), `zsbt_get_last_tid` does NOT return
"none": it resolves the root with `create = true` (line 1136), so it
creates a fresh root — the metapage afterwards points at block 0 — and
returns that empty root leaf's lokey `(0,1)`. -/
theorem zsbt_get_last_tid_creates_root_on_empty_tree :
    (⟨none, []⟩ : ZSTreeState).meta = none ∧
    zsbt_get_last_tid 2 ⟨none, []⟩ =
      some (⟨0, 1⟩, ⟨some 0, [emptyRootLeaf]⟩) ∧
    (some 0 : Option Nat) ≠ none := by
  refine ⟨rfl, ?_, by decide⟩
  decide

/-- C5 (amended): on a tree with no root for the attribute, `begin_scan`
produces an immediately inactive scan whose `scan_next` returns no tuple
at any fuel, without touching the state, and `delete_probe` returns
false without touching the state — neither creates a root.  The last-tid
probe however resolves the root with `create = true`: it CREATES the
root (an empty leaf in a fresh block, recorded in the metapage) and
returns that leaf's lokey `(0,1)` rather than "none". -/
theorem zsbt_empty_tree_ops_spec (st : ZSTreeState) (h : st.meta = none)
    (attno fuel : Nat) (starttid tid : ItemPointerData)
    (oracle : ItemPointerData → Bool) :
    zsbt_begin_scan fuel st attno starttid =
      some ({ active := false, attno := 0, nexttid := ⟨0, 0⟩, lastbuf := none
            , decompressor := [], has_decompressed := false }, st) ∧
    (∀ fuel2, zsbt_scan_next oracle st.blocks (fuel2 + 1)
        { active := false, attno := 0, nexttid := ⟨0, 0⟩, lastbuf := none
        , decompressor := [], has_decompressed := false } =
      some ({ active := false, attno := 0, nexttid := ⟨0, 0⟩, lastbuf := none
            , decompressor := [], has_decompressed := false }, none)) ∧
    zsbt_scan_for_tuple_delete fuel st tid = some (false, st) ∧
    zsbt_get_last_tid (fuel + 1) st =
      some (⟨0, 1⟩,
        { meta := some st.blocks.length
        , blocks := st.blocks ++ [emptyRootLeaf] }) := by
  refine ⟨?_, ?_, ?_, ?_⟩
  · unfold zsbt_begin_scan zsmeta_get_root_for_attribute
    rw [h]
    rfl
  · intro fuel2
    rfl
  · unfold zsbt_scan_for_tuple_delete zsmeta_get_root_for_attribute
    rw [h]
    rfl
  · unfold zsbt_get_last_tid zsmeta_get_root_for_attribute
    rw [h]
    have hget : (st.blocks ++ [emptyRootLeaf]).get? st.blocks.length =
        some emptyRootLeaf := List.get?_concat_length st.blocks emptyRootLeaf
    show (match zsbt_descend_loop (st.blocks ++ [emptyRootLeaf]) rightmostkey
        (fuel + 1) st.blocks.length none with
      | none => none
      | some leafblk =>
        match (st.blocks ++ [emptyRootLeaf]).get? leafblk with
        | none => none
        | some pg => some (zsbt_last_tid_of_leaf pg,
            ({ meta := some st.blocks.length
             , blocks := st.blocks ++ [emptyRootLeaf] } : ZSTreeState))) = _
    have hdesc : zsbt_descend_loop (st.blocks ++ [emptyRootLeaf]) rightmostkey
        (fuel + 1) st.blocks.length none = some st.blocks.length := by
      show zsbt_descend_loop (st.blocks ++ [emptyRootLeaf]) rightmostkey
        (Nat.succ fuel) st.blocks.length none = some st.blocks.length
      unfold zsbt_descend_loop
      rw [hget]
      rfl
    rw [hdesc]
    have hfin : (match (st.blocks ++ [emptyRootLeaf]).get? st.blocks.length with
      | none => none
      | some pg => some (zsbt_last_tid_of_leaf pg,
          ({ meta := some st.blocks.length
           , blocks := st.blocks ++ [emptyRootLeaf] } : ZSTreeState))) =
        some (⟨0, 1⟩,
          ({ meta := some st.blocks.length
           , blocks := st.blocks ++ [emptyRootLeaf] } : ZSTreeState)) := by
      rw [hget]
      rfl
    exact hfin

/-- Witness for the amended C5 at the concrete empty tree. -/
theorem zsbt_empty_tree_ops_spec_witness :
    zsbt_begin_scan 3 ⟨none, []⟩ 1 ⟨0, 1⟩ =
      some ({ active := false, attno := 0, nexttid := ⟨0, 0⟩, lastbuf := none
            , decompressor := [], has_decompressed := false }, ⟨none, []⟩) ∧
    (∀ fuel2, zsbt_scan_next (fun _ => true) (⟨none, []⟩ : ZSTreeState).blocks
        (fuel2 + 1)
        { active := false, attno := 0, nexttid := ⟨0, 0⟩, lastbuf := none
        , decompressor := [], has_decompressed := false } =
      some ({ active := false, attno := 0, nexttid := ⟨0, 0⟩, lastbuf := none
            , decompressor := [], has_decompressed := false }, none)) ∧
    zsbt_scan_for_tuple_delete 3 ⟨none, []⟩ ⟨0, 1⟩ = some (false, ⟨none, []⟩) ∧
    zsbt_get_last_tid (3 + 1) ⟨none, []⟩ =
      some (⟨0, 1⟩,
        { meta := some (⟨none, []⟩ : ZSTreeState).blocks.length
        , blocks := (⟨none, []⟩ : ZSTreeState).blocks ++ [emptyRootLeaf] }) :=
  zsbt_empty_tree_ops_spec ⟨none, []⟩ rfl 1 3 ⟨0, 1⟩ ⟨0, 1⟩ (fun _ => true)

theorem validTid_increment {t : ItemPointerData} (_h : validTid t) :
    validTid (ItemPointerIncrement t) := by
  unfold ItemPointerIncrement
  by_cases hc : t.ip_posid < 0xFFFF
  · rw [if_pos hc]
    exact ⟨Nat.le_add_left 1 t.ip_posid, show t.ip_posid + 1 ≤ 0xFFFF by omega⟩
  · rw [if_neg hc]
    refine ⟨le_refl 1, ?_⟩
    show (1 : Nat) ≤ 0xFFFF
    decide

theorem tidLe_increment_of_lt {a b : ItemPointerData} (ha : validTid a)
    (hb : validTid b) (h : tidLt a b) : tidLe (ItemPointerIncrement a) b := by
  unfold validTid at ha hb
  rw [tidLt_iff] at h
  unfold ItemPointerIncrement
  by_cases hc : a.ip_posid < 0xFFFF
  · rw [if_pos hc, tidLe_iff]
    show a.ip_blkid < b.ip_blkid ∨ (a.ip_blkid = b.ip_blkid ∧ a.ip_posid + 1 ≤ b.ip_posid)
    omega
  · rw [if_neg hc, tidLe_iff]
    show a.ip_blkid + 1 < b.ip_blkid ∨ (a.ip_blkid + 1 = b.ip_blkid ∧ 1 ≤ b.ip_posid)
    omega

theorem tidLt_irrefl (a : ItemPointerData) : ¬ tidLt a a := by
  rw [tidLt_iff]; omega

theorem tidSeq_length (t : ItemPointerData) (ds : List Nat) :
    (tidSeq t ds).length = ds.length := by
  induction ds generalizing t with
  | nil => rfl
  | cons d ds ih => simp [tidSeq, ih]

theorem tidSeq_map_snd (t : ItemPointerData) (ds : List Nat) :
    (tidSeq t ds).map Prod.snd = ds := by
  induction ds generalizing t with
  | nil => rfl
  | cons d ds ih => simp [tidSeq, ih]

theorem tidSeq_snoc (t : ItemPointerData) (ds : List Nat) (d : Nat) :
    tidSeq t (ds ++ [d]) = tidSeq t ds ++ [(tidSeqNext t ds, d)] := by
  induction ds generalizing t with
  | nil => rfl
  | cons e es ih =>
    show (t, e) :: tidSeq (ItemPointerIncrement t) (es ++ [d]) = _
    rw [ih]
    have hnext : tidSeqNext t (e :: es) = tidSeqNext (ItemPointerIncrement t) es := by
      unfold tidSeqNext
      show (match ((t, e) :: tidSeq (ItemPointerIncrement t) es).getLast? with
        | none => t
        | some pr => ItemPointerIncrement pr.1) = _
      cases hes : tidSeq (ItemPointerIncrement t) es with
      | nil => rfl
      | cons x xs =>
        rw [List.getLast?_cons_cons]
        cases h2 : (x :: xs).getLast? with
        | none => exact absurd h2 (by simp)
        | some pr => rfl
    rw [hnext]
    rfl

theorem tidSeq_head (t : ItemPointerData) (d : Nat) (ds : List Nat) :
    (tidSeq t (d :: ds)).headD default = (t, d) := rfl

theorem tidSeq_valid (t : ItemPointerData) (ds : List Nat) (h : validTid t) :
    ∀ pr ∈ tidSeq t ds, validTid pr.1 := by
  induction ds generalizing t with
  | nil => intro pr hpr; simp [tidSeq] at hpr
  | cons d ds ih =>
    intro pr hpr
    rcases List.mem_cons.mp hpr with heq | hmem
    · rw [heq]; exact h
    · exact ih (ItemPointerIncrement t) (validTid_increment h) pr hmem

theorem tidSeq_lower (t : ItemPointerData) (ds : List Nat) (h : validTid t) :
    ∀ pr ∈ tidSeq t ds, tidLe t pr.1 := by
  induction ds generalizing t with
  | nil => intro pr hpr; simp [tidSeq] at hpr
  | cons d ds ih =>
    intro pr hpr
    rcases List.mem_cons.mp hpr with heq | hmem
    · rw [heq]; exact tidLe_refl t
    · exact tidLe_trans (tidLe_of_lt (tidLt_increment t))
        (ih (ItemPointerIncrement t) (validTid_increment h) pr hmem)

theorem tidSeq_chain (t : ItemPointerData) (ds : List Nat) (h : validTid t) :
    (tidSeq t ds).Chain' (fun a b => tidLt a.1 b.1) := by
  induction ds generalizing t with
  | nil => exact List.chain'_nil
  | cons d ds ih =>
    show List.Chain' _ ((t, d) :: tidSeq (ItemPointerIncrement t) ds)
    rw [List.chain'_cons']
    refine ⟨?_, ih (ItemPointerIncrement t) (validTid_increment h)⟩
    intro y hy
    have hmem : y ∈ tidSeq (ItemPointerIncrement t) ds := List.mem_of_mem_head? hy
    exact tidLt_trans_le (tidLt_increment t)
      (tidSeq_lower (ItemPointerIncrement t) ds (validTid_increment h) y hmem)

theorem tidLt_blk_rightmost {k : Nat} (h : k ≤ MaxBlockNumber) :
    tidLt ⟨k, 1⟩ rightmostkey := by
  rw [tidLt_iff]
  show k < 0xFFFFFFFE ∨ (k = 0xFFFFFFFE ∧ 1 < 0xFFFE)
  unfold MaxBlockNumber at h
  omega

theorem not_tidLe_sentinel_of_lt {t : ItemPointerData}
    (h : tidLt t MaxTidSentinel) : ¬ tidLe MaxTidSentinel t :=
  not_tidLe_of_lt h

theorem tidLt_rightmost_sentinel {t : ItemPointerData}
    (h : tidLt t rightmostkey) : tidLt t MaxTidSentinel :=
  tidLt_trans h (by decide)

theorem internalSorted_le_getLast {items : List ZSBtreeInternalPageItem}
    {x : ZSBtreeInternalPageItem} (hs : internalSorted items)
    (hl : items.getLast? = some x) : ∀ it ∈ items, tidLe it.tid x.tid := by
  induction items with
  | nil => intro it hit; simp at hit
  | cons a t ih =>
    intro it hit
    cases t with
    | nil =>
      simp at hl
      rcases List.mem_singleton.mp hit with rfl
      rw [hl]
      exact tidLe_refl _
    | cons b t2 =>
      rw [List.getLast?_cons_cons] at hl
      have hs2 : internalSorted (b :: t2) := (List.pairwise_cons.mp hs).2
      rcases List.mem_cons.mp hit with rfl | hmem
      · have hxmem : x ∈ b :: t2 := List.mem_of_mem_getLast? hl
        exact tidLe_of_lt ((List.pairwise_cons.mp hs).1 x hxmem)
      · exact ih hs2 hl it hmem

theorem internalSorted_append_singleton {items : List ZSBtreeInternalPageItem}
    {x : ZSBtreeInternalPageItem} (hs : internalSorted items)
    (hx : ∀ it ∈ items, tidLt it.tid x.tid) : internalSorted (items ++ [x]) := by
  unfold internalSorted at hs ⊢
  rw [List.pairwise_append]
  exact ⟨hs, List.pairwise_singleton _ x, fun a ha b hb => by
    rcases List.mem_singleton.mp hb with rfl
    exact hx a ha⟩

theorem internalSorted_take {items : List ZSBtreeInternalPageItem} (k : Nat)
    (hs : internalSorted items) : internalSorted (items.take k) :=
  hs.sublist (List.take_sublist k items)

theorem internalSorted_drop {items : List ZSBtreeInternalPageItem} (k : Nat)
    (hs : internalSorted items) : internalSorted (items.drop k) :=
  hs.sublist (List.drop_sublist k items)

theorem zsbt_binsrch_internal_all_le {key : ItemPointerData}
    {items : List ZSBtreeInternalPageItem} (hs : internalSorted items)
    (hne : items ≠ []) (hle : ∀ it ∈ items, tidLe it.tid key) :
    zsbt_binsrch_internal key items = (items.length : Int) - 1 := by
  rw [zsbt_binsrch_internal_eq_countP key items hs]
  have hcount : items.countP (fun it => decide (tidLe it.tid key)) = items.length := by
    rw [List.countP_eq_length]
    intro it hit
    exact decide_eq_true (hle it hit)
  rw [hcount]

theorem zsbt_binsrch_internal_head_eq {key : ItemPointerData}
    {items : List ZSBtreeInternalPageItem} (hs : internalSorted items)
    (hne : items ≠ []) (hh : (items.headD default).tid = key) :
    zsbt_binsrch_internal key items = 0 := by
  rw [zsbt_binsrch_internal_eq_countP key items hs]
  cases items with
  | nil => exact absurd rfl hne
  | cons a t =>
    have hhead : a.tid = key := hh
    have hrest : t.countP (fun it => decide (tidLe it.tid key)) = 0 := by
      rw [List.countP_eq_zero]
      intro it hit
      have := (List.pairwise_cons.mp hs).1 it hit
      rw [hhead] at this
      exact fun hc => not_tidLe_of_lt this (of_decide_eq_true hc)
    rw [List.countP_cons, hrest, decide_eq_true (hhead ▸ tidLe_refl key)]
    rfl

theorem getD_of_getLast? {α : Type} [Inhabited α] {l : List α} {x : α}
    (h : l.getLast? = some x) : l.getD (l.length - 1) default = x := by
  rw [List.getLast?_eq_getElem?] at h
  rw [List.getD_eq_getElem?_getD, h]
  rfl

theorem PageShapeEq_refl (a : ZSPage) : PageShapeEq a a :=
  ⟨rfl, rfl, rfl, rfl, rfl⟩

theorem PageShapeEq_trans {a b c : ZSPage} (h1 : PageShapeEq a b)
    (h2 : PageShapeEq b c) : PageShapeEq a c :=
  ⟨h1.1.trans h2.1, h1.2.1.trans h2.2.1, h1.2.2.1.trans h2.2.2.1,
   h1.2.2.2.1.trans h2.2.2.2.1, h1.2.2.2.2.trans h2.2.2.2.2⟩

theorem LeafFrame_refl (j : Nat) (blocks : List ZSPage) :
    LeafFrame j blocks blocks :=
  fun _ pg hb _ => ⟨pg, hb, PageShapeEq_refl pg⟩

theorem LeafFrame_comp {j j' : Nat} {blocks blocks' blocks'' : List ZSPage}
    (h1 : LeafFrame j blocks blocks') (h2 : LeafFrame j' blocks' blocks'')
    (hj : j ≤ j') : LeafFrame j blocks blocks'' := by
  intro b pg hb hl
  obtain ⟨pg1, hb1, hs1⟩ := h1 b pg hb hl
  obtain ⟨pg2, hb2, hs2⟩ := h2 b pg1 hb1 (by rw [hs1.1]; omega)
  exact ⟨pg2, hb2, PageShapeEq_trans hs2 hs1⟩

theorem get?_set_self {blocks : List ZSPage} {bb : Nat} (pg : ZSPage)
    (h : bb < blocks.length) : (blocks.set bb pg).get? bb = some pg :=
  List.get?_set_eq_of_lt pg h

theorem get?_set_other {blocks : List ZSPage} {bb b : Nat} (pg : ZSPage)
    (h : bb ≠ b) : (blocks.set bb pg).get? b = blocks.get? b :=
  List.get?_set_ne pg blocks h

theorem get?_append_l {blocks ext : List ZSPage} {b : Nat}
    (h : b < blocks.length) : (blocks ++ ext).get? b = blocks.get? b :=
  List.get?_append h

theorem get?_concat (blocks : List ZSPage) (pg : ZSPage) :
    (blocks ++ [pg]).get? blocks.length = some pg :=
  List.get?_concat_length blocks pg

theorem get?_lt_length {blocks : List ZSPage} {b : Nat} {pg : ZSPage}
    (h : blocks.get? b = some pg) : b < blocks.length :=
  List.get?_eq_some.mp h |>.choose

theorem pageAt_of_get? {blocks : List ZSPage} {b : Nat} {pg : ZSPage}
    (h : blocks.get? b = some pg) : pageAt blocks b = pg := by
  unfold pageAt
  rw [List.getD_eq_getElem?_getD, ← List.get?_eq_getElem?, h]
  rfl

theorem decodeChain_congr {blocks blocks' : List ZSPage} {ch : List Nat}
    (h : ∀ b ∈ ch, (pageAt blocks' b).leafItems = (pageAt blocks b).leafItems) :
    decodeChain blocks' ch = decodeChain blocks ch := by
  unfold decodeChain
  induction ch with
  | nil => rfl
  | cons b rest ih =>
    rw [List.flatMap_cons, List.flatMap_cons, h b (List.mem_cons_self b rest),
      ih (fun b2 hb2 => h b2 (List.mem_cons_of_mem b hb2))]

theorem leafItems_of_shape {a b : ZSPage} (h : PageShapeEq a b) :
    a.leafItems = b.leafItems := by
  unfold ZSPage.leafItems
  rw [h.2.2.2.2]

theorem decodeChain_snoc (blocks : List ZSPage) (ch : List Nat) (b : Nat) :
    decodeChain blocks (ch ++ [b]) =
      decodeChain blocks ch ++ decodeItems (pageAt blocks b).leafItems := by
  unfold decodeChain
  rw [List.flatMap_append, List.flatMap_cons, List.flatMap_nil, List.append_nil]

theorem chain_drop_cons {ch : List Nat} {k : Nat} (h : k < ch.length) :
    ch.drop k = ch.getD k 0 :: ch.drop (k + 1) := by
  rw [List.drop_eq_getElem_cons h, List.getD_eq_getElem?_getD,
    List.getElem?_eq_getElem h]
  rfl

theorem UpperOK_set_low {blocks : List ZSPage} {J c : Nat}
    {clo : ItemPointerData} {u : List Nat} (h : UpperOK blocks J c clo u)
    {bb : Nat} {pgold pgnew : ZSPage} (hb : blocks.get? bb = some pgold)
    (hl : pgold.zs_level ≤ J) : UpperOK (blocks.set bb pgnew) J c clo u := by
  induction h with
  | nil j childblk => exact UpperOK.nil j childblk
  | cons j childblk childlokey lo b rest pg items hget hlev hhk hnx hct hs hall
      hlen hhead hlk hlast hrec ih =>
    have hne : bb ≠ b := by
      intro heq
      rw [heq, hget] at hb
      have : pg = pgold := by injection hb
      rw [← this] at hl
      omega
    exact UpperOK.cons j childblk childlokey lo b rest pg items
      (by rw [get?_set_other pgnew hne]; exact hget) hlev hhk hnx hct hs hall
      hlen hhead hlk hlast (ih (by omega))

theorem UpperOK_append {blocks ext : List ZSPage} {J c : Nat}
    {clo : ItemPointerData} {u : List Nat} (h : UpperOK blocks J c clo u) :
    UpperOK (blocks ++ ext) J c clo u := by
  induction h with
  | nil j childblk => exact UpperOK.nil j childblk
  | cons j childblk childlokey lo b rest pg items hget hlev hhk hnx hct hs hall
      hlen hhead hlk hlast hrec ih =>
    exact UpperOK.cons j childblk childlokey lo b rest pg items
      (by rw [get?_append_l (get?_lt_length hget)]; exact hget) hlev hhk hnx hct
      hs hall hlen hhead hlk hlast ih

theorem UpperOK_top_page {blocks : List ZSPage} {J c : Nat}
    {clo : ItemPointerData} {u : List Nat} (h : UpperOK blocks J c clo u)
    (hne : u ≠ []) : ∃ pg, blocks.get? (u.getLastD c) = some pg ∧
      pg.zs_level = J + u.length := by
  induction h with
  | nil j childblk => exact absurd rfl hne
  | cons j childblk childlokey lo b rest pg items hget hlev hhk hnx hct hs hall
      hlen hhead hlk hlast hrec ih =>
    cases rest with
    | nil => exact ⟨pg, hget, by rw [hlev]; rfl⟩
    | cons r rest2 =>
      obtain ⟨tpg, htget, htlev⟩ := ih (List.cons_ne_nil r rest2)
      exact ⟨tpg, htget, by rw [htlev]; simp only [List.length_cons]; omega⟩

theorem headD_take {α : Type} {l : List α} {k : Nat} (hk : 1 ≤ k) (d : α) :
    (l.take k).headD d = l.headD d := by
  cases l with
  | nil => simp
  | cons a t =>
    cases k with
    | zero => omega
    | succ k2 => rw [List.take_succ_cons]; rfl

theorem take_ne_nil {α : Type} {l : List α} {k : Nat} (hk : 1 ≤ k)
    (hl : l ≠ []) : l.take k ≠ [] := by
  cases l with
  | nil => exact absurd rfl hl
  | cons a t =>
    cases k with
    | zero => omega
    | succ k2 => rw [List.take_succ_cons]; exact List.cons_ne_nil _ _

theorem headD_append {α : Type} {l l2 : List α} (hl : l ≠ []) (d : α) :
    ((l ++ l2).headD d) = l.headD d := by
  cases l with
  | nil => exact absurd rfl hl
  | cons a t => rfl

theorem getD_zero_eq_headD {α : Type} [Inhabited α] (l : List α) :
    l.getD 0 default = l.headD default := by
  cases l <;> rfl

theorem internalSorted_head_lt_getD {items : List ZSBtreeInternalPageItem}
    (hs : internalSorted items) {sp : Nat} (h1 : 1 ≤ sp) (h2 : sp < items.length) :
    tidLt (items.headD default).tid (items.getD sp default).tid := by
  rw [← getD_zero_eq_headD]
  exact internalSorted_getD_lt hs (by omega) h2

theorem LSpineOK_set {blocks : List ZSPage} {l : Nat} {ls : List Nat}
    (h : LSpineOK blocks l ls) (bb : Nat) (pgnew : ZSPage)
    (hstep : ∀ pgold, blocks.get? bb = some pgold → LPageStep pgold pgnew) :
    LSpineOK (blocks.set bb pgnew) l ls := by
  induction h with
  | leaf b pg hget hlev hlk =>
    by_cases heq : bb = b
    · subst heq
      have hst := hstep pg hget
      have hget' : (blocks.set bb pgnew).get? bb = some pgnew :=
        get?_set_self pgnew (get?_lt_length hget)
      rcases hst with hsh | ⟨hl2, hk2, _⟩ | ⟨items, newit, _, _, _, hl2, hk2, _, _⟩ |
        ⟨items, sp, _, _, _, _, hl2, hk2, _, _⟩
      · exact LSpineOK.leaf bb pgnew hget' (hsh.1.trans hlev) (hsh.2.1.trans hlk)
      · exact LSpineOK.leaf bb pgnew hget' (hl2.trans hlev) (hk2.trans hlk)
      · exact LSpineOK.leaf bb pgnew hget' (hl2.trans hlev) (hk2.trans hlk)
      · exact LSpineOK.leaf bb pgnew hget' (hl2.trans hlev) (hk2.trans hlk)
    · exact LSpineOK.leaf b pg (by rw [get?_set_other pgnew heq]; exact hget)
        hlev hlk
  | node b child rest lv pg items hget hlev hlk hhk hct hs hhead hne hrec ih =>
    by_cases heq : bb = b
    · subst heq
      have hst := hstep pg hget
      have hget' : (blocks.set bb pgnew).get? bb = some pgnew :=
        get?_set_self pgnew (get?_lt_length hget)
      rcases hst with hsh | ⟨_, _, hlf⟩ |
        ⟨items2, newit, hoc, hne2, hs2, hl2, hk2, hh2, hc2⟩ |
        ⟨items2, sp, hoc, hsp1, hsp2, hs2, hl2, hk2, hh2, hc2⟩
      · exact LSpineOK.node bb child rest lv pgnew items hget'
          (hsh.1.trans hlev) (hsh.2.1.trans hlk) (hsh.2.2.1 ▸ hhk)
          (hsh.2.2.2.2.trans hct) hs hhead hne ih
      · rw [hlf] at hlev
        omega
      · have hit : items2 = items := by
          rw [hct] at hoc
          injection hoc with h2
          exact h2.symm
        rw [hit] at hs2 hc2
        exact LSpineOK.node bb child rest lv pgnew (items ++ [newit]) hget'
          (hl2.trans hlev) (hk2.trans hlk) (hh2 ▸ hhk) hc2 hs2
          (by rw [headD_append hne]; exact hhead)
          (by simp) ih
      · have hit : items2 = items := by
          rw [hct] at hoc
          injection hoc with h2
          exact h2.symm
        rw [hit] at hc2 hh2 hsp2
        refine LSpineOK.node bb child rest lv pgnew (items.take sp) hget'
          (hl2.trans hlev) (hk2.trans hlk) ?_ hc2 (internalSorted_take sp hs)
          (by rw [headD_take hsp1]; exact hhead) (take_ne_nil hsp1 hne) ih
        rw [hh2]
        have := internalSorted_head_lt_getD hs hsp1 hsp2
        rw [hhead] at this
        exact this
    · exact LSpineOK.node b child rest lv pg items
        (by rw [get?_set_other pgnew heq]; exact hget) hlev hlk hhk hct hs hhead
        hne ih

theorem LSpineOK_append {blocks ext : List ZSPage} {l : Nat} {ls : List Nat}
    (h : LSpineOK blocks l ls) : LSpineOK (blocks ++ ext) l ls := by
  induction h with
  | leaf b pg hget hlev hlk =>
    exact LSpineOK.leaf b pg (by rw [get?_append_l (get?_lt_length hget)]; exact hget)
      hlev hlk
  | node b child rest lv pg items hget hlev hlk hhk hct hs hhead hne hrec ih =>
    exact LSpineOK.node b child rest lv pg items
      (by rw [get?_append_l (get?_lt_length hget)]; exact hget) hlev hlk hhk hct
      hs hhead hne ih

theorem LSpineOK_ne_nil {blocks : List ZSPage} {l : Nat} {ls : List Nat}
    (h : LSpineOK blocks l ls) : ls ≠ [] := by
  cases h with
  | leaf b pg => exact List.cons_ne_nil _ _
  | node b child rest lv pg items => exact List.cons_ne_nil _ _

theorem ChainOK_facts {blocks : List ZSPage} {i : Nat} {ch : List Nat}
    (h : ChainOK blocks i ch) :
    ∀ k, k < ch.length → ∃ pg, blocks.get? (ch.getD k 0) = some pg ∧
      pg.zs_level = 0 ∧ pg.zs_lokey = ⟨i + k, 1⟩ ∧
      (k + 1 < ch.length → pg.zs_next = some (ch.getD (k + 1) 0) ∧
        ch.getD k 0 ≠ ch.getD (k + 1) 0) ∧
      (k + 1 = ch.length → pg.zs_next = none) := by
  induction h with
  | last i b pg hget hlev hlk hnx =>
    intro k hk
    have hk0 : k = 0 := by
      rw [List.length_singleton] at hk
      omega
    subst hk0
    exact ⟨pg, hget, hlev, hlk, fun hc => absurd hc (by simp only [List.length_cons, List.length_nil]; omega),
      fun _ => hnx⟩
  | cons i b b2 rest pg hget hlev hlk hnx hne hrec ih =>
    intro k hk
    cases k with
    | zero =>
      refine ⟨pg, hget, hlev, hlk, fun _ => ⟨hnx, hne⟩, fun hc => ?_⟩
      rw [List.length_cons, List.length_cons] at hc
      omega
    | succ k2 =>
      rw [List.length_cons] at hk
      obtain ⟨pg2, hget2, hlev2, hlk2, hmid2, hlast2⟩ := ih k2 (by omega)
      have harith : i + 1 + k2 = i + (k2 + 1) := by omega
      refine ⟨pg2, hget2, hlev2, by rw [hlk2, harith], ?_, ?_⟩
      · intro hc
        rw [List.length_cons] at hc
        exact hmid2 (by omega)
      · intro hc
        rw [List.length_cons] at hc
        exact hlast2 (by omega)

theorem ChainOK_of_facts {blocks : List ZSPage} : ∀ (ch : List Nat) (i : Nat),
    ch ≠ [] →
    (∀ k, k < ch.length → ∃ pg, blocks.get? (ch.getD k 0) = some pg ∧
      pg.zs_level = 0 ∧ pg.zs_lokey = ⟨i + k, 1⟩ ∧
      (k + 1 < ch.length → pg.zs_next = some (ch.getD (k + 1) 0) ∧
        ch.getD k 0 ≠ ch.getD (k + 1) 0) ∧
      (k + 1 = ch.length → pg.zs_next = none)) →
    ChainOK blocks i ch
  | [], _, hne, _ => absurd rfl hne
  | [b], i, _, hf => by
    obtain ⟨pg, hget, hlev, hlk, _, hlast⟩ := hf 0 (by simp only [List.length_cons, List.length_nil]; omega)
    exact ChainOK.last i b pg hget hlev hlk (hlast (by simp only [List.length_cons, List.length_nil]))
  | b :: b2 :: rest, i, _, hf => by
    obtain ⟨pg, hget, hlev, hlk, hnext, _⟩ := hf 0 (by
      rw [List.length_cons]
      omega)
    obtain ⟨hnx, hne2⟩ := hnext (by
      rw [List.length_cons, List.length_cons]
      omega)
    refine ChainOK.cons i b b2 rest pg hget hlev hlk hnx hne2 ?_
    refine ChainOK_of_facts (b2 :: rest) (i + 1) (List.cons_ne_nil b2 rest) ?_
    intro k hk
    rw [List.length_cons] at hk
    obtain ⟨pg2, hget2, hlev2, hlk2, hmid2, hlast2⟩ := hf (k + 1) (by
      simp only [List.length_cons] at hk ⊢
      omega)
    have harith : i + (k + 1) = i + 1 + k := by omega
    refine ⟨pg2, hget2, hlev2, by rw [hlk2, harith], ?_, ?_⟩
    · intro hc
      simp only [List.length_cons] at hc
      exact hmid2 (by simp only [List.length_cons]; omega)
    · intro hc
      simp only [List.length_cons] at hc
      exact hlast2 (by simp only [List.length_cons]; omega)

theorem ChainOK_getD_inj {blocks : List ZSPage} {i : Nat} {ch : List Nat}
    (h : ChainOK blocks i ch) {k k' : Nat} (hk : k < ch.length)
    (hk' : k' < ch.length) (heq : ch.getD k 0 = ch.getD k' 0) : k = k' := by
  obtain ⟨pg, hget, _, hlk, _, _⟩ := ChainOK_facts h k hk
  obtain ⟨pg', hget', _, hlk', _, _⟩ := ChainOK_facts h k' hk'
  rw [heq, hget'] at hget
  have hpg : pg' = pg := by injection hget
  rw [hpg, hlk] at hlk'
  have : i + k = i + k' := by injection hlk' with h1 h2
  omega

theorem ChainOK_frame {blocks blocks' : List ZSPage} {i : Nat} {ch : List Nat}
    (h : ChainOK blocks i ch) (hf : LeafFrame 0 blocks blocks') :
    ChainOK blocks' i ch := by
  induction h with
  | last i b pg hget hlev hlk hnx =>
    obtain ⟨pg', hget', hsh⟩ := hf b pg hget (by omega)
    exact ChainOK.last i b pg' hget' (hsh.1.trans hlev) (hsh.2.1.trans hlk)
      (hsh.2.2.2.1.trans hnx)
  | cons i b b2 rest pg hget hlev hlk hnx hne hrec ih =>
    obtain ⟨pg', hget', hsh⟩ := hf b pg hget (by omega)
    exact ChainOK.cons i b b2 rest pg' hget' (hsh.1.trans hlev)
      (hsh.2.1.trans hlk) (hsh.2.2.2.1.trans hnx) hne ih

theorem ChainOK_mem_leaf {blocks : List ZSPage} {i : Nat} {ch : List Nat}
    (h : ChainOK blocks i ch) : ∀ b ∈ ch, ∃ pg, blocks.get? b = some pg ∧
      pg.zs_level = 0 := by
  induction h with
  | last i b pg hget hlev hlk hnx =>
    intro b2 hb2
    rcases List.mem_singleton.mp hb2 with rfl
    exact ⟨pg, hget, hlev⟩
  | cons i b b2 rest pg hget hlev hlk hnx hne hrec ih =>
    intro b3 hb3
    rcases List.mem_cons.mp hb3 with rfl | hmem
    · exact ⟨pg, hget, hlev⟩
    · exact ih b3 hmem

theorem decodeChain_frame {blocks blocks' : List ZSPage} {ch : List Nat}
    (hm : ∀ b ∈ ch, ∃ pg, blocks.get? b = some pg ∧ pg.zs_level = 0)
    (hf : LeafFrame 0 blocks blocks') :
    decodeChain blocks' ch = decodeChain blocks ch := by
  refine decodeChain_congr ?_
  intro b hb
  obtain ⟨pg, hget, hlev⟩ := hm b hb
  obtain ⟨pg', hget', hsh⟩ := hf b pg hget (by omega)
  rw [pageAt_of_get? hget, pageAt_of_get? hget']
  exact leafItems_of_shape hsh

theorem zsbt_descend_step_node {blocks : List ZSPage} {b j : Nat} {pg : ZSPage}
    {items : List ZSBtreeInternalPageItem}
    (hget : blocks.get? b = some pg) (hlev : pg.zs_level = j + 1)
    (hhk : pg.zs_hikey = MaxTidSentinel)
    (hct : pg.content = ZSPageContent.internalItems items)
    (hs : internalSorted items)
    (hall : ∀ it ∈ items, tidLt it.tid rightmostkey)
    (hlen : 2 ≤ items.length)
    {cb : Nat} {clo : ItemPointerData}
    (hlast : items.getLast? = some ⟨clo, cb⟩) (fuel : Nat) :
    zsbt_descend_loop blocks rightmostkey (fuel + 1) b (some (j + 1)) =
      zsbt_descend_loop blocks rightmostkey fuel cb (some j) := by
  have hne : items ≠ [] := by
    intro hc
    rw [hc] at hlen
    simp at hlen
  have hbin : zsbt_binsrch_internal rightmostkey items = (items.length : Int) - 1 :=
    zsbt_binsrch_internal_all_le hs hne
      (fun it hit => tidLe_of_lt (hall it hit))
  rw [zsbt_descend_loop]
  simp only [hget, Option.getD_some, hlev, hct, hbin]
  rw [if_neg (fun hc => hc rfl), if_neg (Nat.succ_ne_zero j),
    if_neg (by rw [hhk]; decide), if_neg (by omega)]
  have htn : ((items.length : Int) - 1).toNat = items.length - 1 := by omega
  rw [htn, getD_of_getLast? hlast]
  rfl

theorem zsbt_descend_none_eq {blocks : List ZSPage} {c : Nat} {pg : ZSPage}
    (hget : blocks.get? c = some pg) (fuel : Nat) :
    zsbt_descend_loop blocks rightmostkey fuel c none =
      zsbt_descend_loop blocks rightmostkey fuel c (some pg.zs_level) := by
  cases fuel with
  | zero => rfl
  | succ f =>
    rw [zsbt_descend_loop, zsbt_descend_loop]
    simp only [hget, Option.getD_some, Option.getD_none]

theorem zsbt_descend_transfer {blocks : List ZSPage} :
    ∀ {j c : Nat} {clo : ItemPointerData} {upper : List Nat},
    UpperOK blocks j c clo upper →
    ∀ {cpg : ZSPage}, blocks.get? c = some cpg → cpg.zs_level = j →
    ∀ start, (start = none ∨ start = some (j + upper.length)) →
    ∀ fuel, zsbt_descend_loop blocks rightmostkey (fuel + upper.length)
        (upper.getLastD c) start =
      zsbt_descend_loop blocks rightmostkey fuel c (some j) := by
  intro j c clo upper h
  induction h with
  | nil j2 c2 =>
    intro cpg hget hlev start hstart fuel
    rcases hstart with rfl | rfl
    · show zsbt_descend_loop blocks rightmostkey fuel c2 none = _
      rw [zsbt_descend_none_eq hget fuel, hlev]
    · rfl
  | cons j2 childblk childlokey lo b rest pg items hget hlev hhk hnx hct hs hall
      hlen hhead hlk hlast hrec ih =>
    intro cpg hcget hclev start hstart fuel
    have harith : fuel + (b :: rest).length = (fuel + 1) + rest.length := by
      rw [List.length_cons]
      omega
    have hstart2 : start = none ∨ start = some ((j2 + 1) + rest.length) := by
      rcases hstart with rfl | rfl
      · exact Or.inl rfl
      · refine Or.inr ?_
        rw [List.length_cons]
        congr 1
        omega
    rw [List.getLastD_cons, harith, ih hget hlev start hstart2 (fuel + 1),
      zsbt_descend_step_node hget hlev hhk hct hs (fun it hit => (hall it hit).2)
        hlen hlast fuel]

theorem zsbt_descend_rightmost {blocks : List ZSPage} {c : Nat}
    {clo : ItemPointerData} {upper : List Nat}
    (h : UpperOK blocks 0 c clo upper) {cpg : ZSPage}
    (hc : blocks.get? c = some cpg) (hlev : cpg.zs_level = 0) (fuel : Nat) :
    zsbt_descend_loop blocks rightmostkey ((fuel + 1) + upper.length)
      (upper.getLastD c) none = some c := by
  rw [zsbt_descend_transfer h hc hlev none (Or.inl rfl) (fuel + 1),
    zsbt_descend_loop]
  simp only [hc, Option.getD_some, hlev]
  rw [if_neg (fun hc2 => hc2 rfl)]
  rfl

theorem zsbt_descend_left {blocks : List ZSPage} :
    ∀ {l : Nat} {ls : List Nat}, LSpineOK blocks l ls →
    ∀ start, (start = none ∨ start = some l) →
    ∀ fuel, zsbt_descend_loop blocks ⟨0, 1⟩ (l + fuel + 1) (ls.headD 0) start =
      some (ls.getLastD 0) := by
  intro l ls h
  induction h with
  | leaf b pg hget hlev hlk =>
    intro start hstart fuel
    have hgl : ([b] : List Nat).getLastD 0 = b := by
      rw [List.getLastD_cons]
      rfl
    rw [zsbt_descend_loop]
    simp only [List.headD_cons, hget, hgl]
    rcases hstart with rfl | rfl
    · simp only [Option.getD_none]
      rw [if_neg (fun hc => hc rfl), if_pos hlev]
    · simp only [Option.getD_some]
      rw [if_neg (by rw [hlev]; exact fun hc => hc rfl), if_pos hlev]
  | node b child rest lv pg items hget hlev hlk hhk hct hs hhead hne hrec ih =>
    intro start hstart fuel
    have hbin : zsbt_binsrch_internal ⟨0, 1⟩ items = 0 :=
      zsbt_binsrch_internal_head_eq hs hne (by rw [hhead])
    have harith : lv + 1 + fuel + 1 = (lv + fuel + 1) + 1 := by omega
    have hnl : ∀ res, (if pg.zs_level ≠ lv + 1 then none
        else if pg.zs_level = 0 then some b else res) = res := by
      intro res
      rw [if_neg (by rw [hlev]; exact fun hc => hc rfl),
        if_neg (by rw [hlev]; exact Nat.succ_ne_zero lv)]
    rw [harith, zsbt_descend_loop]
    simp only [List.headD_cons, hget]
    have hgoal : zsbt_descend_loop blocks ⟨0, 1⟩ (lv + fuel + 1) child (some lv) =
        some ((b :: child :: rest).getLastD 0) := by
      rw [List.getLastD_cons, List.getLastD_cons]
      have := ih (some lv) (Or.inr rfl) fuel
      rw [List.getLastD_cons] at this
      exact this
    rcases hstart with rfl | rfl
    · simp only [Option.getD_none]
      rw [if_neg (fun hc => hc rfl), if_neg (by rw [hlev]; exact Nat.succ_ne_zero lv),
        if_neg (not_tidLe_of_lt hhk)]
      simp only [hct, hbin]
      rw [if_neg (by omega)]
      show zsbt_descend_loop blocks ⟨0, 1⟩ (lv + fuel + 1)
        ((items.getD (Int.toNat 0) default).childblk) (some (pg.zs_level - 1)) = _
      rw [hlev]
      have hchild : (items.getD (Int.toNat 0) default).childblk = child := by
        show (items.getD 0 default).childblk = child
        rw [getD_zero_eq_headD, hhead]
      rw [hchild]
      exact hgoal
    · simp only [Option.getD_some]
      rw [if_neg (by rw [hlev]; exact fun hc => hc rfl),
        if_neg (by rw [hlev]; exact Nat.succ_ne_zero lv),
        if_neg (not_tidLe_of_lt hhk)]
      simp only [hct, hbin]
      rw [if_neg (by omega)]
      show zsbt_descend_loop blocks ⟨0, 1⟩ (lv + fuel + 1)
        ((items.getD (Int.toNat 0) default).childblk) (some (lv + 1 - 1)) = _
      have hchild : (items.getD (Int.toNat 0) default).childblk = child := by
        show (items.getD 0 default).childblk = child
        rw [getD_zero_eq_headD, hhead]
      rw [hchild]
      exact hgoal

theorem headD_mem {α : Type} {l : List α} (h : l ≠ []) (d : α) :
    l.headD d ∈ l := by
  cases l with
  | nil => exact absurd rfl h
  | cons a t => exact List.mem_cons_self a t

theorem zsbt_find_none_eq {blocks : List ZSPage} {c childblk level : Nat}
    {key : ItemPointerData} {pg : ZSPage} (hget : blocks.get? c = some pg)
    (fuel : Nat) :
    zsbt_find_downlink_loop blocks key childblk level fuel c none =
      zsbt_find_downlink_loop blocks key childblk level fuel c
        (some pg.zs_level) := by
  cases fuel with
  | zero => rfl
  | succ f =>
    rw [zsbt_find_downlink_loop, zsbt_find_downlink_loop]
    simp only [hget, Option.getD_some, Option.getD_none]

theorem zsbt_find_step_node {blocks : List ZSPage} {b j childblk level : Nat}
    {key : ItemPointerData} {pg : ZSPage}
    {items : List ZSBtreeInternalPageItem}
    (hget : blocks.get? b = some pg) (hlev : pg.zs_level = j + 1)
    (hhk : pg.zs_hikey = MaxTidSentinel)
    (hct : pg.content = ZSPageContent.internalItems items)
    (hs : internalSorted items)
    (hlen : 2 ≤ items.length)
    {cb : Nat} {clo : ItemPointerData}
    (hlast : items.getLast? = some ⟨clo, cb⟩)
    (hkey : tidLt key MaxTidSentinel) (hle : tidLe clo key)
    (hj : level + 1 ≤ j) (fuel : Nat) :
    zsbt_find_downlink_loop blocks key childblk level (fuel + 1) b
        (some (j + 1)) =
      zsbt_find_downlink_loop blocks key childblk level fuel cb (some j) := by
  have hne : items ≠ [] := by
    intro hc
    rw [hc] at hlen
    simp at hlen
  have hbin : zsbt_binsrch_internal key items = (items.length : Int) - 1 :=
    zsbt_binsrch_internal_all_le hs hne (fun it hit =>
      tidLe_trans (internalSorted_le_getLast hs hlast it hit) hle)
  rw [zsbt_find_downlink_loop]
  simp only [hget, Option.getD_some, hlev, hct, hbin]
  rw [if_neg (fun hc => hc rfl), if_neg (by omega),
    if_neg (by rw [hhk]; exact not_tidLe_of_lt hkey), if_neg (by omega),
    if_neg (by omega)]
  have htn : ((items.length : Int) - 1).toNat = items.length - 1 := by omega
  rw [htn, getD_of_getLast? hlast]
  rfl

theorem zsbt_find_transfer {blocks : List ZSPage} {childblk level : Nat}
    {key : ItemPointerData} (hkey : tidLt key MaxTidSentinel) :
    ∀ {J b : Nat} {lo : ItemPointerData} {rest : List Nat},
    UpperOK blocks J b lo rest →
    ∀ {bpg : ZSPage}, blocks.get? b = some bpg → bpg.zs_level = J →
    tidLe lo key →
    level + 1 ≤ J →
    ∀ start, (start = none ∨ start = some (J + rest.length)) →
    ∀ fuel, zsbt_find_downlink_loop blocks key childblk level
        (fuel + rest.length) (rest.getLastD b) start =
      zsbt_find_downlink_loop blocks key childblk level fuel b (some J) := by
  intro J b lo rest h
  induction h with
  | nil j2 c2 =>
    intro bpg hget hlev hlo hj start hstart fuel
    rcases hstart with rfl | rfl
    · show zsbt_find_downlink_loop blocks key childblk level fuel c2 none = _
      rw [zsbt_find_none_eq hget fuel, hlev]
    · rfl
  | cons j2 cb clo lo2 b2 rest2 pg items hget hlev hhk hnx hct hs hall
      hlen hhead hlk hlast hrec ih =>
    intro bpg hcget hclev hlo hj start hstart fuel
    have harith : fuel + (b2 :: rest2).length = (fuel + 1) + rest2.length := by
      rw [List.length_cons]
      omega
    have hstart2 : start = none ∨ start = some ((j2 + 1) + rest2.length) := by
      rcases hstart with rfl | rfl
      · exact Or.inl rfl
      · refine Or.inr ?_
        rw [List.length_cons]
        congr 1
        omega
    have hlo2 : tidLe lo2 key := by
      refine tidLe_trans ?_ hlo
      have hh := internalSorted_le_getLast hs hlast _ (headD_mem (by
        intro hc
        rw [hc] at hlen
        simp at hlen) default)
      rw [hhead] at hh
      exact hh
    rw [List.getLastD_cons, harith,
      ih hget hlev hlo2 (by omega) start hstart2 (fuel + 1),
      zsbt_find_step_node hget hlev hhk hct hs hlen hlast hkey hlo hj fuel]

theorem internalItems_of_content {pg : ZSPage}
    {items : List ZSBtreeInternalPageItem}
    (h : pg.content = ZSPageContent.internalItems items) :
    pg.internalItems = items := by
  unfold ZSPage.internalItems
  rw [h]

theorem getD_mem_of_lt {α : Type} {l : List α} {k : Nat} (h : k < l.length)
    (d : α) : l.getD k d ∈ l := by
  rw [List.getD_eq_getElem?_getD, List.getElem?_eq_getElem h]
  exact List.getElem_mem h

theorem headD_drop {α : Type} {l : List α} {k : Nat} (h : k < l.length)
    (d : α) : (l.drop k).headD d = l.getD k d := by
  rw [List.drop_eq_getElem_cons h, List.headD_cons, List.getD_eq_getElem?_getD,
    List.getElem?_eq_getElem h]
  rfl

theorem getLastD_irrel {α : Type} {l : List α} (h : l ≠ []) (d d' : α) :
    l.getLastD d = l.getLastD d' := by
  rw [List.getLastD_eq_getLast?, List.getLastD_eq_getLast?]
  cases hl : l.getLast? with
  | none => exact absurd (List.getLast?_eq_none_iff.mp hl) h
  | some x => rfl

theorem getLastD_concat {α : Type} (l : List α) (x : α) (d : α) :
    (l ++ [x]).getLastD d = x := by
  rw [List.getLastD_eq_getLast?, List.getLast?_concat]
  rfl

theorem zsbt_find_downlink_parent {st : ZSTreeState} {j leftblk P : Nat}
    {leftlokey lo : ItemPointerData} {rest : List Nat} {lpg ppg : ZSPage}
    {items : List ZSBtreeInternalPageItem}
    (hup : UpperOK st.blocks j leftblk leftlokey (P :: rest))
    (hmeta : st.meta = some ((P :: rest).getLastD leftblk))
    (hl : st.blocks.get? leftblk = some lpg) (hllev : lpg.zs_level = j)
    (hPget : st.blocks.get? P = some ppg) (hPlev : ppg.zs_level = j + 1)
    (hPhk : ppg.zs_hikey = MaxTidSentinel)
    (hPct : ppg.content = ZSPageContent.internalItems items)
    (hs : internalSorted items)
    (hall : ∀ it ∈ items, it.tid.ip_posid = 1 ∧ tidLt it.tid rightmostkey)
    (hlen : 2 ≤ items.length)
    (hlast : items.getLast? = some ⟨leftlokey, leftblk⟩)
    (hPlok : ppg.zs_lokey = lo)
    (hPhead : (items.headD default).tid = lo)
    (hrec : UpperOK st.blocks (j + 1) P lo rest)
    (fuel : Nat) :
    zsbt_find_downlink ((fuel + 1) + rest.length) st leftlokey leftblk j =
      some (ZSFindDownlinkResult.found P (items.length - 1)) := by
  have hne : items ≠ [] := by
    intro hc
    rw [hc] at hlen
    simp at hlen
  have hkeymem : (⟨leftlokey, leftblk⟩ : ZSBtreeInternalPageItem) ∈ items :=
    List.mem_of_mem_getLast? hlast
  have hkeyrm : tidLt leftlokey rightmostkey := (hall _ hkeymem).2
  have hkeysent : tidLt leftlokey MaxTidSentinel :=
    tidLt_rightmost_sentinel hkeyrm
  have hbin : zsbt_binsrch_internal leftlokey items = (items.length : Int) - 1 :=
    zsbt_binsrch_internal_all_le hs hne (fun it hit =>
      internalSorted_le_getLast hs hlast it hit)
  have hroot_ne : (P :: rest).getLastD leftblk ≠ leftblk := by
    intro hc
    obtain ⟨tpg, htget, htlev⟩ := UpperOK_top_page hup (List.cons_ne_nil P rest)
    rw [hc, hl] at htget
    have hpe : lpg = tpg := by injection htget
    rw [← hpe, hllev] at htlev
    rw [List.length_cons] at htlev
    omega
  have hloop := @zsbt_find_transfer _ leftblk j _ hkeysent _ _ _ _
    hrec _ hPget hPlev (by
      have hh := internalSorted_le_getLast hs hlast _ (headD_mem hne default)
      rw [hPhead] at hh
      exact hh) (by omega) none (Or.inl rfl) (fuel + 1)
  unfold zsbt_find_downlink
  rw [hmeta]
  simp only []
  rw [if_neg hroot_ne]
  rw [List.getLastD_cons]
  rw [hloop, zsbt_find_downlink_loop]
  simp only [hPget, Option.getD_some, hPlev, hPct, hbin]
  rw [if_neg (fun hc => hc rfl), if_neg (by omega),
    if_neg (by rw [hPhk]; exact not_tidLe_of_lt hkeysent), if_neg (by omega),
    if_pos trivial]
  have htn : ((items.length : Int) - 1).toNat = items.length - 1 := by omega
  rw [htn, getD_of_getLast? hlast]
  rw [if_neg (fun hc => hc rfl)]

theorem zsbt_insert_downlink_eval_noparent {st : ZSTreeState} {f leftblk : Nat}
    {rightlokey : ItemPointerData} {rightblkno : Nat} {lpg : ZSPage}
    (hl : st.blocks.get? leftblk = some lpg)
    (hfind : zsbt_find_downlink f st lpg.zs_lokey leftblk lpg.zs_level =
      some ZSFindDownlinkResult.noParent) :
    zsbt_insert_downlink (f + 1) st leftblk rightlokey rightblkno =
      some { meta := some st.blocks.length
           , blocks := (st.blocks.set leftblk
                { lpg with zs_flags := lpg.zs_flags &&& ZS_FOLLOW_RIGHT }) ++
              [{ zs_next := none
               , zs_lokey := ⟨0, 1⟩
               , zs_hikey := MaxTidSentinel
               , zs_level := lpg.zs_level + 1
               , zs_flags := 0
               , content := ZSPageContent.internalItems
                   [⟨lpg.zs_lokey, leftblk⟩, ⟨rightlokey, rightblkno⟩] }] } := by
  rw [zsbt_insert_downlink]
  simp only [hl]
  rw [hfind]
  rfl

theorem zsbt_insert_downlink_eval_found {st : ZSTreeState} {f leftblk P : Nat}
    {rightlokey : ItemPointerData} {rightblkno : Nat} {lpg ppg : ZSPage}
    {items : List ZSBtreeInternalPageItem}
    (hl : st.blocks.get? leftblk = some lpg)
    (hfind : zsbt_find_downlink f st lpg.zs_lokey leftblk lpg.zs_level =
      some (ZSFindDownlinkResult.found P (items.length - 1)))
    (hPget : st.blocks.get? P = some ppg)
    (hitems : ppg.internalItems = items)
    (hs : internalSorted items) (hlen : 2 ≤ items.length)
    (hall_le : ∀ it ∈ items, tidLe it.tid rightlokey)
    (hlastd : items.getD (items.length - 1) default = ⟨lpg.zs_lokey, leftblk⟩) :
    zsbt_insert_downlink (f + 1) st leftblk rightlokey rightblkno =
      (if ZSBtreeInternalPageIsFull items then
        zsbt_insert_downlink f
          { st with blocks :=
              ((st.blocks.set P (zsbt_split_internal ppg lpg items.length
                  rightlokey rightblkno st.blocks.length).1).set leftblk
                (zsbt_split_internal ppg lpg items.length rightlokey rightblkno
                  st.blocks.length).2.2.1) ++
              [(zsbt_split_internal ppg lpg items.length rightlokey rightblkno
                  st.blocks.length).2.1] }
          P (zsbt_split_internal ppg lpg items.length rightlokey rightblkno
              st.blocks.length).2.2.2 st.blocks.length
      else
        some { st with blocks := (st.blocks.set P { ppg with content := ZSPageContent.internalItems (items ++ [⟨rightlokey, rightblkno⟩]) }).set leftblk { lpg with zs_flags := lpg.zs_flags &&& 0xFFFE } }) := by
  have hne : items ≠ [] := by
    intro hc
    rw [hc] at hlen
    simp at hlen
  have hbin : zsbt_binsrch_internal rightlokey items = (items.length : Int) - 1 :=
    zsbt_binsrch_internal_all_le hs hne hall_le
  have htn : ((items.length : Int) - 1).toNat = items.length - 1 := by omega
  have hk : items.length - 1 + 1 = items.length := by omega
  rw [zsbt_insert_downlink]
  simp only [hl]
  rw [hfind]
  simp only [hPget, hitems, hbin]
  rw [if_neg (by omega), htn, hlastd]
  rw [if_neg (fun hc => hc ⟨rfl, rfl⟩)]
  rw [hk, List.take_length, List.drop_length]

theorem zsbt_split_internal_rightmost_call (ppg lpg : ZSPage)
    (items : List ZSBtreeInternalPageItem) (rightlokey : ItemPointerData)
    (rbno rb2 : Nat)
    (hct : ppg.content = ZSPageContent.internalItems items)
    (hs : internalSorted items) (hlen : 2 ≤ items.length)
    (hlast_lt : tidLt ((items.getD (items.length - 1) default).tid) rightlokey) :
    zsbt_split_internal ppg lpg items.length rightlokey rbno rb2 =
      ({ ppg with
          zs_next := some rb2
        , zs_hikey := (items.getD (items.length * 9 / 10) default).tid
        , zs_flags := ppg.zs_flags ||| ZS_FOLLOW_RIGHT
        , content := ZSPageContent.internalItems
            (items.take (items.length * 9 / 10)) },
       { zs_next := ppg.zs_next
       , zs_lokey := (items.getD (items.length * 9 / 10) default).tid
       , zs_hikey := ppg.zs_hikey
       , zs_level := ppg.zs_level
       , zs_flags := 0
       , content := ZSPageContent.internalItems
           (items.drop (items.length * 9 / 10) ++ [⟨rightlokey, rbno⟩]) },
       { lpg with zs_flags := lpg.zs_flags &&& 0xFFFE },
       (items.getD (items.length * 9 / 10) default).tid) := by
  have hspn : items.length * 9 / 10 < items.length := by omega
  have hsp1 : 1 ≤ items.length * 9 / 10 := by omega
  have hdistr := zsbt_split_internal_distribute_spec items
    (items.length * 9 / 10) items.length rightlokey rbno hs hspn (by omega)
    (le_refl items.length) hlast_lt (fun hc => absurd hc (by omega))
  obtain ⟨h1, h2, h3, _⟩ := hdistr
  rw [List.take_length, List.drop_length] at h1
  rw [if_neg (by omega)] at h2 h3
  rw [Nat.add_zero] at h2
  have hfst : (zsbt_split_internal_loop (items.length * 9 / 10) items.length
      (decide (tidLt rightlokey
        ((items.getD (items.length * 9 / 10) default).tid)))
      ⟨rightlokey, rbno⟩ 0 items).1 =
      items.take (items.length * 9 / 10) := by
    have ht := List.take_left
      (zsbt_split_internal_loop (items.length * 9 / 10) items.length
        (decide (tidLt rightlokey
          ((items.getD (items.length * 9 / 10) default).tid)))
        ⟨rightlokey, rbno⟩ 0 items).1
      (zsbt_split_internal_loop (items.length * 9 / 10) items.length
        (decide (tidLt rightlokey
          ((items.getD (items.length * 9 / 10) default).tid)))
        ⟨rightlokey, rbno⟩ 0 items).2
    rw [h1, h2] at ht
    rw [← ht, List.take_append_of_le_length (by omega)]
  have hsnd : (zsbt_split_internal_loop (items.length * 9 / 10) items.length
      (decide (tidLt rightlokey
        ((items.getD (items.length * 9 / 10) default).tid)))
      ⟨rightlokey, rbno⟩ 0 items).2 =
      items.drop (items.length * 9 / 10) ++ [⟨rightlokey, rbno⟩] := by
    have ht := List.drop_left
      (zsbt_split_internal_loop (items.length * 9 / 10) items.length
        (decide (tidLt rightlokey
          ((items.getD (items.length * 9 / 10) default).tid)))
        ⟨rightlokey, rbno⟩ 0 items).1
      (zsbt_split_internal_loop (items.length * 9 / 10) items.length
        (decide (tidLt rightlokey
          ((items.getD (items.length * 9 / 10) default).tid)))
        ⟨rightlokey, rbno⟩ 0 items).2
    rw [h1, h2] at ht
    rw [← ht, List.drop_append_of_le_length (by omega)]
  have hpr : zsbt_split_internal_loop (items.length * 9 / 10) items.length
      (decide (tidLt rightlokey
        ((items.getD (items.length * 9 / 10) default).tid)))
      ⟨rightlokey, rbno⟩ 0 items =
      (items.take (items.length * 9 / 10),
       items.drop (items.length * 9 / 10) ++ [⟨rightlokey, rbno⟩]) :=
    Prod.ext hfst hsnd
  unfold zsbt_split_internal
  simp only [internalItems_of_content hct]
  rw [hpr]

theorem zsbt_insert_downlink_spec :
    ∀ (upper : List Nat) (fuel : Nat) (st : ZSTreeState) (j leftblk : Nat)
      (leftlokey rightlokey : ItemPointerData) (rightblkno : Nat)
      (lpg : ZSPage) (ls : List Nat),
    UpperOK st.blocks j leftblk leftlokey upper →
    st.meta = some (upper.getLastD leftblk) →
    st.blocks.get? leftblk = some lpg →
    lpg.zs_level = j →
    lpg.zs_lokey = leftlokey →
    rightlokey.ip_posid = 1 →
    tidLt rightlokey rightmostkey →
    tidLt leftlokey rightlokey →
    LSpineOK st.blocks (j + upper.length) ls →
    ls.headD 0 = upper.getLastD leftblk →
    upper.length + 2 ≤ fuel →
    ∃ st' newUpper ls',
      zsbt_insert_downlink fuel st leftblk rightlokey rightblkno = some st' ∧
      UpperOK st'.blocks j rightblkno rightlokey newUpper ∧
      st'.meta = some (newUpper.getLastD rightblkno) ∧
      LSpineOK st'.blocks (j + newUpper.length) ls' ∧
      ls'.headD 0 = newUpper.getLastD rightblkno ∧
      ls'.getLastD 0 = ls.getLastD 0 ∧
      LeafFrame j st.blocks st'.blocks ∧
      st.blocks.length ≤ st'.blocks.length ∧
      newUpper.length + st.blocks.length ≤ upper.length + st'.blocks.length := by
  intro upper
  induction upper with
  | nil =>
    intro fuel st j leftblk leftlokey rightlokey rightblkno lpg ls hup hmeta hl
      hllev hlok hpos hrlt hlt hls hlshead hfuel
    obtain ⟨f, rfl⟩ : ∃ f, fuel = f + 1 := ⟨fuel - 1, by omega⟩
    cases hup with
    | nil =>
      have hllt : leftblk < st.blocks.length := get?_lt_length hl
      have hfind : zsbt_find_downlink f st lpg.zs_lokey leftblk lpg.zs_level =
          some ZSFindDownlinkResult.noParent := by
        unfold zsbt_find_downlink
        rw [hmeta]
        simp only []
        rw [if_pos (show ([] : List Nat).getLastD leftblk = leftblk from rfl)]
      have heval := @zsbt_insert_downlink_eval_noparent _ _ _
        rightlokey rightblkno _ hl hfind
      have hcons : ∃ tail, ls = leftblk :: tail := by
        cases hls with
        | leaf b pg h1 h2 h3 =>
          have hb : b = leftblk := hlshead
          exact ⟨[], by rw [hb]⟩
        | node b child rest2 l pg items h1 h2 h3 h4 h5 h6 h7 h8 h9 =>
          have hb : b = leftblk := hlshead
          exact ⟨child :: rest2, by rw [hb]⟩
      obtain ⟨tail, rfl⟩ := hcons
      refine ⟨_, [st.blocks.length], st.blocks.length :: leftblk :: tail, heval,
        ?_, ?_, ?_, ?_, ?_, ?_, ?_, ?_⟩
      · refine UpperOK.cons j rightblkno rightlokey ⟨0, 1⟩ st.blocks.length []
          { zs_next := none, zs_lokey := ⟨0, 1⟩, zs_hikey := MaxTidSentinel
          , zs_level := lpg.zs_level + 1, zs_flags := 0
          , content := ZSPageContent.internalItems
              [⟨lpg.zs_lokey, leftblk⟩, ⟨rightlokey, rightblkno⟩] }
          [⟨lpg.zs_lokey, leftblk⟩, ⟨rightlokey, rightblkno⟩]
          ?_ (by rw [hllev]) rfl rfl rfl ?_ ?_ (by simp)
          (show lpg.zs_lokey = ⟨0, 1⟩ from hlok) rfl ?_
          (UpperOK.nil (j + 1) st.blocks.length)
        · show ((st.blocks.set leftblk _) ++ [_]).get? st.blocks.length = _
          have hlen2 : (st.blocks.set leftblk
              { lpg with zs_flags := lpg.zs_flags &&& ZS_FOLLOW_RIGHT }).length =
              st.blocks.length := List.length_set st.blocks leftblk _
          rw [← hlen2, get?_concat]
        · exact List.pairwise_cons.mpr ⟨fun y hy => by
            rcases List.mem_singleton.mp hy with rfl
            show tidLt lpg.zs_lokey rightlokey
            rw [hlok]
            exact hlt, List.pairwise_singleton _ _⟩
        · intro it hit
          rcases List.mem_cons.mp hit with rfl | hit2
          · refine ⟨?_, ?_⟩
            · show lpg.zs_lokey.ip_posid = 1
              rw [hlok]
            · show tidLt lpg.zs_lokey rightmostkey
              rw [hlok]
              decide
          · rcases List.mem_singleton.mp hit2 with rfl
            exact ⟨hpos, hrlt⟩
        · rw [List.getLast?_cons_cons]
          simp
      · show some st.blocks.length = _
        rw [List.getLastD_cons]
        rfl
      · show LSpineOK _ (j + 1) _
        refine LSpineOK.node st.blocks.length leftblk tail j
          { zs_next := none, zs_lokey := ⟨0, 1⟩, zs_hikey := MaxTidSentinel
          , zs_level := lpg.zs_level + 1, zs_flags := 0
          , content := ZSPageContent.internalItems
              [⟨lpg.zs_lokey, leftblk⟩, ⟨rightlokey, rightblkno⟩] }
          [⟨lpg.zs_lokey, leftblk⟩, ⟨rightlokey, rightblkno⟩]
          ?_ (by rw [hllev]) rfl
          (by show tidLt (⟨0, 1⟩ : ItemPointerData) MaxTidSentinel; decide) rfl ?_
          (by simp only [List.headD_cons, hlok]) (by simp) ?_
        · show ((st.blocks.set leftblk _) ++ [_]).get? st.blocks.length = _
          have hlen2 : (st.blocks.set leftblk
              { lpg with zs_flags := lpg.zs_flags &&& ZS_FOLLOW_RIGHT }).length =
              st.blocks.length := List.length_set st.blocks leftblk _
          rw [← hlen2, get?_concat]
        · exact List.pairwise_cons.mpr ⟨fun y hy => by
            rcases List.mem_singleton.mp hy with rfl
            show tidLt lpg.zs_lokey rightlokey
            rw [hlok]
            exact hlt, List.pairwise_singleton _ _⟩
        · refine LSpineOK_append (LSpineOK_set hls leftblk _ ?_)
          intro pgold hpgold
          rw [hl] at hpgold
          have hpe : lpg = pgold := by injection hpgold
          rw [← hpe]
          exact Or.inl ⟨rfl, rfl, rfl, rfl, rfl⟩
      · rw [List.headD_cons, List.getLastD_cons]
        rfl
      · rw [List.getLastD_cons, List.getLastD_cons, List.getLastD_cons]
      · intro b pg hb hlev2
        by_cases hbe : b = leftblk
        · subst hbe
          rw [hl] at hb
          have hpe : lpg = pg := by injection hb
          refine ⟨{ lpg with zs_flags := lpg.zs_flags &&& ZS_FOLLOW_RIGHT }, ?_, ?_⟩
          · rw [get?_append_l (by rw [List.length_set]; exact hllt),
              get?_set_self _ hllt]
          · rw [← hpe]
            exact ⟨rfl, rfl, rfl, rfl, rfl⟩
        · refine ⟨pg, ?_, PageShapeEq_refl pg⟩
          have hblt : b < st.blocks.length := get?_lt_length hb
          rw [get?_append_l (by rw [List.length_set]; exact hblt),
            get?_set_other _ (fun hc => hbe hc.symm)]
          exact hb
      · show st.blocks.length ≤ _
        rw [List.length_append, List.length_set]
        simp
      · show 1 + st.blocks.length ≤ 0 + _
        rw [List.length_append, List.length_set]
        simp only [List.length_cons, List.length_nil]
        omega
  | cons P rest ih =>
    intro fuel st j leftblk leftlokey rightlokey rightblkno lpg ls hup hmeta hl
      hllev hlok hpos hrlt hlt hls hlshead hfuel
    obtain ⟨f, rfl⟩ : ∃ f, fuel = f + 1 := ⟨fuel - 1, by omega⟩
    rw [List.length_cons] at hfuel
    cases hup with
    | cons _ _ _ lo _ _ ppg items hPget hPlev hPhk hPnx hPct hs hall hlen
        hPhead hPlok hPlast hrec =>
      have hne : items ≠ [] := by
        intro hc
        rw [hc] at hlen
        simp at hlen
      have hllt : leftblk < st.blocks.length := get?_lt_length hl
      have hPlt : P < st.blocks.length := get?_lt_length hPget
      have hPneq : P ≠ leftblk := by
        intro hc
        rw [hc, hl] at hPget
        have hpe : lpg = ppg := by injection hPget
        rw [← hpe, hllev] at hPlev
        omega
      have hall_le : ∀ it ∈ items, tidLe it.tid rightlokey := fun it hit =>
        tidLe_trans (internalSorted_le_getLast hs hPlast it hit)
          (tidLe_of_lt hlt)
      have hlastd : items.getD (items.length - 1) default =
          ⟨lpg.zs_lokey, leftblk⟩ := by
        rw [getD_of_getLast? hPlast, hlok]
      obtain ⟨f2, rfl⟩ : ∃ f2, f = (f2 + 1) + rest.length :=
        ⟨f - 1 - rest.length, by omega⟩
      have hup2 : UpperOK st.blocks j leftblk leftlokey (P :: rest) :=
        UpperOK.cons j leftblk leftlokey lo P rest ppg items hPget hPlev hPhk
          hPnx hPct hs hall hlen hPhead hPlok hPlast hrec
      have hfind := zsbt_find_downlink_parent hup2 hmeta hl hllev hPget hPlev
        hPhk hPct hs hall hlen hPlast hPlok hPhead hrec f2
      have hfind2 : zsbt_find_downlink (f2 + 1 + rest.length) st lpg.zs_lokey
          leftblk lpg.zs_level =
          some (ZSFindDownlinkResult.found P (items.length - 1)) := by
        rw [hlok, hllev]
        exact hfind
      have heval := @zsbt_insert_downlink_eval_found _ _ _ _ _ rightblkno _ _ _
        hl hfind2 hPget (internalItems_of_content hPct) hs hlen hall_le hlastd
      cases hfull : ZSBtreeInternalPageIsFull items with
      | false =>
        rw [if_neg (by rw [hfull]; exact Bool.false_ne_true)] at heval
        have hsorted2 : internalSorted
            (items ++ [⟨rightlokey, rightblkno⟩]) :=
          internalSorted_append_singleton hs (fun it hit =>
            tidLe_trans_lt (internalSorted_le_getLast hs hPlast it hit) hlt)
        have hPget2 : ((st.blocks.set P { ppg with
              content := ZSPageContent.internalItems
                (items ++ [⟨rightlokey, rightblkno⟩]) }).set leftblk
            { lpg with zs_flags := lpg.zs_flags &&& 0xFFFE }).get? P =
            some { ppg with
              content := ZSPageContent.internalItems
                (items ++ [⟨rightlokey, rightblkno⟩]) } := by
          rw [get?_set_other _ (fun hc => hPneq hc.symm), get?_set_self _ hPlt]
        refine ⟨_, P :: rest, ls, heval, ?_, ?_, ?_, ?_, ?_, ?_, ?_, ?_⟩
        · refine UpperOK.cons j rightblkno rightlokey lo P rest _ _ hPget2
            hPlev hPhk hPnx rfl hsorted2 ?_ ?_ ?_ hPlok
            (List.getLast?_concat items) ?_
          · intro it hit
            rcases List.mem_append.mp hit with hit2 | hit2
            · exact hall it hit2
            · rcases List.mem_singleton.mp hit2 with rfl
              exact ⟨hpos, hrlt⟩
          · rw [List.length_append, List.length_cons, List.length_nil]
            omega
          · rw [headD_append hne]
            exact hPhead
          · refine UpperOK_set_low (UpperOK_set_low hrec hPget (by omega)) ?_
              (by rw [hllev]; omega)
            rw [get?_set_other _ hPneq]
            exact hl
        · show st.meta = _
          rw [hmeta, List.getLastD_cons, List.getLastD_cons]
        · refine LSpineOK_set (LSpineOK_set hls P _ ?_) leftblk _ ?_
          · intro pgold hpgold
            rw [hPget] at hpgold
            have hpe : ppg = pgold := by injection hpgold
            rw [← hpe]
            exact Or.inr (Or.inr (Or.inl ⟨items, ⟨rightlokey, rightblkno⟩,
              hPct, hne, hsorted2, rfl, rfl, rfl, rfl⟩))
          · intro pgold hpgold
            rw [get?_set_other _ hPneq, hl] at hpgold
            have hpe : lpg = pgold := by injection hpgold
            rw [← hpe]
            exact Or.inl ⟨rfl, rfl, rfl, rfl, rfl⟩
        · rw [hlshead, List.getLastD_cons, List.getLastD_cons]
        · rfl
        · intro b pg hb hle
          by_cases hbP : b = P
          · subst hbP
            rw [hPget] at hb
            have hpe : ppg = pg := by injection hb
            rw [← hpe, hPlev] at hle
            omega
          · by_cases hbL : b = leftblk
            · subst hbL
              rw [hl] at hb
              have hpe : lpg = pg := by injection hb
              refine ⟨{ lpg with zs_flags := lpg.zs_flags &&& 0xFFFE }, ?_, ?_⟩
              · rw [get?_set_self _ (by rw [List.length_set]; exact hllt)]
              · rw [← hpe]
                exact ⟨rfl, rfl, rfl, rfl, rfl⟩
            · refine ⟨pg, ?_, PageShapeEq_refl pg⟩
              rw [get?_set_other _ (fun hc => hbL hc.symm),
                get?_set_other _ (fun hc => hbP hc.symm)]
              exact hb
        · show st.blocks.length ≤ _
          rw [List.length_set, List.length_set]
        · show (P :: rest).length + st.blocks.length ≤ _
          rw [List.length_set, List.length_set]
      | true =>
        rw [if_pos hfull] at heval
        have hlast_lt : tidLt ((items.getD (items.length - 1) default).tid)
            rightlokey := by
          rw [getD_of_getLast? hPlast]
          exact hlt
        have hsplit := zsbt_split_internal_rightmost_call ppg lpg items
          rightlokey rightblkno st.blocks.length hPct hs hlen hlast_lt
        rw [hsplit] at heval
        have hsp1 : 1 ≤ items.length * 9 / 10 := by omega
        have hspn : items.length * 9 / 10 < items.length := by omega
        have hstid_pos : ((items.getD (items.length * 9 / 10) default).tid).ip_posid = 1 :=
          (hall _ (getD_mem_of_lt hspn default)).1
        have hstid_rm : tidLt ((items.getD (items.length * 9 / 10) default).tid)
            rightmostkey :=
          (hall _ (getD_mem_of_lt hspn default)).2
        have hlo_stid : tidLt lo ((items.getD (items.length * 9 / 10) default).tid) := by
          have hh := internalSorted_head_lt_getD hs hsp1 hspn
          rw [hPhead] at hh
          exact hh
        have hdnn : items.drop (items.length * 9 / 10) ≠ [] := by
          intro hc
          have h0 := congrArg List.length hc
          rw [List.length_drop, List.length_nil] at h0
          omega
        have hup3 : UpperOK (((st.blocks.set P { ppg with zs_next := some st.blocks.length, zs_hikey := (items.getD (items.length * 9 / 10) default).tid, zs_flags := ppg.zs_flags ||| ZS_FOLLOW_RIGHT, content := ZSPageContent.internalItems (items.take (items.length * 9 / 10)) }).set leftblk
            { lpg with zs_flags := lpg.zs_flags &&& 0xFFFE }) ++ [({ zs_next := ppg.zs_next, zs_lokey := (items.getD (items.length * 9 / 10) default).tid, zs_hikey := ppg.zs_hikey, zs_level := ppg.zs_level, zs_flags := 0, content := ZSPageContent.internalItems (items.drop (items.length * 9 / 10) ++ [⟨rightlokey, rightblkno⟩]) } : ZSPage)]) (j + 1) P lo rest := by
          refine UpperOK_append
            (UpperOK_set_low (UpperOK_set_low hrec hPget (by omega)) ?_
              (by rw [hllev]; omega))
          rw [get?_set_other _ hPneq]
          exact hl
        have hmeta2 : st.meta = some (rest.getLastD P) := by
          rw [hmeta, List.getLastD_cons]
        have hP2 : (((st.blocks.set P { ppg with zs_next := some st.blocks.length, zs_hikey := (items.getD (items.length * 9 / 10) default).tid, zs_flags := ppg.zs_flags ||| ZS_FOLLOW_RIGHT, content := ZSPageContent.internalItems (items.take (items.length * 9 / 10)) }).set leftblk
            { lpg with zs_flags := lpg.zs_flags &&& 0xFFFE }) ++ [({ zs_next := ppg.zs_next, zs_lokey := (items.getD (items.length * 9 / 10) default).tid, zs_hikey := ppg.zs_hikey, zs_level := ppg.zs_level, zs_flags := 0, content := ZSPageContent.internalItems (items.drop (items.length * 9 / 10) ++ [⟨rightlokey, rightblkno⟩]) } : ZSPage)]).get? P = some { ppg with zs_next := some st.blocks.length, zs_hikey := (items.getD (items.length * 9 / 10) default).tid, zs_flags := ppg.zs_flags ||| ZS_FOLLOW_RIGHT, content := ZSPageContent.internalItems (items.take (items.length * 9 / 10)) } := by
          rw [get?_append_l (by rw [List.length_set, List.length_set]; exact hPlt),
            get?_set_other _ (fun hc => hPneq hc.symm), get?_set_self _ hPlt]
        have hls3 : LSpineOK (((st.blocks.set P { ppg with zs_next := some st.blocks.length, zs_hikey := (items.getD (items.length * 9 / 10) default).tid, zs_flags := ppg.zs_flags ||| ZS_FOLLOW_RIGHT, content := ZSPageContent.internalItems (items.take (items.length * 9 / 10)) }).set leftblk
            { lpg with zs_flags := lpg.zs_flags &&& 0xFFFE }) ++ [({ zs_next := ppg.zs_next, zs_lokey := (items.getD (items.length * 9 / 10) default).tid, zs_hikey := ppg.zs_hikey, zs_level := ppg.zs_level, zs_flags := 0, content := ZSPageContent.internalItems (items.drop (items.length * 9 / 10) ++ [⟨rightlokey, rightblkno⟩]) } : ZSPage)]) ((j + 1) + rest.length) ls := by
          rw [show (j + 1) + rest.length = j + (P :: rest).length from by
            rw [List.length_cons]; omega]
          refine LSpineOK_append (LSpineOK_set (LSpineOK_set hls P _ ?_)
            leftblk _ ?_)
          · intro pgold hpgold
            rw [hPget] at hpgold
            have hpe : ppg = pgold := by injection hpgold
            rw [← hpe]
            exact Or.inr (Or.inr (Or.inr ⟨items, items.length * 9 / 10, hPct,
              hsp1, hspn, hs, rfl, rfl, rfl, rfl⟩))
          · intro pgold hpgold
            rw [get?_set_other _ hPneq, hl] at hpgold
            have hpe : lpg = pgold := by injection hpgold
            rw [← hpe]
            exact Or.inl ⟨rfl, rfl, rfl, rfl, rfl⟩
        have hlshead2 : ls.headD 0 = rest.getLastD P := by
          rw [hlshead, List.getLastD_cons]
        obtain ⟨st3, nu', ls'', heq3, hup4, hmeta3, hls4, hhead3, hlast3,
          hframe3, hmono3, hcount3⟩ :=
          ih (f2 + 1 + rest.length)
            { st with blocks := ((st.blocks.set P { ppg with zs_next := some st.blocks.length, zs_hikey := (items.getD (items.length * 9 / 10) default).tid, zs_flags := ppg.zs_flags ||| ZS_FOLLOW_RIGHT, content := ZSPageContent.internalItems (items.take (items.length * 9 / 10)) }).set leftblk
                { lpg with zs_flags := lpg.zs_flags &&& 0xFFFE }) ++ [({ zs_next := ppg.zs_next, zs_lokey := (items.getD (items.length * 9 / 10) default).tid, zs_hikey := ppg.zs_hikey, zs_level := ppg.zs_level, zs_flags := 0, content := ZSPageContent.internalItems (items.drop (items.length * 9 / 10) ++ [⟨rightlokey, rightblkno⟩]) } : ZSPage)] }
            (j + 1) P lo ((items.getD (items.length * 9 / 10) default).tid)
            st.blocks.length { ppg with zs_next := some st.blocks.length, zs_hikey := (items.getD (items.length * 9 / 10) default).tid, zs_flags := ppg.zs_flags ||| ZS_FOLLOW_RIGHT, content := ZSPageContent.internalItems (items.take (items.length * 9 / 10)) } ls
            hup3 hmeta2 hP2 hPlev hPlok hstid_pos hstid_rm hlo_stid hls3
            hlshead2 (by omega)
        have hrb2get : (((st.blocks.set P { ppg with zs_next := some st.blocks.length, zs_hikey := (items.getD (items.length * 9 / 10) default).tid, zs_flags := ppg.zs_flags ||| ZS_FOLLOW_RIGHT, content := ZSPageContent.internalItems (items.take (items.length * 9 / 10)) }).set leftblk
            { lpg with zs_flags := lpg.zs_flags &&& 0xFFFE }) ++ [({ zs_next := ppg.zs_next, zs_lokey := (items.getD (items.length * 9 / 10) default).tid, zs_hikey := ppg.zs_hikey, zs_level := ppg.zs_level, zs_flags := 0, content := ZSPageContent.internalItems (items.drop (items.length * 9 / 10) ++ [⟨rightlokey, rightblkno⟩]) } : ZSPage)]).get? st.blocks.length =
            some ({ zs_next := ppg.zs_next, zs_lokey := (items.getD (items.length * 9 / 10) default).tid, zs_hikey := ppg.zs_hikey, zs_level := ppg.zs_level, zs_flags := 0, content := ZSPageContent.internalItems (items.drop (items.length * 9 / 10) ++ [⟨rightlokey, rightblkno⟩]) } : ZSPage) := by
          have hh := get?_concat ((st.blocks.set P { ppg with zs_next := some st.blocks.length, zs_hikey := (items.getD (items.length * 9 / 10) default).tid, zs_flags := ppg.zs_flags ||| ZS_FOLLOW_RIGHT, content := ZSPageContent.internalItems (items.take (items.length * 9 / 10)) }).set leftblk
            { lpg with zs_flags := lpg.zs_flags &&& 0xFFFE }) ({ zs_next := ppg.zs_next, zs_lokey := (items.getD (items.length * 9 / 10) default).tid, zs_hikey := ppg.zs_hikey, zs_level := ppg.zs_level, zs_flags := 0, content := ZSPageContent.internalItems (items.drop (items.length * 9 / 10) ++ [⟨rightlokey, rightblkno⟩]) } : ZSPage)
          rw [List.length_set, List.length_set] at hh
          exact hh
        have hblk2len : (((st.blocks.set P { ppg with zs_next := some st.blocks.length, zs_hikey := (items.getD (items.length * 9 / 10) default).tid, zs_flags := ppg.zs_flags ||| ZS_FOLLOW_RIGHT, content := ZSPageContent.internalItems (items.take (items.length * 9 / 10)) }).set leftblk
            { lpg with zs_flags := lpg.zs_flags &&& 0xFFFE }) ++ [({ zs_next := ppg.zs_next, zs_lokey := (items.getD (items.length * 9 / 10) default).tid, zs_hikey := ppg.zs_hikey, zs_level := ppg.zs_level, zs_flags := 0, content := ZSPageContent.internalItems (items.drop (items.length * 9 / 10) ++ [⟨rightlokey, rightblkno⟩]) } : ZSPage)]).length = st.blocks.length + 1 := by
          rw [List.length_append, List.length_set, List.length_set,
            List.length_cons, List.length_nil]
        refine ⟨st3, st.blocks.length :: nu', ls'', ?_, ?_, ?_, ?_, ?_, ?_,
          ?_, ?_, ?_⟩
        · rw [heval]
          exact heq3
        · obtain ⟨pg', hget', hsh⟩ := hframe3 st.blocks.length _ hrb2get (by
            show ppg.zs_level ≤ j + 1
            omega)
          refine UpperOK.cons j rightblkno rightlokey
            ((items.getD (items.length * 9 / 10) default).tid)
            st.blocks.length nu' pg'
            (items.drop (items.length * 9 / 10) ++ [⟨rightlokey, rightblkno⟩])
            hget' ?_ ?_ ?_ ?_ ?_ ?_ ?_ ?_ ?_ ?_ hup4
          · rw [hsh.1]
            exact hPlev
          · rw [hsh.2.2.1]
            exact hPhk
          · rw [hsh.2.2.2.1]
            exact hPnx
          · rw [hsh.2.2.2.2]
          · refine internalSorted_append_singleton (internalSorted_drop _ hs) ?_
            intro it hit
            exact tidLe_trans_lt (internalSorted_le_getLast hs hPlast it
              ((List.drop_sublist _ items).subset hit)) hlt
          · intro it hit
            rcases List.mem_append.mp hit with hit2 | hit2
            · exact hall it ((List.drop_sublist _ items).subset hit2)
            · rcases List.mem_singleton.mp hit2 with rfl
              exact ⟨hpos, hrlt⟩
          · rw [List.length_append, List.length_drop, List.length_cons,
              List.length_nil]
            omega
          · rw [headD_append hdnn, headD_drop hspn]
          · rw [hsh.2.1]
          · exact List.getLast?_concat _
        · show st3.meta = _
          rw [hmeta3, List.getLastD_cons]
        · rw [List.length_cons,
            show j + (nu'.length + 1) = (j + 1) + nu'.length from by omega]
          exact hls4
        · rw [List.getLastD_cons]
          exact hhead3
        · exact hlast3
        · refine LeafFrame_comp ?_ hframe3 (by omega)
          intro b pg hb hle
          by_cases hbP : b = P
          · subst hbP
            rw [hPget] at hb
            have hpe : ppg = pg := by injection hb
            rw [← hpe, hPlev] at hle
            omega
          · by_cases hbL : b = leftblk
            · subst hbL
              rw [hl] at hb
              have hpe : lpg = pg := by injection hb
              refine ⟨{ lpg with zs_flags := lpg.zs_flags &&& 0xFFFE }, ?_, ?_⟩
              · rw [get?_append_l (show b < _ by rw [List.length_set, List.length_set]; exact hllt), get?_set_self _ (show b < _ by rw [List.length_set]; exact hllt)]
              · rw [← hpe]
                exact ⟨rfl, rfl, rfl, rfl, rfl⟩
            · refine ⟨pg, ?_, PageShapeEq_refl pg⟩
              have hblt : b < st.blocks.length := get?_lt_length hb
              rw [get?_append_l (show b < _ by rw [List.length_set, List.length_set]; exact hblt), get?_set_other _ (fun hc => hbL hc.symm), get?_set_other _ (fun hc => hbP hc.symm)]
              exact hb
        · have hm2 : st.blocks.length + 1 ≤ st3.blocks.length := by
            rw [← hblk2len]
            exact hmono3
          omega
        · have hc2 : nu'.length + (st.blocks.length + 1) ≤
              rest.length + st3.blocks.length := by
            rw [← hblk2len]
            exact hcount3
          rw [List.length_cons, List.length_cons]
          omega

theorem decodeItem_uncompressed {it : ZSBtreeItem}
    (h : it.compressedFlag = false) :
    decodeItem it = [(it.t_tid, it.datumOf)] := by
  unfold ZSBtreeItem.compressedFlag at h
  unfold decodeItem ZSBtreeItem.datumOf
  cases hb : it.body with
  | uncompressed d => rfl
  | compressed blob => rw [hb] at h; simp at h

theorem decodeItems_all_uncompressed {acc : List ZSBtreeItem}
    (h : ∀ it ∈ acc, it.compressedFlag = false) :
    decodeItems acc = acc.map (fun it => (it.t_tid, it.datumOf)) := by
  induction acc with
  | nil => rfl
  | cons a t ih =>
    show decodeItem a ++ decodeItems t = _
    rw [decodeItem_uncompressed (h a (List.mem_cons_self a t)), List.map_cons,
      ih (fun it hit => h it (List.mem_cons_of_mem a hit))]
    rfl

theorem getLastD_map_tid : ∀ (acc : List ZSBtreeItem) (d : ZSBtreeItem),
    ((acc.map (fun it => (it.t_tid, it.datumOf))).getLastD
      (d.t_tid, d.datumOf)).1 = (acc.getLastD d).t_tid
  | [], _ => rfl
  | a :: t, d => by
    rw [List.map_cons, List.getLastD_cons, List.getLastD_cons]
    exact getLastD_map_tid t a

theorem zs_compress_finish_spec (codec : ZSCodec) {acc : List ZSBtreeItem}
    (hne : acc ≠ []) (hunc : ∀ it ∈ acc, it.compressedFlag = false) :
    decodeItem (zs_compress_finish codec acc) = decodeItems acc ∧
    leafItemOK (zs_compress_finish codec acc) := by
  have hbne : acc.map (fun it => (it.t_tid, it.datumOf)) ≠ [] := by
    simpa using hne
  constructor
  · unfold decodeItem
    show (match ZSItemBody.compressed
        (acc.map (fun it => (it.t_tid, it.datumOf))) with
      | ZSItemBody.uncompressed d => [((zs_compress_finish codec acc).t_tid, d)]
      | ZSItemBody.compressed blob => blob) = decodeItems acc
    rw [decodeItems_all_uncompressed hunc]
  · unfold leafItemOK
    show match ZSItemBody.compressed
        (acc.map (fun it => (it.t_tid, it.datumOf))) with
      | ZSItemBody.uncompressed _ =>
          (zs_compress_finish codec acc).t_lasttid =
            (zs_compress_finish codec acc).t_tid
      | ZSItemBody.compressed blob => blob ≠ [] ∧
          (blob.headD default).1 = (zs_compress_finish codec acc).t_tid ∧
          (blob.getLastD default).1 = (zs_compress_finish codec acc).t_lasttid
    refine ⟨hbne, ?_, ?_⟩
    · cases acc with
      | nil => exact absurd rfl hne
      | cons a t => rfl
    · show ((acc.map (fun it => (it.t_tid, it.datumOf))).getLastD default).1 =
        (acc.getLastD default).t_tid
      rw [getLastD_irrel hbne default
        ((default : ZSBtreeItem).t_tid, (default : ZSBtreeItem).datumOf)]
      exact getLastD_map_tid acc default

theorem decodeItems_append (a b : List ZSBtreeItem) :
    decodeItems (a ++ b) = decodeItems a ++ decodeItems b := by
  unfold decodeItems
  exact List.flatMap_append a b decodeItem

theorem decodeItems_singleton (x : ZSBtreeItem) :
    decodeItems [x] = decodeItem x := by
  show decodeItem x ++ [] = decodeItem x
  rw [List.append_nil]

theorem decodeItems_nil : decodeItems [] = [] := rfl

theorem decodeItems_cons (x : ZSBtreeItem) (l : List ZSBtreeItem) :
    decodeItems (x :: l) = decodeItem x ++ decodeItems l := rfl

theorem zsbt_compress_loop_spec (codec : ZSCodec) :
    ∀ (its scratch acc : List ZSBtreeItem) (bfree : Nat)
      (out : List ZSBtreeItem),
    zsbt_compress_loop codec its scratch acc bfree = some out →
    (∀ it ∈ acc, it.compressedFlag = false) →
    decodeItems out =
      decodeItems scratch ++ decodeItems acc ++ decodeItems its ∧
    ((∀ it ∈ scratch, leafItemOK it) → (∀ it ∈ acc, leafItemOK it) →
     (∀ it ∈ its, leafItemOK it) → ∀ it ∈ out, leafItemOK it)
  | [], scratch, acc, bfree, out => by
    intro hout hunc
    rw [zsbt_compress_loop] at hout
    by_cases hae : acc.isEmpty
    · rw [if_pos hae] at hout
      have hacc : acc = [] := List.isEmpty_iff.mp hae
      subst hacc
      have hoe : scratch = out := by injection hout
      subst hoe
      refine ⟨by simp only [decodeItems_append, decodeItems_singleton, decodeItems_cons, decodeItems_nil, List.append_nil, List.append_assoc], ?_⟩
      intro h1 h2 h3 it hit
      exact h1 it hit
    · rw [if_neg hae] at hout
      have hane : acc ≠ [] := fun hc => hae (by rw [hc]; rfl)
      by_cases hfit : PageGetFreeSpace scratch <
          MAXALIGN (zs_compress_finish codec acc).t_size
      · rw [if_pos hfit] at hout
        exact absurd hout (by simp)
      · rw [if_neg hfit] at hout
        have hoe : scratch ++ [zs_compress_finish codec acc] = out := by
          injection hout
        subst hoe
        obtain ⟨hfdec, hfok⟩ := zs_compress_finish_spec codec hane hunc
        refine ⟨?_, ?_⟩
        · simp only [decodeItems_append, decodeItems_singleton, decodeItems_cons, decodeItems_nil, List.append_nil, List.append_assoc]
          rw [hfdec]
        · intro h1 h2 h3 it hit
          rcases List.mem_append.mp hit with hit2 | hit2
          · exact h1 it hit2
          · have he := List.mem_singleton.mp hit2
            rw [he]
            exact hfok
  | it0 :: rest, scratch, acc, bfree, out => by
    intro hout hunc
    rw [zsbt_compress_loop] at hout
    have hmem0 : it0 ∈ it0 :: rest := List.mem_cons_self it0 rest
    by_cases hflag : it0.compressedFlag
    · rw [if_pos hflag] at hout
      by_cases hae : acc.isEmpty
      · rw [if_pos hae] at hout
        have hacc : acc = [] := List.isEmpty_iff.mp hae
        subst hacc
        simp only [] at hout
        by_cases hfit : PageGetFreeSpace scratch < MAXALIGN it0.t_size
        · rw [if_pos hfit] at hout
          exact absurd hout (by simp)
        · rw [if_neg hfit] at hout
          obtain ⟨hdec, hok⟩ := zsbt_compress_loop_spec codec rest
            (scratch ++ [it0]) [] 0 out hout (fun it hit => by simp at hit)
          refine ⟨?_, ?_⟩
          · rw [hdec]
            simp only [decodeItems_append, decodeItems_singleton, decodeItems_cons, decodeItems_nil, List.append_nil, List.append_assoc]
          · intro h1 h2 h3 it hit
            refine hok ?_ (fun it2 hit2 => by simp at hit2)
              (fun it2 hit2 => h3 it2 (List.mem_cons_of_mem it0 hit2)) it hit
            intro it2 hit2
            rcases List.mem_append.mp hit2 with hit3 | hit3
            · exact h1 it2 hit3
            · have he := List.mem_singleton.mp hit3
              rw [he]
              exact h3 it0 hmem0
      · rw [if_neg hae] at hout
        have hane : acc ≠ [] := fun hc => hae (by rw [hc]; rfl)
        by_cases hfit : PageGetFreeSpace scratch <
            MAXALIGN (zs_compress_finish codec acc).t_size
        · rw [if_pos hfit] at hout
          simp only [] at hout
          exact absurd hout (by simp)
        · rw [if_neg hfit] at hout
          simp only [] at hout
          by_cases hfit2 : PageGetFreeSpace (scratch ++
              [zs_compress_finish codec acc]) < MAXALIGN it0.t_size
          · rw [if_pos hfit2] at hout
            exact absurd hout (by simp)
          · rw [if_neg hfit2] at hout
            obtain ⟨hdec, hok⟩ := zsbt_compress_loop_spec codec rest
              ((scratch ++ [zs_compress_finish codec acc]) ++ [it0]) [] 0 out
              hout (fun it hit => by simp at hit)
            obtain ⟨hfdec, hfok⟩ := zs_compress_finish_spec codec hane hunc
            refine ⟨?_, ?_⟩
            · rw [hdec]
              simp only [decodeItems_append, decodeItems_singleton, decodeItems_cons, decodeItems_nil, List.append_nil, List.append_assoc]
              rw [hfdec]
            · intro h1 h2 h3 it hit
              refine hok ?_ (fun it2 hit2 => by simp at hit2)
                (fun it2 hit2 => h3 it2 (List.mem_cons_of_mem it0 hit2)) it hit
              intro it2 hit2
              rcases List.mem_append.mp hit2 with hit3 | hit3
              · rcases List.mem_append.mp hit3 with hit4 | hit4
                · exact h1 it2 hit4
                · have he := List.mem_singleton.mp hit4
                  rw [he]
                  exact hfok
              · have he := List.mem_singleton.mp hit3
                rw [he]
                exact h3 it0 hmem0
    · rw [if_neg hflag] at hout
      have hflag2 : it0.compressedFlag = false := by
        cases hfl : it0.compressedFlag
        · rfl
        · exact absurd hfl hflag
      by_cases hae : acc.isEmpty
      · rw [if_pos hae] at hout
        have hacc : acc = [] := List.isEmpty_iff.mp hae
        subst hacc
        by_cases haccept : codec.accept (PageGetFreeSpace scratch) [] it0
        · rw [if_pos haccept] at hout
          obtain ⟨hdec, hok⟩ := zsbt_compress_loop_spec codec rest scratch
            [it0] (PageGetFreeSpace scratch) out hout (fun it hit => by
              have he := List.mem_singleton.mp hit
              rw [he]
              exact hflag2)
          refine ⟨?_, ?_⟩
          · rw [hdec]
            simp only [decodeItems_append, decodeItems_singleton, decodeItems_cons, decodeItems_nil, List.append_nil, List.append_assoc]
          · intro h1 h2 h3 it hit
            exact hok h1 (fun it2 hit2 => by
                have he := List.mem_singleton.mp hit2
                rw [he]
                exact h3 it0 hmem0)
              (fun it2 hit2 => h3 it2 (List.mem_cons_of_mem it0 hit2)) it hit
        · rw [if_neg haccept] at hout
          by_cases hfit : PageGetFreeSpace scratch < MAXALIGN it0.t_size
          · rw [if_pos hfit] at hout
            exact absurd hout (by simp)
          · rw [if_neg hfit] at hout
            obtain ⟨hdec, hok⟩ := zsbt_compress_loop_spec codec rest
              (scratch ++ [it0]) [] 0 out hout (fun it hit => by simp at hit)
            refine ⟨?_, ?_⟩
            · rw [hdec]
              simp only [decodeItems_append, decodeItems_singleton, decodeItems_cons, decodeItems_nil, List.append_nil, List.append_assoc]
            · intro h1 h2 h3 it hit
              refine hok ?_ (fun it2 hit2 => by simp at hit2)
                (fun it2 hit2 => h3 it2 (List.mem_cons_of_mem it0 hit2)) it hit
              intro it2 hit2
              rcases List.mem_append.mp hit2 with hit3 | hit3
              · exact h1 it2 hit3
              · have he := List.mem_singleton.mp hit3
                rw [he]
                exact h3 it0 hmem0
      · rw [if_neg hae] at hout
        have hane : acc ≠ [] := fun hc => hae (by rw [hc]; rfl)
        by_cases haccept : codec.accept bfree acc it0
        · rw [if_pos haccept] at hout
          obtain ⟨hdec, hok⟩ := zsbt_compress_loop_spec codec rest scratch
            (acc ++ [it0]) bfree out hout (fun it hit => by
              rcases List.mem_append.mp hit with hit2 | hit2
              · exact hunc it hit2
              · have he := List.mem_singleton.mp hit2
                rw [he]
                exact hflag2)
          refine ⟨?_, ?_⟩
          · rw [hdec]
            simp only [decodeItems_append, decodeItems_singleton, decodeItems_cons, decodeItems_nil, List.append_nil, List.append_assoc]
          · intro h1 h2 h3 it hit
            refine hok h1 ?_
              (fun it2 hit2 => h3 it2 (List.mem_cons_of_mem it0 hit2)) it hit
            intro it2 hit2
            rcases List.mem_append.mp hit2 with hit3 | hit3
            · exact h2 it2 hit3
            · have he := List.mem_singleton.mp hit3
              rw [he]
              exact h3 it0 hmem0
        · rw [if_neg haccept] at hout
          by_cases hfit : PageGetFreeSpace scratch <
              MAXALIGN (zs_compress_finish codec acc).t_size
          · rw [if_pos hfit] at hout
            exact absurd hout (by simp)
          · rw [if_neg hfit] at hout
            simp only [] at hout
            obtain ⟨hfdec, hfok⟩ := zs_compress_finish_spec codec hane hunc
            by_cases haccept2 : codec.accept
                (PageGetFreeSpace (scratch ++ [zs_compress_finish codec acc]))
                [] it0
            · rw [if_pos haccept2] at hout
              obtain ⟨hdec, hok⟩ := zsbt_compress_loop_spec codec rest
                (scratch ++ [zs_compress_finish codec acc]) [it0]
                (PageGetFreeSpace (scratch ++ [zs_compress_finish codec acc]))
                out hout (fun it hit => by
                  have he := List.mem_singleton.mp hit
                  rw [he]
                  exact hflag2)
              refine ⟨?_, ?_⟩
              · rw [hdec]
                simp only [decodeItems_append, decodeItems_singleton, decodeItems_cons, decodeItems_nil, List.append_nil, List.append_assoc]
                rw [hfdec]
              · intro h1 h2 h3 it hit
                refine hok ?_ (fun it2 hit2 => by
                    have he := List.mem_singleton.mp hit2
                    rw [he]
                    exact h3 it0 hmem0)
                  (fun it2 hit2 => h3 it2 (List.mem_cons_of_mem it0 hit2))
                  it hit
                intro it2 hit2
                rcases List.mem_append.mp hit2 with hit3 | hit3
                · exact h1 it2 hit3
                · have he := List.mem_singleton.mp hit3
                  rw [he]
                  exact hfok
            · rw [if_neg haccept2] at hout
              by_cases hfit2 : PageGetFreeSpace (scratch ++
                  [zs_compress_finish codec acc]) < MAXALIGN it0.t_size
              · rw [if_pos hfit2] at hout
                exact absurd hout (by simp)
              · rw [if_neg hfit2] at hout
                obtain ⟨hdec, hok⟩ := zsbt_compress_loop_spec codec rest
                  ((scratch ++ [zs_compress_finish codec acc]) ++ [it0]) [] 0
                  out hout (fun it hit => by simp at hit)
                refine ⟨?_, ?_⟩
                · rw [hdec]
                  simp only [decodeItems_append, decodeItems_singleton, decodeItems_cons, decodeItems_nil, List.append_nil, List.append_assoc]
                  rw [hfdec]
                · intro h1 h2 h3 it hit
                  refine hok ?_ (fun it2 hit2 => by simp at hit2)
                    (fun it2 hit2 => h3 it2 (List.mem_cons_of_mem it0 hit2))
                    it hit
                  intro it2 hit2
                  rcases List.mem_append.mp hit2 with hit3 | hit3
                  · rcases List.mem_append.mp hit3 with hit4 | hit4
                    · exact h1 it2 hit4
                    · have he := List.mem_singleton.mp hit4
                      rw [he]
                      exact hfok
                  · have he := List.mem_singleton.mp hit3
                    rw [he]
                    exact h3 it0 hmem0

theorem zsbt_compress_leaf_spec (codec : ZSCodec) (page : ZSPage) :
    (zsbt_compress_leaf codec page).2.zs_level = page.zs_level ∧
    (zsbt_compress_leaf codec page).2.zs_lokey = page.zs_lokey ∧
    (zsbt_compress_leaf codec page).2.zs_hikey = page.zs_hikey ∧
    (zsbt_compress_leaf codec page).2.zs_next = page.zs_next ∧
    (zsbt_compress_leaf codec page).2.zs_flags = page.zs_flags ∧
    decodeItems (zsbt_compress_leaf codec page).2.leafItems =
      decodeItems page.leafItems ∧
    ((∀ it ∈ page.leafItems, leafItemOK it) →
      ∀ it ∈ (zsbt_compress_leaf codec page).2.leafItems, leafItemOK it) := by
  unfold zsbt_compress_leaf
  cases hloop : zsbt_compress_loop codec page.leafItems [] [] 0 with
  | none => exact ⟨rfl, rfl, rfl, rfl, rfl, rfl, fun h => h⟩
  | some out =>
    obtain ⟨hdec, hok⟩ := zsbt_compress_loop_spec codec page.leafItems [] [] 0
      out hloop (fun it hit => by simp at hit)
    refine ⟨rfl, rfl, rfl, rfl, rfl, ?_, ?_⟩
    · show decodeItems out = _
      rw [hdec]
      rfl
    · intro h
      show ∀ it ∈ out, leafItemOK it
      exact hok (fun it hit => by simp at hit) (fun it hit => by simp at hit) h

theorem zsbt_insert_pick_page_spec (codec : ZSCodec) (itemsz : Nat)
    (page : ZSPage) :
    (zsbt_insert_pick_page codec itemsz page).zs_level = page.zs_level ∧
    (zsbt_insert_pick_page codec itemsz page).zs_lokey = page.zs_lokey ∧
    (zsbt_insert_pick_page codec itemsz page).zs_hikey = page.zs_hikey ∧
    (zsbt_insert_pick_page codec itemsz page).zs_next = page.zs_next ∧
    (zsbt_insert_pick_page codec itemsz page).zs_flags = page.zs_flags ∧
    decodeItems (zsbt_insert_pick_page codec itemsz page).leafItems =
      decodeItems page.leafItems ∧
    ((∀ it ∈ page.leafItems, leafItemOK it) →
      ∀ it ∈ (zsbt_insert_pick_page codec itemsz page).leafItems,
        leafItemOK it) := by
  unfold zsbt_insert_pick_page
  by_cases hc : PageGetFreeSpace page.leafItems < MAXALIGN itemsz
  · rw [if_pos hc]
    exact zsbt_compress_leaf_spec codec page
  · rw [if_neg hc]
    exact ⟨rfl, rfl, rfl, rfl, rfl, rfl, fun h => h⟩

theorem zsbt_insert_to_leaf_spec (codec : ZSCodec) (attlen attno datum : Nat)
    (page : ZSPage) (rightblkno : Nat)
    (hok : ∀ it ∈ page.leafItems, leafItemOK it) :
    (∃ pg1, zsbt_insert_to_leaf codec attlen attno datum page rightblkno =
        ZSInsertToLeafResult.fit pg1 (zsbt_insert_assigned_tid page) ∧
      pg1.zs_level = page.zs_level ∧ pg1.zs_lokey = page.zs_lokey ∧
      pg1.zs_hikey = page.zs_hikey ∧ pg1.zs_next = page.zs_next ∧
      decodeItems pg1.leafItems = decodeItems page.leafItems ++
        [(zsbt_insert_assigned_tid page, datum)] ∧
      (∀ it ∈ pg1.leafItems, leafItemOK it) ∧
      pg1.leafItems.getLast? = some (zsbt_insert_item attlen attno datum
        (zsbt_insert_assigned_tid page))) ∨
    (∃ L R, zsbt_insert_to_leaf codec attlen attno datum page rightblkno =
        ZSInsertToLeafResult.split L R ⟨page.zs_lokey.ip_blkid + 1, 1⟩
          (zsbt_insert_assigned_tid page) ∧
      L.zs_level = page.zs_level ∧ L.zs_lokey = page.zs_lokey ∧
      L.zs_hikey = (⟨page.zs_lokey.ip_blkid + 1, 1⟩ : ItemPointerData) ∧
      L.zs_next = some rightblkno ∧
      decodeItems L.leafItems = decodeItems page.leafItems ∧
      (∀ it ∈ L.leafItems, leafItemOK it) ∧
      R.zs_level = 0 ∧
      R.zs_lokey = (⟨page.zs_lokey.ip_blkid + 1, 1⟩ : ItemPointerData) ∧
      R.zs_hikey = page.zs_hikey ∧ R.zs_next = page.zs_next ∧ R.zs_flags = 0 ∧
      R.leafItems = [zsbt_insert_item attlen attno datum
        (zsbt_insert_assigned_tid page)]) := by
  obtain ⟨hp1, hp2, hp3, hp4, hp5, hp6, hp7⟩ := zsbt_insert_pick_page_spec
    codec (zsbt_insert_itemsz attlen attno) page
  have hitemok : leafItemOK (zsbt_insert_item attlen attno datum
      (zsbt_insert_assigned_tid page)) := rfl
  unfold zsbt_insert_to_leaf
  by_cases hfits : MAXALIGN (zsbt_insert_itemsz attlen attno) ≤
      PageGetFreeSpace (zsbt_insert_pick_page codec
        (zsbt_insert_itemsz attlen attno) page).leafItems
  · rw [if_pos hfits]
    refine Or.inl ⟨_, rfl, hp1, hp2, hp3, hp4, ?_, ?_, ?_⟩
    · show decodeItems ((zsbt_insert_pick_page codec
          (zsbt_insert_itemsz attlen attno) page).leafItems ++
          [zsbt_insert_item attlen attno datum
            (zsbt_insert_assigned_tid page)]) = _
      rw [decodeItems_append, decodeItems_singleton, hp6]
      rfl
    · intro it hit
      rcases List.mem_append.mp hit with hit2 | hit2
      · exact hp7 hok it hit2
      · have he := List.mem_singleton.mp hit2
        rw [he]
        exact hitemok
    · exact List.getLast?_concat _
  · rw [if_neg hfits]
    unfold zsbt_split_leaf
    rw [zsbt_split_distribute_insert_call, hp2]
    exact Or.inr ⟨_, _, rfl, hp1, rfl, rfl, rfl, hp6, hp7 hok, rfl, rfl, hp3,
      hp4, rfl, rfl⟩

theorem pageAt_set_other {blocks : List ZSPage} {bb b : Nat} (pg : ZSPage)
    (h : bb ≠ b) : pageAt (blocks.set bb pg) b = pageAt blocks b := by
  unfold pageAt
  rw [List.getD_eq_getElem?_getD, List.getD_eq_getElem?_getD,
    List.getElem?_set_ne h]

theorem pageAt_append_l {blocks ext : List ZSPage} {b : Nat}
    (h : b < blocks.length) : pageAt (blocks ++ ext) b = pageAt blocks b := by
  unfold pageAt
  rw [List.getD_eq_getElem?_getD, List.getD_eq_getElem?_getD,
    List.getElem?_append_left h]

theorem getLastD_eq_getD {α : Type} [Inhabited α] (l : List α) (d : α) :
    l.getLastD d = l.getD (l.length - 1) d := by
  rw [List.getLastD_eq_getLast?, List.getLast?_eq_getElem?,
    List.getD_eq_getElem?_getD]

theorem ChainOK_set_preserve {blocks : List ZSPage} {i : Nat} {ch : List Nat}
    {bb : Nat} {pgold pgnew : ZSPage} (h : ChainOK blocks i ch)
    (hb : blocks.get? bb = some pgold)
    (h1 : pgnew.zs_level = pgold.zs_level)
    (h2 : pgnew.zs_lokey = pgold.zs_lokey)
    (h3 : pgnew.zs_next = pgold.zs_next) :
    ChainOK (blocks.set bb pgnew) i ch := by
  induction h with
  | last i b pg hget hlev hlk hnx =>
    by_cases hbe : bb = b
    · subst hbe
      rw [hb] at hget
      have hpe : pgold = pg := by injection hget
      subst hpe
      exact ChainOK.last i bb pgnew (get?_set_self _ (get?_lt_length hb))
        (h1.trans hlev) (h2.trans hlk) (h3.trans hnx)
    · exact ChainOK.last i b pg (by rw [get?_set_other _ hbe]; exact hget)
        hlev hlk hnx
  | cons i b b2 rest pg hget hlev hlk hnx hne hrec ih =>
    by_cases hbe : bb = b
    · subst hbe
      rw [hb] at hget
      have hpe : pgold = pg := by injection hget
      subst hpe
      exact ChainOK.cons i bb b2 rest pgnew
        (get?_set_self _ (get?_lt_length hb)) (h1.trans hlev) (h2.trans hlk)
        (h3.trans hnx) hne ih
    · exact ChainOK.cons i b b2 rest pg
        (by rw [get?_set_other _ hbe]; exact hget) hlev hlk hnx hne ih

theorem mem_dropLast_ne_last {blocks : List ZSPage} {i : Nat} {ch : List Nat}
    (h : ChainOK blocks i ch) (hne : ch ≠ []) :
    ∀ b ∈ ch.dropLast, b ≠ ch.getLastD 0 := by
  intro b hb hc
  obtain ⟨k, hk, hkb⟩ := List.mem_iff_getElem.mp hb
  rw [List.length_dropLast] at hk
  have hkb2 : ch.getD k 0 = b := by
    rw [List.getD_eq_getElem?_getD,
      List.getElem?_eq_getElem (show k < ch.length by omega)]
    show ch[k] = b
    rw [← hkb, List.getElem_dropLast]
  have hlast2 : ch.getD (ch.length - 1) 0 = ch.getLastD 0 :=
    (getLastD_eq_getD ch 0).symm
  have := ChainOK_getD_inj h (show k < ch.length by omega)
    (show ch.length - 1 < ch.length by
      cases ch with
      | nil => exact absurd rfl hne
      | cons x t => rw [List.length_cons]; omega)
    (by rw [hkb2, hlast2, hc])
  omega

theorem chain_getLastD_mem {ch : List Nat} (hne : ch ≠ []) :
    ch.getLastD 0 ∈ ch := by
  rw [List.getLastD_eq_getLast?]
  cases hgl : ch.getLast? with
  | none => exact absurd (List.getLast?_eq_none_iff.mp hgl) hne
  | some x => exact List.mem_of_mem_getLast? hgl

theorem chain_getLast?_eq {ch : List Nat} (hne : ch ≠ []) :
    ch.getLast? = some (ch.getLastD 0) := by
  cases hgl : ch.getLast? with
  | none => exact absurd (List.getLast?_eq_none_iff.mp hgl) hne
  | some x =>
    rw [List.getLastD_eq_getLast?, hgl]
    rfl

theorem getD_append_l {α : Type} {l l2 : List α} {k : Nat} (h : k < l.length)
    (d : α) : (l ++ l2).getD k d = l.getD k d := by
  rw [List.getD_eq_getElem?_getD, List.getD_eq_getElem?_getD,
    List.getElem?_append_left h]

theorem getD_concat {α : Type} (l : List α) (x : α) (d : α) :
    (l ++ [x]).getD l.length d = x := by
  rw [List.getD_eq_getElem?_getD, List.getElem?_concat_length]
  rfl

theorem zsbt_insert_step (codec : ZSCodec) (attlen attno : Nat)
    (st : ZSTreeState) (datums : List Nat) (d : Nat)
    (hinv : ZSInv st datums)
    (hbound : datums.length + 1 ≤ MaxBlockNumber) :
    ∃ st', zsbt_insert codec attlen attno (st.blocks.length + 2) st d =
        some (tidSeqNext ⟨0, 1⟩ datums, st') ∧
      ZSInv st' (datums ++ [d]) := by
  obtain ⟨td, hT⟩ := hinv
  obtain ⟨upper, lspine, chain⟩ := td
  have hchne : chain ≠ [] := hT.chain_ne
  have hchainlt : ∀ b ∈ chain, b < st.blocks.length := hT.chain_le
  have hchfacts : ∀ k, k < chain.length →
      ∃ pg, st.blocks.get? (chain.getD k 0) = some pg ∧
        pg.zs_level = 0 ∧ pg.zs_lokey = ⟨0 + k, 1⟩ ∧
        (k + 1 < chain.length → pg.zs_next = some (chain.getD (k + 1) 0) ∧
          chain.getD k 0 ≠ chain.getD (k + 1) 0) ∧
        (k + 1 = chain.length → pg.zs_next = none) :=
    ChainOK_facts hT.chain_ok
  have hclen1 : 1 ≤ chain.length := by
    cases chain with
    | nil => exact absurd rfl hchne
    | cons a t => rw [List.length_cons]; omega
  obtain ⟨cpg, hcget, hclev, hclokey, _, hclast⟩ :=
    hchfacts (chain.length - 1) (Nat.sub_lt hclen1 Nat.one_pos)
  have hcD : chain.getD (chain.length - 1) 0 = chain.getLastD 0 :=
    (getLastD_eq_getD chain 0).symm
  rw [hcD] at hcget
  have hpageAt : pageAt st.blocks (chain.getLastD 0) = cpg :=
    pageAt_of_get? hcget
  have hsize : upper.length + chain.length ≤ st.blocks.length + 1 :=
    hT.size_ok
  have hco : decodeChain st.blocks chain =
      tidSeq (⟨0, 1⟩ : ItemPointerData) datums := hT.content_ok
  have hchbnd : chain.length ≤
      (tidSeq (⟨0, 1⟩ : ItemPointerData) datums).length + 1 := hT.chain_bound
  -- the TID the insert will assign
  have htid : zsbt_insert_assigned_tid cpg = tidSeqNext ⟨0, 1⟩ datums := by
    unfold zsbt_insert_assigned_tid tidSeqNext
    cases hdec : (tidSeq (⟨0, 1⟩ : ItemPointerData) datums).getLast? with
    | none =>
      have hdnil : tidSeq (⟨0, 1⟩ : ItemPointerData) datums = [] :=
        List.getLast?_eq_none_iff.mp hdec
      have hempty := hT.rightleaf_empty hdnil
      rw [hpageAt] at hempty
      rw [hempty]
      show cpg.zs_lokey = _
      rw [hdnil] at hchbnd
      simp only [List.length_nil] at hchbnd
      have hch1 : chain.length = 1 := by omega
      rw [hclokey, hch1]
    | some r =>
      have hdnne : tidSeq (⟨0, 1⟩ : ItemPointerData) datums ≠ [] := by
        intro hc
        rw [hc] at hdec
        exact Option.noConfusion hdec
      have hlastit := hT.last_item hdnne
      rw [hpageAt, hdec] at hlastit
      cases hgl : cpg.leafItems.getLast? with
      | none =>
        rw [hgl] at hlastit
        exact Option.noConfusion hlastit
      | some it =>
        rw [hgl] at hlastit
        have hit : it.t_tid = r.1 := Option.some.inj hlastit
        show ItemPointerIncrement it.t_tid = ItemPointerIncrement r.1
        rw [hit]
  have hsnoc : tidSeq (⟨0, 1⟩ : ItemPointerData) (datums ++ [d]) =
      tidSeq (⟨0, 1⟩ : ItemPointerData) datums ++
        [(tidSeqNext ⟨0, 1⟩ datums, d)] := tidSeq_snoc _ datums d
  have hroot : zsmeta_get_root_for_attribute true st =
      (some (upper.getLastD (chain.getLastD 0)), st) := by
    unfold zsmeta_get_root_for_attribute
    rw [hT.meta_ok]
  have hupb : upper.length ≤ st.blocks.length := by omega
  have hdesc : zsbt_descend_loop st.blocks rightmostkey (st.blocks.length + 2)
      (upper.getLastD (chain.getLastD 0)) none = some (chain.getLastD 0) := by
    have hfe : st.blocks.length + 2 =
        ((st.blocks.length + 1 - upper.length) + 1) + upper.length := by
      omega
    rw [hfe]
    exact zsbt_descend_rightmost hT.upper_ok hcget hclev _
  have hokc : ∀ it ∈ cpg.leafItems, leafItemOK it := by
    have hh := hT.items_ok (chain.getLastD 0) (chain_getLastD_mem hchne)
    rw [hpageAt] at hh
    exact hh
  unfold zsbt_insert
  rw [hroot]
  simp only []
  rw [hdesc]
  simp only [hcget]
  rcases zsbt_insert_to_leaf_spec codec attlen attno d cpg st.blocks.length
      hokc with
    ⟨pg1, heq, hf1, hf2, hf3, hf4, hfdec, hfok, hflast⟩ |
    ⟨L, R, heq, hL1, hL2, hL3, hL4, hLdec, hLok, hR1, hR2, hR3, hR4, hR5,
      hRit⟩
  · rw [heq, htid]
    refine ⟨{ st with blocks := st.blocks.set (chain.getLastD 0) pg1 }, rfl,
      ⟨upper, lspine, chain⟩, ?_, ?_, ?_, ?_, ?_, ?_, ?_, ?_, ?_, ?_, ?_,
      ?_, ?_, ?_, ?_⟩
    · exact hchne
    · exact ChainOK_set_preserve hT.chain_ok hcget hf1 hf2 hf4
    · intro b hb
      rw [List.length_set]
      exact hT.chain_le b hb
    · exact UpperOK_set_low hT.upper_ok hcget (by rw [hclev])
    · rw [pageAt_of_get? (get?_set_self pg1 (get?_lt_length hcget)), hf3,
        ← hpageAt]
      exact hT.rightleaf_hikey
    · exact hT.meta_ok
    · refine LSpineOK_set hT.lspine_ok _ pg1 ?_
      intro pgold hpgold
      rw [hcget] at hpgold
      have hpe : cpg = pgold := by injection hpgold
      rw [← hpe]
      exact Or.inr (Or.inl ⟨hf1, hf2, hclev⟩)
    · exact hT.lspine_head
    · exact hT.lspine_last
    · show decodeChain _ chain = _
      have hchd : chain.dropLast ++ [chain.getLastD 0] = chain :=
        List.dropLast_append_getLast? _ (chain_getLast?_eq hchne)
      have hnolast := mem_dropLast_ne_last hT.chain_ok hchne
      have hcongr : decodeChain (st.blocks.set (chain.getLastD 0) pg1)
          chain.dropLast = decodeChain st.blocks chain.dropLast := by
        refine decodeChain_congr ?_
        intro b hb
        rw [pageAt_set_other pg1 (fun hc => hnolast b hb hc.symm)]
      have hold : decodeChain st.blocks chain.dropLast ++
          decodeItems cpg.leafItems =
          tidSeq (⟨0, 1⟩ : ItemPointerData) datums := by
        rw [← hchd, decodeChain_snoc, hpageAt] at hco
        exact hco
      nth_rewrite 2 [← hchd]
      rw [decodeChain_snoc, hcongr,
        pageAt_of_get? (get?_set_self pg1 (get?_lt_length hcget)), hfdec,
        hsnoc, htid, ← List.append_assoc, hold]
    · intro b hb it hit
      by_cases hbe : b = chain.getLastD 0
      · subst hbe
        rw [pageAt_of_get? (get?_set_self pg1 (get?_lt_length hcget))] at hit
        exact hfok it hit
      · rw [pageAt_set_other pg1 (fun hc => hbe hc.symm)] at hit
        exact hT.items_ok b hb it hit
    · intro _
      rw [pageAt_of_get? (get?_set_self pg1 (get?_lt_length hcget)), hflast,
        hsnoc, htid]
      rw [List.getLast?_concat]
      rfl
    · intro hc
      rw [hsnoc] at hc
      exact absurd hc (by simp)
    · show chain.length ≤
        (tidSeq (⟨0, 1⟩ : ItemPointerData) (datums ++ [d])).length + 1
      rw [hsnoc, List.length_append, List.length_cons, List.length_nil]
      omega
    · show upper.length + chain.length ≤ _
      rw [List.length_set]
      exact hT.size_ok
  · -- the leaf split: push the downlink and rebuild the invariant
    have hchpos : 1 ≤ chain.length := List.length_pos.mpr hchne
    have hclokey2 : cpg.zs_lokey = ⟨chain.length - 1, 1⟩ := by
      rw [hclokey]
      show (⟨0 + (chain.length - 1), 1⟩ : ItemPointerData) = _
      rw [Nat.zero_add]
    have hstid : (⟨cpg.zs_lokey.ip_blkid + 1, 1⟩ : ItemPointerData) =
        ⟨chain.length, 1⟩ := by
      rw [hclokey2]
      show (⟨chain.length - 1 + 1, 1⟩ : ItemPointerData) = _
      have h0 : chain.length - 1 + 1 = chain.length := by omega
      rw [h0]
    have hcnx : cpg.zs_next = none :=
      hclast (show chain.length - 1 + 1 = chain.length by omega)
    have hdl : (tidSeq (⟨0, 1⟩ : ItemPointerData) datums).length =
        datums.length := tidSeq_length _ _
    rw [heq, hstid]
    have hclt : chain.getLastD 0 < st.blocks.length := get?_lt_length hcget
    have hl2 : ((st.blocks.set (chain.getLastD 0) L) ++ [R]).get?
        (chain.getLastD 0) = some L := by
      rw [get?_append_l (by rw [List.length_set]; exact hclt),
        get?_set_self _ hclt]
    have hrget2 : ((st.blocks.set (chain.getLastD 0) L) ++ [R]).get?
        st.blocks.length = some R := by
      have hh := get?_concat (st.blocks.set (chain.getLastD 0) L) R
      rw [List.length_set] at hh
      exact hh
    have hb2len : ((st.blocks.set (chain.getLastD 0) L) ++ [R]).length =
        st.blocks.length + 1 := by
      rw [List.length_append, List.length_set, List.length_cons,
        List.length_nil]
    obtain ⟨st3, nu, ls3, heq3, hup3, hmeta3, hls3, hh3, hlast3, hframe3,
      hmono3, hcount3⟩ :=
      zsbt_insert_downlink_spec upper (st.blocks.length + 2)
        { st with blocks := (st.blocks.set (chain.getLastD 0) L) ++ [R] }
        0 (chain.getLastD 0) ⟨chain.length - 1, 1⟩ ⟨chain.length, 1⟩
        st.blocks.length L lspine
        (UpperOK_append (UpperOK_set_low hT.upper_ok hcget (by rw [hclev])))
        hT.meta_ok hl2 (hL1.trans hclev) (hL2.trans hclokey2) rfl
        (tidLt_blk_rightmost (by omega))
        (by
          rw [tidLt_iff]
          show chain.length - 1 < chain.length ∨
            (chain.length - 1 = chain.length ∧ 1 < 1)
          omega)
        (by
          rw [Nat.zero_add]
          refine LSpineOK_append (LSpineOK_set hT.lspine_ok _ L ?_)
          intro pgold hpgold
          rw [hcget] at hpgold
          have hpe : cpg = pgold := by injection hpgold
          rw [← hpe]
          exact Or.inr (Or.inl ⟨hL1, hL2, hclev⟩))
        hT.lspine_head (by omega)
    simp only []
    rw [heq3, htid]
    have hmono2 : st.blocks.length + 1 ≤ st3.blocks.length := by
      rw [← hb2len]
      exact hmono3
    have hcount2 : nu.length + (st.blocks.length + 1) ≤
        upper.length + st3.blocks.length := by
      rw [← hb2len]
      exact hcount3
    obtain ⟨rpg3, hrget3, hrsh3⟩ := hframe3 st.blocks.length R hrget2
      (by rw [hR1])
    have hchainmem : ∀ b ∈ chain ++ [st.blocks.length], ∃ pg,
        ((st.blocks.set (chain.getLastD 0) L) ++ [R]).get? b = some pg ∧
        pg.zs_level = 0 := by
      intro b hb
      rcases List.mem_append.mp hb with hb2 | hb2
      · by_cases hbe : b = chain.getLastD 0
        · subst hbe
          exact ⟨L, hl2, hL1.trans hclev⟩
        · obtain ⟨pg, hpg, hpglev⟩ := ChainOK_mem_leaf hT.chain_ok b hb2
          refine ⟨pg, ?_, hpglev⟩
          rw [get?_append_l (by rw [List.length_set]
                                exact hT.chain_le b hb2),
            get?_set_other _ (fun hc => hbe hc.symm)]
          exact hpg
      · have hbB := List.mem_singleton.mp hb2
        rw [hbB]
        exact ⟨R, hrget2, hR1⟩
    have hitemok2 : leafItemOK (zsbt_insert_item attlen attno d
        (zsbt_insert_assigned_tid cpg)) := rfl
    refine ⟨st3, rfl, ⟨nu, ls3, chain ++ [st.blocks.length]⟩, ?_, ?_, ?_,
      ?_, ?_, ?_, ?_, ?_, ?_, ?_, ?_, ?_, ?_, ?_, ?_⟩
    · simp
    · show ChainOK st3.blocks 0 (chain ++ [st.blocks.length])
      refine ChainOK_frame ?_ hframe3
      refine ChainOK_of_facts _ 0 (by simp) ?_
      intro k hk
      rw [List.length_append, List.length_cons, List.length_nil] at hk
      by_cases hkm : k < chain.length - 1
      · obtain ⟨pg, hpg, hpglev, hpglok, hpgmid, _⟩ := hchfacts k (by omega)
        have hne1 : chain.getD k 0 ≠ chain.getLastD 0 := by
          intro hc
          rw [getLastD_eq_getD chain 0] at hc
          have := ChainOK_getD_inj hT.chain_ok
            (show k < chain.length by omega)
            (show chain.length - 1 < chain.length by omega) hc
          omega
        have hga : (chain ++ [st.blocks.length]).getD k 0 = chain.getD k 0 :=
          getD_append_l (by omega) 0
        have hga2 : (chain ++ [st.blocks.length]).getD (k + 1) 0 =
            chain.getD (k + 1) 0 := getD_append_l (by omega) 0
        obtain ⟨hnx2, hne2⟩ := hpgmid (by omega)
        refine ⟨pg, ?_, hpglev, hpglok, ?_, ?_⟩
        · rw [hga, get?_append_l (show chain.getD k 0 < (st.blocks.set (chain.getLastD 0) L).length by rw [List.length_set]; exact hchainlt _ (getD_mem_of_lt (show k < chain.length by omega) 0)), get?_set_other _ (fun hc => hne1 hc.symm)]
          exact hpg
        · intro _
          rw [hga, hga2]
          exact ⟨hnx2, hne2⟩
        · intro hc
          rw [List.length_append, List.length_cons, List.length_nil] at hc
          omega
      · by_cases hkl : k = chain.length - 1
        · have hgk : (chain ++ [st.blocks.length]).getD k 0 =
              chain.getLastD 0 := by
            rw [hkl, getD_append_l (by omega) 0, ← getLastD_eq_getD]
          have hk1 : k + 1 = chain.length := by omega
          refine ⟨L, ?_, hL1.trans hclev, ?_, ?_, ?_⟩
          · rw [hgk]
            exact hl2
          · rw [hL2, hclokey, hkl]
          · intro _
            rw [hgk, hk1, getD_concat]
            exact ⟨hL4, by omega⟩
          · intro hc
            rw [List.length_append, List.length_cons, List.length_nil] at hc
            omega
        · have hkB : k = chain.length := by omega
          refine ⟨R, ?_, hR1, ?_, ?_, ?_⟩
          · rw [hkB, getD_concat]
            exact hrget2
          · rw [hR2, hstid, hkB]
            show (⟨chain.length, 1⟩ : ItemPointerData) = ⟨0 + chain.length, 1⟩
            rw [Nat.zero_add]
          · intro hc
            rw [List.length_append, List.length_cons, List.length_nil] at hc
            omega
          · intro _
            rw [hR4]
            exact hcnx
    · intro b hb
      rcases List.mem_append.mp hb with hb2 | hb2
      · have := hT.chain_le b hb2
        omega
      · have hbB := List.mem_singleton.mp hb2
        omega
    · show UpperOK st3.blocks 0 ((chain ++ [st.blocks.length]).getLastD 0)
        ⟨(chain ++ [st.blocks.length]).length - 1, 1⟩ nu
      rw [getLastD_concat, List.length_append, List.length_cons,
        List.length_nil, Nat.add_sub_cancel]
      exact hup3
    · show (pageAt st3.blocks
        ((chain ++ [st.blocks.length]).getLastD 0)).zs_hikey = _
      rw [getLastD_concat, pageAt_of_get? hrget3, hrsh3.2.2.1, hR3,
        ← hpageAt]
      exact hT.rightleaf_hikey
    · show st3.meta = _
      rw [getLastD_concat]
      exact hmeta3
    · have h2 := hls3
      rw [Nat.zero_add] at h2
      exact h2
    · show ls3.headD 0 = _
      rw [getLastD_concat]
      exact hh3
    · show ls3.getLastD 0 = _
      rw [headD_append hchne, hlast3]
      exact hT.lspine_last
    · show decodeChain st3.blocks (chain ++ [st.blocks.length]) = _
      have hchd : chain.dropLast ++ [chain.getLastD 0] = chain :=
        List.dropLast_append_getLast? _ (chain_getLast?_eq hchne)
      have hnolast := mem_dropLast_ne_last hT.chain_ok hchne
      have hcongr : decodeChain ((st.blocks.set (chain.getLastD 0) L) ++ [R])
          chain.dropLast = decodeChain st.blocks chain.dropLast := by
        refine decodeChain_congr ?_
        intro b hb
        have hbm : b ∈ chain := (List.dropLast_sublist chain).subset hb
        rw [pageAt_append_l (show b < (st.blocks.set (chain.getLastD 0) L).length by rw [List.length_set]; exact hT.chain_le b hbm),
          pageAt_set_other L (fun hc => hnolast b hb hc.symm)]
      have hmain : decodeChain ((st.blocks.set (chain.getLastD 0) L) ++ [R])
          chain = tidSeq (⟨0, 1⟩ : ItemPointerData) datums := by
        nth_rewrite 2 [← hchd]
        rw [decodeChain_snoc, hcongr, pageAt_of_get? hl2, hLdec]
        rw [← hchd, decodeChain_snoc, hpageAt] at hco
        exact hco
      rw [decodeChain_frame hchainmem hframe3, decodeChain_snoc,
        pageAt_of_get? hrget2, hmain, hRit, decodeItems_singleton, hsnoc,
        htid]
      rfl
    · intro b hb it hit
      obtain ⟨pg2, hpg2, hpg2lev⟩ := hchainmem b hb
      obtain ⟨pg3, hpg3, hsh⟩ := hframe3 b pg2 hpg2 (by rw [hpg2lev])
      rw [pageAt_of_get? hpg3, leafItems_of_shape hsh] at hit
      rcases List.mem_append.mp hb with hb2 | hb2
      · by_cases hbe : b = chain.getLastD 0
        · subst hbe
          rw [hl2] at hpg2
          have hpe : L = pg2 := by injection hpg2
          rw [← hpe] at hit
          exact hLok it hit
        · have hold : ((st.blocks.set (chain.getLastD 0) L) ++ [R]).get? b =
              st.blocks.get? b := by
            rw [get?_append_l (show b < (st.blocks.set (chain.getLastD 0) L).length by rw [List.length_set]; exact hT.chain_le b hb2),
              get?_set_other _ (fun hc => hbe hc.symm)]
          rw [hold] at hpg2
          have hpa : pageAt st.blocks b = pg2 := pageAt_of_get? hpg2
          rw [← hpa] at hit
          exact hT.items_ok b hb2 it hit
      · have hbB := List.mem_singleton.mp hb2
        subst hbB
        rw [hrget2] at hpg2
        have hpe : R = pg2 := by injection hpg2
        rw [← hpe, hRit] at hit
        have he := List.mem_singleton.mp hit
        rw [he]
        exact hitemok2
    · intro _
      show ((pageAt st3.blocks
        ((chain ++ [st.blocks.length]).getLastD 0)).leafItems.getLast?).map
          ZSBtreeItem.t_tid = _
      rw [getLastD_concat, pageAt_of_get? hrget3, leafItems_of_shape hrsh3,
        hRit, hsnoc, List.getLast?_concat]
      show some (zsbt_insert_item attlen attno d
        (zsbt_insert_assigned_tid cpg)).t_tid = _
      rw [htid]
      rfl
    · intro hc
      rw [hsnoc] at hc
      exact absurd hc (by simp)
    · show (chain ++ [st.blocks.length]).length ≤ _
      rw [List.length_append, List.length_cons, List.length_nil, hsnoc,
        List.length_append, List.length_cons, List.length_nil]
      omega
    · show nu.length + (chain ++ [st.blocks.length]).length ≤
        st3.blocks.length + 1
      rw [List.length_append, List.length_cons, List.length_nil]
      omega

theorem tidSeqNext_cons (t : ItemPointerData) (x : Nat) (xs : List Nat) :
    tidSeqNext t (x :: xs) = tidSeqNext (ItemPointerIncrement t) xs := by
  unfold tidSeqNext
  show (match ((t, x) :: tidSeq (ItemPointerIncrement t) xs).getLast? with
    | none => t
    | some pr => ItemPointerIncrement pr.1) = _
  cases hes : tidSeq (ItemPointerIncrement t) xs with
  | nil => rfl
  | cons y ys =>
    rw [List.getLast?_cons_cons]
    cases h2 : (y :: ys).getLast? with
    | none => exact absurd h2 (by simp)
    | some pr => rfl

theorem tidSeqNext_snoc (t : ItemPointerData) (ds : List Nat) (d : Nat) :
    tidSeqNext t (ds ++ [d]) = ItemPointerIncrement (tidSeqNext t ds) := by
  unfold tidSeqNext
  rw [tidSeq_snoc, List.getLast?_concat]
  rfl

theorem tidSeq_append (t : ItemPointerData) (xs ys : List Nat) :
    tidSeq t (xs ++ ys) = tidSeq t xs ++ tidSeq (tidSeqNext t xs) ys := by
  induction xs generalizing t with
  | nil => rfl
  | cons x xs ih =>
    show (t, x) :: tidSeq (ItemPointerIncrement t) (xs ++ ys) = _
    rw [ih, tidSeqNext_cons]
    rfl

theorem tidSeq_nil_of (t : ItemPointerData) {ds : List Nat}
    (h : tidSeq t ds = []) : ds = [] := by
  cases ds with
  | nil => rfl
  | cons d ds => exact absurd h (by simp [tidSeq])

theorem tidSeq_ne_nil (t : ItemPointerData) {ds : List Nat} (h : ds ≠ []) :
    tidSeq t ds ≠ [] := fun hc => h (tidSeq_nil_of t hc)

theorem tidSeq_lower2 (t : ItemPointerData) (ds : List Nat) :
    ∀ pr ∈ tidSeq t ds, tidLe t pr.1 := by
  induction ds generalizing t with
  | nil => intro pr hpr; simp [tidSeq] at hpr
  | cons d ds ih =>
    intro pr hpr
    rcases List.mem_cons.mp hpr with heq | hmem
    · rw [heq]; exact tidLe_refl t
    · exact tidLe_trans (tidLe_of_lt (tidLt_increment t))
        (ih (ItemPointerIncrement t) pr hmem)

theorem tidSeq_take (t : ItemPointerData) (ds : List Nat) (m : Nat) :
    (tidSeq t ds).take m = tidSeq t (ds.take m) := by
  induction ds generalizing t m with
  | nil => simp [tidSeq]
  | cons d ds ih =>
    cases m with
    | zero => rfl
    | succ m =>
      show ((t, d) :: tidSeq (ItemPointerIncrement t) ds).take (m + 1) = _
      rw [List.take_succ_cons, ih]
      rfl

theorem tidSeq_append_split {t : ItemPointerData} {ds : List Nat}
    {A B : List (ItemPointerData × Nat)} (h : A ++ B = tidSeq t ds) :
    ∃ da db, ds = da ++ db ∧ A = tidSeq t da ∧
      B = tidSeq (tidSeqNext t da) db := by
  refine ⟨ds.take A.length, ds.drop A.length, (List.take_append_drop _ ds).symm,
    ?_, ?_⟩
  · have h1 : (A ++ B).take A.length = A := List.take_left A B
    rw [h, tidSeq_take] at h1
    exact h1.symm
  · have h2 : A = tidSeq t (ds.take A.length) := by
      have h1 : (A ++ B).take A.length = A := List.take_left A B
      rw [h, tidSeq_take] at h1
      exact h1.symm
    have h3 : tidSeq t ds =
        tidSeq t (ds.take A.length) ++
          tidSeq (tidSeqNext t (ds.take A.length)) (ds.drop A.length) := by
      conv_lhs => rw [← List.take_append_drop A.length ds]
      rw [tidSeq_append]
    rw [h3, ← h2] at h
    exact List.append_cancel_left h

/-- The initial one-leaf tree, right after the lazy root creation,
satisfies the invariant for the empty datum sequence. -/
theorem ZSInv_init : ZSInv ⟨some 0, [emptyRootLeaf]⟩ [] := by
  refine ⟨⟨[], [0], [0]⟩, ?_⟩
  refine ⟨by simp, ChainOK.last 0 0 emptyRootLeaf rfl rfl rfl rfl,
    by intro b hb; rw [List.mem_singleton.mp hb]; decide,
    UpperOK.nil 0 0, rfl, rfl,
    LSpineOK.leaf 0 emptyRootLeaf rfl rfl rfl, rfl, rfl, rfl,
    ?_, ?_, ?_, ?_, ?_⟩
  · intro b hb it hit
    rw [List.mem_singleton.mp hb] at hit
    exact absurd hit (by simp [pageAt, emptyRootLeaf, ZSPage.leafItems])
  · intro h
    exact absurd rfl h
  · intro _
    rfl
  · decide
  · decide

/-- The first insert of all: the lazy root creation commutes with the
rest of the operation. -/
theorem zsbt_insert_from_empty (codec : ZSCodec) (attlen attno fuel d : Nat) :
    zsbt_insert codec attlen attno fuel ⟨none, []⟩ d =
      zsbt_insert codec attlen attno fuel ⟨some 0, [emptyRootLeaf]⟩ d := rfl

theorem zsbt_insert_all_spec (codec : ZSCodec) (attlen attno : Nat) :
    ∀ (datums done : List Nat) (st : ZSTreeState), ZSInv st done →
    done.length + datums.length ≤ MaxBlockNumber →
    ∃ st', zsbt_insert_all codec attlen attno datums st =
        some ((tidSeq (tidSeqNext ⟨0, 1⟩ done) datums).map Prod.fst, st') ∧
      ZSInv st' (done ++ datums) := by
  intro datums
  induction datums with
  | nil =>
    intro done st hinv _
    exact ⟨st, rfl, by rw [List.append_nil]; exact hinv⟩
  | cons d ds ih =>
    intro done st hinv hbound
    obtain ⟨td, hT⟩ := hinv
    have hmeta := hT.meta_ok
    obtain ⟨st1, heq1, hinv1⟩ := zsbt_insert_step codec attlen attno st done d
      ⟨td, hT⟩ (by rw [List.length_cons] at hbound; omega)
    obtain ⟨st2, heq2, hinv2⟩ := ih (done ++ [d]) st1 hinv1
      (by rw [List.length_cons] at hbound
          rw [List.length_append, List.length_cons, List.length_nil]
          omega)
    refine ⟨st2, ?_, by rw [List.append_assoc] at hinv2; exact hinv2⟩
    show (match zsbt_insert codec attlen attno
        (match st.meta with
         | none => st.blocks.length + 3
         | some _ => st.blocks.length + 2) st d with
      | none => none
      | some (tid, st1) =>
        match zsbt_insert_all codec attlen attno ds st1 with
        | none => none
        | some (tids, st2) => some (tid :: tids, st2)) = _
    rw [hmeta]
    simp only []
    rw [heq1]
    simp only []
    rw [heq2]
    show some (tidSeqNext ⟨0, 1⟩ done ::
      (tidSeq (tidSeqNext ⟨0, 1⟩ (done ++ [d])) ds).map Prod.fst, st2) = _
    rw [tidSeqNext_snoc]
    rfl

theorem getLastD_mem2 {α : Type} : ∀ (l : List α), l ≠ [] → ∀ d, l.getLastD d ∈ l
  | [], h, _ => absurd rfl h
  | [a], _, _ => by simp
  | a :: b :: u, _, d => by
    rw [List.getLastD_cons]
    exact List.mem_cons_of_mem a (getLastD_mem2 (b :: u) (by simp) b)

theorem decodeItem_ne_nil {it : ZSBtreeItem} (h : leafItemOK it) :
    decodeItem it ≠ [] := by
  unfold leafItemOK at h
  unfold decodeItem
  cases hb : it.body with
  | uncompressed d => simp
  | compressed blob =>
    rw [hb] at h
    show blob ≠ []
    exact h.1

theorem decodeItems_nil_of {its : List ZSBtreeItem}
    (hOK : ∀ it ∈ its, leafItemOK it) (h : decodeItems its = []) : its = [] := by
  cases its with
  | nil => rfl
  | cons it rest =>
    rw [decodeItems_cons] at h
    have h2 := List.append_eq_nil.mp h
    exact absurd h2.1 (decodeItem_ne_nil (hOK it (List.mem_cons_self it rest)))

theorem zs_decompress_read_first_head (t : ItemPointerData) (d : Nat)
    (rest : List (ItemPointerData × Nat)) :
    zs_decompress_read_first t ((t, d) :: rest) = some ((t, d), rest) := by
  unfold zs_decompress_read_first
  rw [if_pos (tidLe_refl t)]

theorem zsbt_scan_page_find_skip (t : ItemPointerData) :
    ∀ (its : List ZSBtreeItem), (∀ it ∈ its, leafItemOK it) →
    recsBelow t (decodeItems its) → ∀ its2,
    zsbt_scan_page_find t (its ++ its2) = zsbt_scan_page_find t its2 := by
  intro its
  induction its with
  | nil => intro _ _ its2; rfl
  | cons it rest ih =>
    intro hOK hlt its2
    have hOKit := hOK it (List.mem_cons_self it rest)
    have hdec : decodeItems (it :: rest) = decodeItem it ++ decodeItems rest :=
      decodeItems_cons it rest
    show zsbt_scan_page_find t (it :: (rest ++ its2)) = _
    unfold leafItemOK at hOKit
    conv_lhs => unfold zsbt_scan_page_find
    cases hb : it.body with
    | compressed blob =>
      simp only []
      rw [hb] at hOKit
      obtain ⟨hbne, _, hlastid⟩ := hOKit
      have hdi : decodeItem it = blob := by unfold decodeItem; rw [hb]
      have hmem : blob.getLastD default ∈ decodeItems (it :: rest) := by
        rw [hdec, hdi]
        exact List.mem_append_left _ (getLastD_mem2 blob hbne default)
      have hlast : tidLt it.t_lasttid t := by
        rw [← hlastid]
        exact hlt _ hmem
      rw [if_neg (not_tidLe_of_lt hlast)]
      exact ih (fun x hx => hOK x (List.mem_cons_of_mem it hx))
        (fun x hx => hlt x (by rw [hdec]; exact List.mem_append_right _ hx)) its2
    | uncompressed d0 =>
      simp only []
      have hdi : decodeItem it = [(it.t_tid, d0)] := by unfold decodeItem; rw [hb]
      have hmem : (it.t_tid, d0) ∈ decodeItems (it :: rest) := by
        rw [hdec, hdi]
        exact List.mem_append_left _ (List.mem_singleton_self _)
      have htt : tidLt it.t_tid t := hlt _ hmem
      rw [if_neg (not_tidLe_of_lt htt)]
      exact ih (fun x hx => hOK x (List.mem_cons_of_mem it hx))
        (fun x hx => hlt x (by rw [hdec]; exact List.mem_append_right _ hx)) its2

theorem zsbt_scan_page_find_hit (t : ItemPointerData) (d : Nat) (ds : List Nat)
    (its : List ZSBtreeItem) (hOK : ∀ it ∈ its, leafItemOK it)
    (hdec : decodeItems its = tidSeq t (d :: ds)) :
    (∃ it0 rest0, its = it0 :: rest0 ∧ decodeItem it0 = [(t, d)] ∧
      zsbt_scan_page_find t its = ZSScanPageHit.plainItem t d) ∨
    (∃ it0 rest0 ds0 ds', its = it0 :: rest0 ∧ d :: ds = ds0 ++ ds' ∧
      ds0 ≠ [] ∧ decodeItem it0 = tidSeq t ds0 ∧
      zsbt_scan_page_find t its = ZSScanPageHit.runItem (tidSeq t ds0)) := by
  cases its with
  | nil =>
    exact absurd hdec (by show ¬ (decodeItems [] = tidSeq t (d :: ds)); simp [decodeItems, tidSeq])
  | cons it0 rest0 =>
    have hOK0 := hOK it0 (List.mem_cons_self it0 rest0)
    unfold leafItemOK at hOK0
    rw [decodeItems_cons] at hdec
    cases hb : it0.body with
    | uncompressed d0 =>
      have hdi : decodeItem it0 = [(it0.t_tid, d0)] := by unfold decodeItem; rw [hb]
      rw [hdi, show tidSeq t (d :: ds) =
        (t, d) :: tidSeq (ItemPointerIncrement t) ds from rfl] at hdec
      have h1 : ((it0.t_tid, d0) : ItemPointerData × Nat) = (t, d) := by
        injection hdec
      have ht : it0.t_tid = t := congrArg Prod.fst h1
      have hd0 : d0 = d := congrArg Prod.snd h1
      refine Or.inl ⟨it0, rest0, rfl, by rw [hdi, ht, hd0], ?_⟩
      unfold zsbt_scan_page_find
      rw [hb]
      simp only []
      rw [ht, hd0, if_pos (tidLe_refl t)]
    | compressed blob =>
      rw [hb] at hOK0
      obtain ⟨hbne, _, hlastid⟩ := hOK0
      have hdi : decodeItem it0 = blob := by unfold decodeItem; rw [hb]
      rw [hdi] at hdec
      obtain ⟨da, db, hsplit, hA, hB⟩ := tidSeq_append_split hdec
      have hdane : da ≠ [] := by
        intro hc
        rw [hc] at hA
        exact hbne hA
      have hcond : tidLe t it0.t_lasttid := by
        rw [← hlastid, hA]
        exact tidSeq_lower2 t da _
          (getLastD_mem2 _ (tidSeq_ne_nil t hdane) default)
      refine Or.inr ⟨it0, rest0, da, db, rfl, hsplit, hdane, by rw [hdi, hA], ?_⟩
      unfold zsbt_scan_page_find
      rw [hb]
      simp only []
      rw [if_pos hcond, hA]

theorem decodeChain_cons (blocks : List ZSPage) (b : Nat) (ch : List Nat) :
    decodeChain blocks (b :: ch) =
      decodeItems (pageAt blocks b).leafItems ++ decodeChain blocks ch := by
  unfold decodeChain
  rw [List.flatMap_cons]

theorem tidSeqNext_nil (t : ItemPointerData) : tidSeqNext t [] = t := rfl

theorem recsBelow_append {t : ItemPointerData}
    {a b : List (ItemPointerData × Nat)} (ha : recsBelow t a)
    (hb : recsBelow t b) : recsBelow t (a ++ b) :=
  fun r hr => (List.mem_append.mp hr).elim (ha r) (hb r)

theorem recsBelow_mono {t : ItemPointerData} {a : List (ItemPointerData × Nat)}
    (h : recsBelow t a) : recsBelow (ItemPointerIncrement t) a :=
  fun r hr => tidLt_trans (h r hr) (tidLt_increment t)

theorem recsBelow_single (t : ItemPointerData) (d : Nat) :
    recsBelow (ItemPointerIncrement t) [(t, d)] := by
  intro r hr
  rw [List.mem_singleton.mp hr]
  exact tidLt_increment t

theorem consumed_shift (consumed : List (ItemPointerData × Nat))
    (t : ItemPointerData) (d : Nat) (ds : List Nat) :
    consumed ++ tidSeq t (d :: ds) =
      (consumed ++ [(t, d)]) ++ tidSeq (ItemPointerIncrement t) ds := by
  rw [show tidSeq t (d :: ds) = (t, d) :: tidSeq (ItemPointerIncrement t) ds
    from rfl, List.append_cons]

theorem zsbt_scan_next_run (oracle : ItemPointerData → Bool)
    (blocks : List ZSPage) (chain : List Nat)
    (hfacts : ∀ m, m < chain.length → ∃ pg,
      blocks.get? (chain.getD m 0) = some pg ∧
      (m + 1 < chain.length → pg.zs_next = some (chain.getD (m + 1) 0) ∧
        chain.getD m 0 ≠ chain.getD (m + 1) 0) ∧
      (m + 1 = chain.length → pg.zs_next = none))
    (hitems : ∀ m, m < chain.length →
      ∀ it ∈ (pageAt blocks (chain.getD m 0)).leafItems, leafItemOK it) :
    ∀ fuel k scan t r attno, ScanOK blocks chain attno k scan t r →
    ((scan.has_decompressed = true ∧ scan.decompressor ≠ [] ∧ 1 ≤ fuel) ∨
     (scan.has_decompressed = false ∧ chain.length - k + 2 ≤ fuel) ∨
     (chain.length - k + 3 ≤ fuel)) →
    (r = [] ∧ ∃ scan', zsbt_scan_next oracle blocks fuel scan =
      some (scan', none)) ∨
    (∃ d rest scan' k', r = d :: rest ∧
      zsbt_scan_next oracle blocks fuel scan =
        some (scan', some (t, d, if attno = 1 then oracle t else true)) ∧
      ScanOK blocks chain attno k' scan' (ItemPointerIncrement t) rest) := by
  intro fuel
  induction fuel with
  | zero =>
    intro k scan t r attno hok hfuel
    rcases hfuel with ⟨_, _, h⟩ | ⟨_, h⟩ | h <;> omega
  | succ fuel ih =>
    intro k scan t r attno hok hfuel
    obtain ⟨hact, hattno, hnext, hk, hlast, consumed, ds₁, ds₂, doneIts,
      todoIts, hr, hsplitIts, hdecode, hbelow, hrest, hmode⟩ := hok
    have hactne : ¬ (scan.active = false) := by
      rw [hact]
      exact fun hc => Bool.noConfusion hc
    rcases hmode with ⟨hhd, hdone⟩ | ⟨hhd, dsS, dsT, hds1, hstream, hdoneS⟩
    · -- page-walk mode
      have hhdne : ¬ (scan.has_decompressed = true) := by
        rw [hhd]
        exact fun hc => Bool.noConfusion hc
      obtain ⟨pg, hpgget, hpgmid, hpglast⟩ := hfacts k hk
      have hpa : pageAt blocks (chain.getD k 0) = pg := pageAt_of_get? hpgget
      have hits : pg.leafItems = doneIts ++ todoIts := by
        rw [← hpa]
        exact hsplitIts
      have hdoneOK : ∀ it ∈ doneIts, leafItemOK it := by
        intro it hit
        refine hitems k hk it ?_
        rw [hsplitIts]
        exact List.mem_append_left _ hit
      have htodoOK : ∀ it ∈ todoIts, leafItemOK it := by
        intro it hit
        refine hitems k hk it ?_
        rw [hsplitIts]
        exact List.mem_append_right _ hit
      have htodo : decodeItems todoIts = tidSeq t ds₁ := by
        have h2 := hdecode
        rw [hsplitIts, decodeItems_append, hdone] at h2
        exact List.append_cancel_left h2
      have hfuel2 : chain.length - k + 2 ≤ fuel + 1 := by
        rcases hfuel with ⟨hc, _, _⟩ | ⟨_, h⟩ | h
        · exact absurd hc hhdne
        · exact h
        · omega
      have hskip : zsbt_scan_page_find t (doneIts ++ todoIts) =
          zsbt_scan_page_find t todoIts :=
        zsbt_scan_page_find_skip t doneIts hdoneOK (by rw [hdone]; exact hbelow)
          todoIts
      cases hds1c : ds₁ with
      | cons d ds =>
        rw [hds1c] at htodo
        rcases zsbt_scan_page_find_hit t d ds todoIts htodoOK htodo with
          ⟨it0, rest0, htodoeq, hdi0, hfind⟩ |
          ⟨it0, rest0, ds0, ds', htodoeq, hds01, hds0ne, hdi0, hfind⟩
        · -- plain hit: emit the record
          refine Or.inr ⟨d, ds ++ ds₂,
            { scan with nexttid := ItemPointerIncrement t }, k,
            by rw [hr, hds1c]; rfl, ?_, ?_⟩
          · rw [zsbt_scan_next, if_neg hactne, if_neg hhdne, hnext, hlast]
            simp only []
            rw [hpgget]
            simp only []
            rw [hits, hskip, hfind]
            simp only []
            rw [hattno]
          · refine ⟨hact, hattno, rfl, hk, hlast, consumed ++ [(t, d)], ds, ds₂,
              doneIts ++ [it0], rest0, rfl, ?_, ?_, ?_, ?_, Or.inl ⟨hhd, ?_⟩⟩
            · rw [hsplitIts, htodoeq, List.append_assoc]
              rfl
            · rw [hdecode, hds1c, consumed_shift]
            · exact recsBelow_append (recsBelow_mono hbelow)
                (recsBelow_single t d)
            · rw [hrest, hds1c, tidSeqNext_cons]
            · rw [decodeItems_append, hdone, decodeItems_singleton, hdi0]
        · -- compressed run: arm the decompressor and re-enter
          have heq2 : zsbt_scan_next oracle blocks (fuel + 1) scan =
              zsbt_scan_next oracle blocks fuel
                { scan with decompressor := tidSeq t ds0, has_decompressed := true } := by
            rw [zsbt_scan_next, if_neg hactne, if_neg hhdne, hnext, hlast]
            simp only []
            rw [hpgget]
            simp only []
            rw [hits, hskip, hfind]
          have hok2 : ScanOK blocks chain attno k
              { scan with decompressor := tidSeq t ds0, has_decompressed := true } t r := by
            refine ⟨hact, hattno, hnext, hk, hlast, consumed, ds₁, ds₂,
              doneIts ++ [it0], rest0, hr, ?_, hdecode, hbelow, hrest,
              Or.inr ⟨rfl, ds0, ds', by rw [hds1c]; exact hds01, rfl, ?_⟩⟩
            · rw [hsplitIts, htodoeq, List.append_assoc]
              rfl
            · rw [decodeItems_append, hdone, decodeItems_singleton, hdi0]
          have hres := ih k _ t r attno hok2
            (Or.inl ⟨rfl, tidSeq_ne_nil t hds0ne, by omega⟩)
          rw [heq2]
          exact hres
      | nil =>
        rw [hds1c] at htodo
        have htodonil : todoIts = [] :=
          decodeItems_nil_of htodoOK (by rw [htodo]; rfl)
        have hfindnil : zsbt_scan_page_find t pg.leafItems =
            ZSScanPageHit.nomore := by
          rw [hits, hskip, htodonil]
          rfl
        rw [hds1c] at hrest
        rw [tidSeqNext_nil] at hrest
        by_cases hkend : k + 1 = chain.length
        · -- rightmost page: the scan closes
          have hnil2 : chain.drop (k + 1) = [] := by
            rw [hkend]
            exact List.drop_length chain
          rw [hnil2] at hrest
          have hds2 : ds₂ = [] := tidSeq_nil_of t hrest.symm
          refine Or.inl ⟨by rw [hr, hds1c, hds2]; rfl, ?_⟩
          refine ⟨{ scan with active := false, lastbuf := none }, ?_⟩
          rw [zsbt_scan_next, if_neg hactne, if_neg hhdne, hnext, hlast]
          simp only []
          rw [hpgget]
          simp only []
          rw [hfindnil]
          simp only []
          rw [hpglast hkend]
        · -- exhausted page: follow the right link
          have hklt : k + 1 < chain.length := by omega
          obtain ⟨hnx, hne⟩ := hpgmid hklt
          have heq2 : zsbt_scan_next oracle blocks (fuel + 1) scan =
              zsbt_scan_next oracle blocks fuel
                { scan with lastbuf := some (chain.getD (k + 1) 0) } := by
            rw [zsbt_scan_next, if_neg hactne, if_neg hhdne, hnext, hlast]
            simp only []
            rw [hpgget]
            simp only []
            rw [hfindnil]
            simp only []
            rw [hnx]
            simp only []
            rw [if_neg (fun hc => hne hc.symm)]
          have hdc : decodeItems (pageAt blocks (chain.getD (k + 1) 0)).leafItems ++
              decodeChain blocks (chain.drop (k + 2)) = tidSeq t ds₂ := by
            rw [← decodeChain_cons, ← chain_drop_cons hklt]
            exact hrest
          obtain ⟨da, db, hd2, hA, hB⟩ := tidSeq_append_split hdc
          have hok2 : ScanOK blocks chain attno (k + 1)
              { scan with lastbuf := some (chain.getD (k + 1) 0) } t ds₂ := by
            refine ⟨hact, hattno, hnext, hklt, rfl, [], da, db,
              [], (pageAt blocks (chain.getD (k + 1) 0)).leafItems, hd2, rfl,
              by rw [List.nil_append]; exact hA, ?_, by rw [hB], Or.inl ⟨hhd, rfl⟩⟩
            · intro x hx
              exact absurd hx (List.not_mem_nil x)
          have hres := ih (k + 1) _ t ds₂ attno hok2
            (Or.inr (Or.inl ⟨hhd, by omega⟩))
          rw [heq2, hr, hds1c, List.nil_append]
          exact hres
    · -- decompressor mode
      have hhdok : scan.has_decompressed = true := hhd
      cases hdsSc : dsS with
      | cons d ds =>
        have hstream2 : scan.decompressor =
            (t, d) :: tidSeq (ItemPointerIncrement t) ds := by
          rw [hstream, hdsSc]
          rfl
        refine Or.inr ⟨d, (ds ++ dsT) ++ ds₂,
          { scan with decompressor := tidSeq (ItemPointerIncrement t) ds, nexttid := ItemPointerIncrement t }, k, ?_, ?_, ?_⟩
        · rw [hr, hds1, hdsSc]
          simp [List.append_assoc]
        · rw [zsbt_scan_next, if_neg hactne, if_pos hhdok, hnext, hstream2,
            zs_decompress_read_first_head]
          simp only []
          rw [hattno]
        · refine ⟨hact, hattno, rfl, hk, hlast, consumed ++ [(t, d)],
            ds ++ dsT, ds₂, doneIts, todoIts, rfl, hsplitIts, ?_, ?_, ?_,
            Or.inr ⟨hhd, ds, dsT, rfl, rfl, ?_⟩⟩
          · rw [hdecode, hds1, hdsSc, List.cons_append, consumed_shift]
          · exact recsBelow_append (recsBelow_mono hbelow)
              (recsBelow_single t d)
          · rw [hrest, hds1, hdsSc, List.cons_append, tidSeqNext_cons]
          · rw [hdoneS, hdsSc, consumed_shift]
      | nil =>
        have hstream2 : scan.decompressor = [] := by
          rw [hstream, hdsSc]
          rfl
        have heq2 : zsbt_scan_next oracle blocks (fuel + 1) scan =
            zsbt_scan_next oracle blocks fuel
              { scan with has_decompressed := false, decompressor := [] } := by
          rw [zsbt_scan_next, if_neg hactne, if_pos hhdok, hnext, hstream2]
          rfl
        have hok2 : ScanOK blocks chain attno k
            { scan with has_decompressed := false, decompressor := [] } t r := by
          refine ⟨hact, hattno, hnext, hk, hlast, consumed, ds₁, ds₂, doneIts,
            todoIts, hr, hsplitIts, hdecode, hbelow, hrest,
            Or.inl ⟨rfl, ?_⟩⟩
          rw [hdoneS, hdsSc]
          show consumed ++ ([] : List (ItemPointerData × Nat)) = consumed
          exact List.append_nil consumed
        have hfuel2 : chain.length - k + 2 ≤ fuel := by
          rcases hfuel with ⟨_, hc, _⟩ | ⟨hc, _⟩ | h
          · rw [hstream2] at hc
            exact absurd rfl hc
          · rw [hhd] at hc
            exact absurd hc (fun hx => Bool.noConfusion hx)
          · omega
        have hres := ih k _ t r attno hok2 (Or.inr (Or.inl ⟨rfl, hfuel2⟩))
        rw [heq2]
        exact hres

theorem zsbt_scan_all_run (oracle : ItemPointerData → Bool)
    (blocks : List ZSPage) (chain : List Nat)
    (hfacts : ∀ m, m < chain.length → ∃ pg,
      blocks.get? (chain.getD m 0) = some pg ∧
      (m + 1 < chain.length → pg.zs_next = some (chain.getD (m + 1) 0) ∧
        chain.getD m 0 ≠ chain.getD (m + 1) 0) ∧
      (m + 1 = chain.length → pg.zs_next = none))
    (hitems : ∀ m, m < chain.length →
      ∀ it ∈ (pageAt blocks (chain.getD m 0)).leafItems, leafItemOK it)
    (fuelStep : Nat) (hfs : chain.length + 3 ≤ fuelStep) :
    ∀ (r : List Nat) (k : Nat) (scan : ZSBtreeScan) (t : ItemPointerData)
      (attno : Nat), ScanOK blocks chain attno k scan t r →
    zsbt_scan_all oracle blocks fuelStep (r.length + 1) scan =
      some ((tidSeq t r).map
        (fun p => (p.1, p.2, if attno = 1 then oracle p.1 else true))) := by
  intro r
  induction r with
  | nil =>
    intro k scan t attno hok
    have h := zsbt_scan_next_run oracle blocks chain hfacts hitems fuelStep k
      scan t [] attno hok (Or.inr (Or.inr (by omega)))
    rcases h with ⟨_, scan', heq⟩ | ⟨d, rest, _, _, habs, _⟩
    · rw [zsbt_scan_all, heq]
      rfl
    · exact absurd habs (by simp)
  | cons d ds ih =>
    intro k scan t attno hok
    have h := zsbt_scan_next_run oracle blocks chain hfacts hitems fuelStep k
      scan t (d :: ds) attno hok (Or.inr (Or.inr (by omega)))
    rcases h with ⟨habs, _⟩ | ⟨d', rest', scan', k', hre, heq, hok'⟩
    · exact absurd habs (by simp)
    · have hd' : d = d' := by injection hre
      have hrest' : ds = rest' := by injection hre
      rw [← hd'] at heq
      rw [← hrest'] at hok'
      rw [zsbt_scan_all, heq]
      simp only [List.length_cons]
      rw [ih k' scan' (ItemPointerIncrement t) attno hok']
      rfl

theorem zsbt_scan_of_inv (oracle : ItemPointerData → Bool) (attno : Nat)
    (st : ZSTreeState) (datums : List Nat) (hinv : ZSInv st datums) :
    ∃ scan, zsbt_begin_scan (st.blocks.length + 2) st attno ⟨0, 1⟩ =
        some (scan, st) ∧
      zsbt_scan_all oracle st.blocks (st.blocks.length + 4)
          (datums.length + 1) scan =
        some ((tidSeq ⟨0, 1⟩ datums).map
          (fun p => (p.1, p.2, if attno = 1 then oracle p.1 else true))) := by
  obtain ⟨td, hT⟩ := hinv
  obtain ⟨upper, lspine, chain⟩ := td
  have hchne : chain ≠ [] := hT.chain_ne
  have hclen1 : 1 ≤ chain.length := List.length_pos.mpr hchne
  have hmeta : st.meta = some (upper.getLastD (chain.getLastD 0)) := hT.meta_ok
  have hls : LSpineOK st.blocks upper.length lspine := hT.lspine_ok
  have hlshead : lspine.headD 0 = upper.getLastD (chain.getLastD 0) :=
    hT.lspine_head
  have hlslast : lspine.getLastD 0 = chain.headD 0 := hT.lspine_last
  have hco : decodeChain st.blocks chain = tidSeq ⟨0, 1⟩ datums :=
    hT.content_ok
  have hsize : upper.length + chain.length ≤ st.blocks.length + 1 :=
    hT.size_ok
  have hchfacts : ∀ k, k < chain.length →
      ∃ pg, st.blocks.get? (chain.getD k 0) = some pg ∧
        pg.zs_level = 0 ∧ pg.zs_lokey = ⟨0 + k, 1⟩ ∧
        (k + 1 < chain.length → pg.zs_next = some (chain.getD (k + 1) 0) ∧
          chain.getD k 0 ≠ chain.getD (k + 1) 0) ∧
        (k + 1 = chain.length → pg.zs_next = none) :=
    ChainOK_facts hT.chain_ok
  have hio : ∀ b ∈ chain, ∀ it ∈ (pageAt st.blocks b).leafItems,
      leafItemOK it := hT.items_ok
  have hfacts : ∀ m, m < chain.length → ∃ pg,
      st.blocks.get? (chain.getD m 0) = some pg ∧
      (m + 1 < chain.length → pg.zs_next = some (chain.getD (m + 1) 0) ∧
        chain.getD m 0 ≠ chain.getD (m + 1) 0) ∧
      (m + 1 = chain.length → pg.zs_next = none) := by
    intro m hm
    obtain ⟨pg, h1, _, _, h4, h5⟩ := hchfacts m hm
    exact ⟨pg, h1, h4, h5⟩
  have hitems : ∀ m, m < chain.length →
      ∀ it ∈ (pageAt st.blocks (chain.getD m 0)).leafItems, leafItemOK it := by
    intro m hm it hit
    exact hio (chain.getD m 0) (getD_mem_of_lt hm 0) it hit
  have hdesc := zsbt_descend_left hls none (Or.inl rfl)
    (st.blocks.length + 1 - upper.length)
  rw [hlshead, hlslast] at hdesc
  have hfe : st.blocks.length + 2 =
      upper.length + (st.blocks.length + 1 - upper.length) + 1 := by omega
  refine ⟨{ active := true, attno := attno, nexttid := ⟨0, 1⟩, lastbuf := some (chain.headD 0), decompressor := [], has_decompressed := false }, ?_, ?_⟩
  · unfold zsbt_begin_scan zsmeta_get_root_for_attribute
    rw [hmeta]
    simp only []
    rw [hfe, hdesc]
  · have hco2 := hco
    rw [show chain = chain.getD 0 0 :: chain.drop 1 from
      (List.drop_zero chain).symm.trans (chain_drop_cons (by omega)),
      decodeChain_cons] at hco2
    obtain ⟨da, db, hd2, hA, hB⟩ := tidSeq_append_split hco2
    have hok : ScanOK st.blocks chain attno 0
        { active := true, attno := attno, nexttid := ⟨0, 1⟩, lastbuf := some (chain.headD 0), decompressor := [], has_decompressed := false }
        ⟨0, 1⟩ datums := by
      refine ⟨rfl, rfl, rfl, by omega, ?_, [], da, db, [],
        (pageAt st.blocks (chain.getD 0 0)).leafItems, hd2, rfl,
        by rw [List.nil_append]; exact hA, ?_, by rw [hB], Or.inl ⟨rfl, rfl⟩⟩
      · show some (chain.headD 0) = some (chain.getD 0 0)
        cases chain with
        | nil => exact absurd rfl hchne
        | cons a l => rfl
      · intro x hx
        exact absurd hx (List.not_mem_nil x)
    have := zsbt_scan_all_run oracle st.blocks chain hfacts hitems
      (st.blocks.length + 4) (by omega) datums 0 _ ⟨0, 1⟩ attno hok
    exact this

/-- The whole chain of inserts starting from a completely empty tree. -/
theorem zsbt_insert_all_empty_spec (codec : ZSCodec) (attlen attno : Nat)
    (d : Nat) (ds : List Nat) (hn : (d :: ds).length ≤ MaxBlockNumber) :
    ∃ st', zsbt_insert_all codec attlen attno (d :: ds) ⟨none, []⟩ =
        some (((tidSeq ⟨0, 1⟩ (d :: ds)).map Prod.fst), st') ∧
      ZSInv st' (d :: ds) := by
  obtain ⟨st1, heq1, hinv1⟩ := zsbt_insert_step codec attlen attno
    ⟨some 0, [emptyRootLeaf]⟩ [] d ZSInv_init (by decide)
  have hinv1b : ZSInv st1 [d] := by
    rw [List.nil_append] at hinv1
    exact hinv1
  rw [List.length_cons] at hn
  obtain ⟨st2, heq2, hinv2⟩ := zsbt_insert_all_spec codec attlen attno
    ds [d] st1 hinv1b (by rw [List.length_cons, List.length_nil]; omega)
  have heq1b : zsbt_insert codec attlen attno 3 ⟨some 0, [emptyRootLeaf]⟩ d =
      some (tidSeqNext ⟨0, 1⟩ [] , st1) := heq1
  have hinv2b : ZSInv st2 (d :: ds) := by
    rw [show ([d] : List Nat) ++ ds = d :: ds from rfl] at hinv2
    exact hinv2
  refine ⟨st2, ?_, hinv2b⟩
  show (match zsbt_insert codec attlen attno 3 ⟨none, []⟩ d with
    | none => none
    | some (tid, st1) =>
      match zsbt_insert_all codec attlen attno ds st1 with
      | none => none
      | some (tids, st2) => some (tid :: tids, st2)) = _
  rw [zsbt_insert_from_empty codec attlen attno 3 d, heq1b]
  simp only []
  rw [heq2]
  rfl

/-- C3: for every sequence of datums inserted under one attribute into an
initially empty tree, the inserter assigns the consecutive TID sequence
starting at `(0,1)` (strictly increasing, no duplicates), and a scan
started at TID `(0,1)` afterwards returns exactly those datums, in
insertion order, paired with exactly those TIDs — no duplicates and no
omissions. -/
theorem zsbt_insert_then_scan_roundtrip (codec : ZSCodec)
    (attlen attno : Nat) (datums : List Nat)
    (oracle : ItemPointerData → Bool)
    (hn : datums.length ≤ MaxBlockNumber) :
    ∃ (tids : List ItemPointerData) (st : ZSTreeState) (scan : ZSBtreeScan),
      zsbt_insert_all codec attlen attno datums ⟨none, []⟩ =
        some (tids, st) ∧
      tids = (tidSeq ⟨0, 1⟩ datums).map Prod.fst ∧
      tids.Chain' tidLt ∧
      zsbt_begin_scan (st.blocks.length + 2) st attno ⟨0, 1⟩ =
        some (scan, st) ∧
      zsbt_scan_all oracle st.blocks (st.blocks.length + 4)
          (datums.length + 1) scan =
        some ((tidSeq ⟨0, 1⟩ datums).map
          (fun p => (p.1, p.2, if attno = 1 then oracle p.1 else true))) := by
  have hchain : ((tidSeq ⟨0, 1⟩ datums).map Prod.fst).Chain' tidLt := by
    rw [List.chain'_map]
    exact tidSeq_chain ⟨0, 1⟩ datums
      ⟨Nat.le_refl 1, by show (1 : Nat) ≤ 0xFFFF; omega⟩
  cases datums with
  | nil =>
    exact ⟨[], ⟨none, []⟩, { active := false, attno := 0, nexttid := ⟨0, 0⟩, lastbuf := none, decompressor := [], has_decompressed := false },
      rfl, rfl, List.chain'_nil, rfl, rfl⟩
  | cons d ds =>
    obtain ⟨st', heqI, hinv⟩ :=
      zsbt_insert_all_empty_spec codec attlen attno d ds hn
    obtain ⟨scan, heqB, heqS⟩ :=
      zsbt_scan_of_inv oracle attno st' (d :: ds) hinv
    exact ⟨_, st', scan, heqI, rfl, hchain, heqB, heqS⟩

/-- C3 witness: the round trip at a concrete input — two datums inserted
under attribute 2 with a codec whose compressed sizes never help. -/
theorem zsbt_insert_then_scan_roundtrip_witness :
    (([5, 7] : List Nat).length ≤ MaxBlockNumber) ∧
    ∃ (tids : List ItemPointerData) (st : ZSTreeState) (scan : ZSBtreeScan),
      zsbt_insert_all alwaysHugeCodec 4 2 [5, 7] ⟨none, []⟩ =
        some (tids, st) ∧
      tids = (tidSeq ⟨0, 1⟩ [5, 7]).map Prod.fst ∧
      tids.Chain' tidLt ∧
      zsbt_begin_scan (st.blocks.length + 2) st 2 ⟨0, 1⟩ =
        some (scan, st) ∧
      zsbt_scan_all (fun _ => true) st.blocks (st.blocks.length + 4)
          (([5, 7] : List Nat).length + 1) scan =
        some ((tidSeq ⟨0, 1⟩ [5, 7]).map
          (fun p => (p.1, p.2, if 2 = 1 then (fun _ => true) p.1 else true))) :=
  ⟨by decide, zsbt_insert_then_scan_roundtrip alwaysHugeCodec 4 2 [5, 7]
    (fun _ => true) (by decide)⟩

end ZedStore
